import Mathlib

/-!
# entt_ext: relationship hierarchy over an entity registry

A shallow embedding of `src/relation/relationship.hpp` (the `relationship`
record, `child_iterator`, `child_range` and `relational_registry`) and of
`src/system/group.hpp`, together with theorems about their operations.

Entity handles are natural numbers: `0` stands for `entt::null` and the
substrate issues the handles `1, 2, ...`.  Every access to a relationship record
goes through the store of the registry, so the C++ references `child_rel`,
`parent_rel`, ... are read and written at the moment the source reads and writes
them.  A lookup of a record that does not exist (undefined behaviour of
`registry->get<relationship>`) makes the operation return `none`; so does a
recursion or an iteration that runs out of fuel.  `child_count` is a
`std::size_t` and wraps modulo `2^64`.

The file has three parts: the definitions (the operations of the source, the
invariants of section 3 of the specification, example states), lemmas about the
operations under the invariants (closed forms of `unparent` and `attach_child`,
preservation of the invariants, total correctness of `destroy`), and the
theorems for the claims about the repository, each marked with its claim number.
-/

namespace entt_ext

/-- Entity handle (`entt::entity`). -/
abbrev entity := Nat

/-- The distinguished null handle (`entt::null`). -/
def null : entity := 0

/-- Number of handles the substrate can issue (32-bit identifiers). -/
def entity_limit : Nat := 4294967295

/-- Modulus of `std::size_t` arithmetic (64-bit). -/
def size_mod : Nat := 18446744073709551616

/-- Relationship component tying an entity to a parent and any siblings
(`struct relationship`, lines 10-18). -/
structure relationship where
  parent : entity
  first_child : entity
  last_child : entity
  prev_sibling : entity
  next_sibling : entity
  child_count : Nat
  deriving DecidableEq, Repr

/-- The default-constructed record: all links null, count zero. -/
def relationship.fresh : relationship :=
  { parent := null, first_child := null, last_child := null,
    prev_sibling := null, next_sibling := null, child_count := 0 }

/-- Modelled from the spec: the entity substrate (`entt::registry`), which is
not part of this repository.  It issues unique handles (`next` is the next
handle to issue, handles are never reused), tracks which handles are alive and
stores one optional relationship record per handle. -/
structure registry where
  next : Nat
  alive : entity → Bool
  rel : entity → Option relationship

/-- Modelled from the spec: the substrate with no entity. -/
def registry.init : registry :=
  { next := 1, alive := fun _ => false, rel := fun _ => none }

/-- Modelled from the spec: `registry->valid(e)`; the null handle is never
valid. -/
def registry.valid (reg : registry) (e : entity) : Bool :=
  e != null && reg.alive e

/-- Modelled from the spec: `registry->create()`; issues the next unused handle
and fails (allocation failure) when the handle space is exhausted. -/
def registry.create (reg : registry) : Option (registry × entity) :=
  if reg.next < entity_limit then
    some ({ reg with next := reg.next + 1,
                     alive := Function.update reg.alive reg.next true }, reg.next)
  else none

/-- Modelled from the spec: `registry->emplace<relationship>(e)`; attaches a
default-constructed record. -/
def registry.emplace (reg : registry) (e : entity) : registry :=
  { reg with rel := Function.update reg.rel e (some relationship.fresh) }

/-- Modelled from the spec: `registry->remove<relationship>(e)`. -/
def registry.remove (reg : registry) (e : entity) : registry :=
  { reg with rel := Function.update reg.rel e none }

/-- Modelled from the spec: `registry->destroy(e)`; releases the handle together
with its components. -/
def registry.destroy (reg : registry) (e : entity) : registry :=
  { reg with alive := Function.update reg.alive e false,
             rel := Function.update reg.rel e none }

/-- Modelled from the spec: `registry->get<relationship>(e)`; `none` stands for
the undefined behaviour of reading the record of the null handle or of an entity
without a record. -/
def registry.get (reg : registry) (e : entity) : Option relationship :=
  if e = null then none else reg.rel e

/-- Unchecked record access `get_relationship(entity)` (lines 160-163). -/
def get_relationship (reg : registry) (e : entity) : Option relationship :=
  reg.get e

/-- A write through the reference returned by `get_relationship(e)`. -/
def modify (reg : registry) (e : entity) (f : relationship → relationship) :
    Option registry :=
  match get_relationship reg e with
  | none => none
  | some r => some { reg with rel := Function.update reg.rel e (some (f r)) }

/-- The private `update_sibling_links(prev, next)` (lines 81-91). -/
def update_sibling_links (reg : registry) (prev next : entity) : Option registry := do
  let reg1 ← if prev ≠ null then
      modify reg prev (fun r => { r with next_sibling := next })
    else some reg
  if next ≠ null then
    modify reg1 next (fun r => { r with prev_sibling := prev })
  else some reg1

/-- The private `attach_child(parent_entity, child_entity)` (lines 93-113). -/
def attach_child (reg : registry) (parent_entity child_entity : entity) :
    Option registry := do
  let _ ← get_relationship reg parent_entity
  let _ ← get_relationship reg child_entity
  let reg1 ← modify reg child_entity (fun r => { r with parent := parent_entity })
  let reg2 ← modify reg1 parent_entity
    (fun r => { r with child_count := (r.child_count + 1) % size_mod })
  let parent_rel ← get_relationship reg2 parent_entity
  if parent_rel.last_child = null then
    let reg3 ← modify reg2 parent_entity (fun r => { r with first_child := child_entity })
    modify reg3 parent_entity (fun r => { r with last_child := child_entity })
  else
    let reg3 ← modify reg2 parent_rel.last_child
      (fun r => { r with next_sibling := child_entity })
    let parent_rel3 ← get_relationship reg3 parent_entity
    let reg4 ← modify reg3 child_entity
      (fun r => { r with prev_sibling := parent_rel3.last_child })
    modify reg4 parent_entity (fun r => { r with last_child := child_entity })

/-- The public `create()` (lines 148-153). -/
def create (reg : registry) : Option (registry × entity) :=
  match reg.create with
  | none => none
  | some (reg1, e) => some (reg1.emplace e, e)

/-- The public `create_child(parent_entity)` (lines 170-179); an invalid parent
gives the null handle and the unchanged registry. -/
def create_child (reg : registry) (parent_entity : entity) :
    Option (registry × entity) :=
  if !reg.valid parent_entity then some (reg, null)
  else
    match create reg with
    | none => none
    | some (reg1, child_entity) =>
      match attach_child reg1 parent_entity child_entity with
      | none => none
      | some reg2 => some (reg2, child_entity)

/-- The public `unparent(child_entity)` (lines 185-213).  The record of
`child_rel.parent` is looked up before the null test of line 195. -/
def unparent (reg : registry) (child_entity : entity) : Option registry :=
  if !reg.valid child_entity then some reg
  else
    match get_relationship reg child_entity with
    | none => none
    | some child_rel =>
      let parent_entity := child_rel.parent
      match get_relationship reg parent_entity with
      | none => none
      | some parent_rel =>
        if child_rel.parent = null then some reg
        else do
          let reg1 ← if parent_rel.first_child = child_entity then
              modify reg parent_entity
                (fun r => { r with first_child := child_rel.next_sibling })
            else some reg
          let parent_rel1 ← get_relationship reg1 parent_entity
          let child_rel1 ← get_relationship reg1 child_entity
          let reg2 ← if parent_rel1.last_child = child_entity then
              modify reg1 parent_entity
                (fun r => { r with last_child := child_rel1.prev_sibling })
            else some reg1
          let child_rel2 ← get_relationship reg2 child_entity
          let reg3 ← update_sibling_links reg2 child_rel2.prev_sibling child_rel2.next_sibling
          let reg4 ← modify reg3 child_entity (fun r => { r with parent := null })
          modify reg4 parent_entity
            (fun r => { r with child_count := (r.child_count + size_mod - 1) % size_mod })

/-- The public `reparent(child_entity, new_parent_entity)` (lines 220-229). -/
def reparent (reg : registry) (child_entity new_parent_entity : entity) :
    Option registry :=
  if !reg.valid child_entity || !reg.valid new_parent_entity then some reg
  else
    match unparent reg child_entity with
    | none => none
    | some reg1 => attach_child reg1 new_parent_entity child_entity

mutual
/-- The public `destroy(entity)` (lines 235-258).  The recursion of the source
is bounded by `fuel`; `none` when the fuel runs out or a record is missing. -/
def destroy : Nat → registry → entity → Option registry
  | 0, _, _ => none
  | fuel + 1, reg, e =>
    if !reg.valid e then some reg
    else
      match get_relationship reg e with
      | none => none
      | some rel =>
        match destroy_children fuel reg rel.first_child with
        | none => none
        | some reg1 =>
          match get_relationship reg1 e with
          | none => none
          | some rel1 =>
            match (if rel1.parent ≠ null then unparent reg1 e else some reg1) with
            | none => none
            | some reg2 => some ((reg2.remove e).destroy e)
/-- The `while (curr != entt::null)` loop of `destroy` (lines 244-249): the next
sibling is read before the current child is destroyed. -/
def destroy_children : Nat → registry → entity → Option registry
  | 0, _, _ => none
  | fuel + 1, reg, curr =>
    if curr = null then some reg
    else
      match get_relationship reg curr with
      | none => none
      | some curr_rel =>
        match destroy fuel reg curr with
        | none => none
        | some reg1 => destroy_children fuel reg1 curr_rel.next_sibling
end

/-- Cursor over a sibling list (`class child_iterator`, lines 20-53). -/
structure child_iterator where
  current_entity : entity
  deriving DecidableEq, Repr

/-- Dereference `operator*` (line 34). -/
def child_iterator.deref (it : child_iterator) : entity := it.current_entity

/-- Pre-increment `operator++` (lines 36-41): reads the record of the current
entity. -/
def child_iterator.incr (reg : registry) (it : child_iterator) : Option child_iterator :=
  match reg.get it.current_entity with
  | none => none
  | some rel => some { current_entity := rel.next_sibling }

/-- Range over the children of one entity (`class child_range`, lines 55-69). -/
structure child_range where
  first_child : entity
  deriving DecidableEq, Repr

/-- The `begin()` of a range (line 63). -/
def child_range.begin (r : child_range) : child_iterator := { current_entity := r.first_child }

/-- The `end()` of a range (line 64). -/
def child_range.end_iter (_r : child_range) : child_iterator := { current_entity := null }

/-- The public `children(parent_entity)` (lines 265-271). -/
def children (reg : registry) (parent_entity : entity) : Option child_range :=
  if reg.valid parent_entity then
    match get_relationship reg parent_entity with
    | none => none
    | some rel => some { first_child := rel.first_child }
  else some { first_child := null }

/-- The range-based `for` loop over a cursor: the handles dereferenced until the
cursor equals `stop`, with at most `fuel` increments. -/
def walk (reg : registry) (stop : child_iterator) : Nat → child_iterator → Option (List entity)
  | 0, it => if it = stop then some [] else none
  | fuel + 1, it =>
    if it = stop then some []
    else
      match it.incr reg with
      | none => none
      | some it1 =>
        match walk reg stop fuel it1 with
        | none => none
        | some rest => some (it.deref :: rest)

/-- The loop `for (auto child : registry.children(parent_entity))`: the list of
handles it visits, `none` when it does not finish within `fuel` steps or reads a
missing record. -/
def iterate (fuel : Nat) (reg : registry) (parent_entity : entity) : Option (List entity) :=
  match children reg parent_entity with
  | none => none
  | some range => walk reg range.end_iter fuel range.begin

/-- The cursor after `k` increments, `none` when an increment reads a missing
record. -/
def advance (reg : registry) : Nat → child_iterator → Option child_iterator
  | 0, it => some it
  | k + 1, it =>
    match advance reg k it with
    | none => none
    | some it1 => it1.incr reg

/-- The loop of `TEST(Relationship, ParentChildDestruction)`, lines 25-28: `k`
calls of `create_child(parent_entity)`, collecting the returned handles. -/
def create_children : Nat → registry → entity → Option (registry × List entity)
  | 0, reg, _ => some (reg, [])
  | k + 1, reg, parent_entity =>
    match create_child reg parent_entity with
    | none => none
    | some (reg1, c) =>
      match create_children k reg1 parent_entity with
      | none => none
      | some (reg2, cs) => some (reg2, c :: cs)

/-- The loop of `TEST(Relationship, ParentChildDestruction)`, lines 29-32:
`destroy` applied to every handle of a list in order. -/
def destroy_each (fuel : Nat) : registry → List entity → Option registry
  | reg, [] => some reg
  | reg, c :: cs =>
    match destroy fuel reg c with
    | none => none
    | some reg1 => destroy_each fuel reg1 cs

/-- The loop of `TEST(Relationship, LargeHierarchy)`, lines 160-163: `depth`
calls of `create_child`, each on the handle returned by the previous call. -/
def create_chain : Nat → registry → entity → Option (registry × List entity)
  | 0, reg, _ => some (reg, [])
  | depth + 1, reg, current =>
    match create_child reg current with
    | none => none
    | some (reg1, c) =>
      match create_chain depth reg1 c with
      | none => none
      | some (reg2, cs) => some (reg2, c :: cs)

/-- The loop of `TEST(Relationship, LargeHierarchy)`, lines 165-170: follow
`first_child` links until one is null; returns the number of steps and the
entity reached. -/
def descend (reg : registry) : Nat → entity → Option (Nat × entity)
  | 0, _ => none
  | fuel + 1, current =>
    match get_relationship reg current with
    | none => none
    | some rel =>
      if rel.first_child ≠ null then
        match descend reg fuel rel.first_child with
        | none => none
        | some (steps, e) => some (steps + 1, e)
      else some (0, current)

/-- The wrapper object `relational_registry`: it holds the pointer it was
constructed from, `none` being the null pointer. -/
structure relational_registry where
  raw : Option registry

/-- The constructor `relational_registry(entt::registry* registry)` (line 120):
it stores the pointer. -/
def relational_registry.construct (p : Option registry) :
    Except String relational_registry :=
  Except.ok { raw := p }

/-- The constructor `system(entt::registry* registry)` (system.hpp, lines
80-86): it throws `std::invalid_argument` on a null pointer. -/
def system_construct (p : Option registry) : Except String (Option registry) :=
  match p with
  | none => Except.error "Pointed-to registry must not be null"
  | some reg => Except.ok (some reg)

/-- An update object (`class system`): `update(delta_time)` acts on a world
`W`. -/
structure system (T W : Type) where
  update : T → W → W

/-- An ordered collection of systems (`class group`, group.hpp). -/
structure group (T W : Type) where
  systems : List (system T W)

/-- The default-constructed group. -/
def group.init {T W : Type} : group T W := { systems := [] }

/-- The `emplace` of a group (lines 19-26): `push_back` of the new system. -/
def group.emplace {T W : Type} (g : group T W) (s : system T W) : group T W :=
  { systems := g.systems ++ [s] }

/-- The `update(delta_time)` of a group (lines 32-38). -/
def group.update {T W : Type} (g : group T W) (delta_time : T) (w : W) : W :=
  g.systems.foldl (fun w1 s => s.update delta_time w1) w

/-- The `size()` of a group (line 40). -/
def group.size {T W : Type} (g : group T W) : Nat := g.systems.length

/-- The `empty()` of a group (line 41). -/
def group.empty {T W : Type} (g : group T W) : Bool := g.systems.isEmpty

/-- The system of `TEST(System, GroupOrder)`: its update records its index and
the delta time it was called with. -/
def test_system (T : Type) (i : Nat) : system T (List (Nat × T)) :=
  { update := fun dt order => order ++ [(i, dt)] }

/-! ## Invariants of section 3 -/

/-- A stretch `L` of the sibling list of `p`: every node is non-null, has a
record whose parent is `p`, whose `prev_sibling` is the node before it (`prev`
for the first) and whose `next_sibling` is the node after it (`nxt` for the
last). -/
def seg (reg : registry) (p : entity) : entity → List entity → entity → Prop
  | _, [], _ => True
  | prev, x :: xs, nxt =>
    x ≠ null ∧ ∃ r, reg.rel x = some r ∧ r.parent = p ∧ r.prev_sibling = prev ∧
      r.next_sibling = xs.headD nxt ∧ seg reg p x xs nxt

/-- The invariants of section 3 with the child lists `K` and a height `h` made
explicit: the substrate only holds records of issued, live, non-null handles;
the child list of every record is a finite duplicate-free doubly linked
sequence from `first_child` to `last_child` with null sentinels, of length
`child_count`, whose nodes have this entity as parent; a record with a parent is
in the child list of that parent; and children are strictly lower than their
parent (the hierarchy is acyclic). -/
structure InvK (K : entity → List entity) (h : entity → Nat) (reg : registry) : Prop where
  next_pos : 0 < reg.next
  next_le : reg.next ≤ entity_limit
  alive_lt : ∀ e, reg.alive e = true → e < reg.next
  alive_null : reg.alive null = false
  rel_alive : ∀ e r, reg.rel e = some r → reg.alive e = true
  clean : ∀ p, reg.rel p = none → K p = []
  first : ∀ p r, reg.rel p = some r → r.first_child = (K p).headD null
  last : ∀ p r, reg.rel p = some r → r.last_child = (K p).getLastD null
  count : ∀ p r, reg.rel p = some r → r.child_count = (K p).length
  nodup : ∀ p r, reg.rel p = some r → (K p).Nodup
  sibs : ∀ p r, reg.rel p = some r → seg reg p null (K p) null
  attached : ∀ c r, reg.rel c = some r → r.parent ≠ null →
    (∃ rp, reg.rel r.parent = some rp) ∧ c ∈ K r.parent
  ranked : ∀ c r, reg.rel c = some r → r.parent ≠ null → h c < h r.parent

/-- The invariants of section 3. -/
def Inv (reg : registry) : Prop := ∃ K h, InvK K h reg

/-- The handle `c` is a child of `p`: iterating `children(p)` yields it. -/
def is_child (reg : registry) (p c : entity) : Prop :=
  ∃ n L, iterate n reg p = some L ∧ c ∈ L

/-- The handle `e` is a transitive descendant of `E`: reachable from `E`
through child lists. -/
def descendant (reg : registry) (E e : entity) : Prop :=
  Relation.TransGen (is_child reg) E e

/-- The handle `e` is `E` or has `E` on its chain of parents. -/
inductive anc (reg : registry) (E : entity) : entity → Prop
  | self : anc reg E E
  | step {e : entity} {r : relationship} :
      reg.rel e = some r → r.parent ≠ null → anc reg E r.parent → anc reg E e

/-- The records after `c` (with record `rc`) has been taken out of the child
list of `rc.parent`: what `unparent` writes. -/
def unlink_rel (rel : entity → Option relationship) (c : entity) (rc : relationship) :
    entity → Option relationship :=
  fun e =>
    if e = c then some { rc with parent := null }
    else if e = rc.parent then
      (rel e).map fun r =>
        { r with first_child := if r.first_child = c then rc.next_sibling else r.first_child,
                 last_child := if r.last_child = c then rc.prev_sibling else r.last_child,
                 child_count := (r.child_count + size_mod - 1) % size_mod }
    else if e = rc.prev_sibling then
      (rel e).map fun r => { r with next_sibling := rc.next_sibling }
    else if e = rc.next_sibling then
      (rel e).map fun r => { r with prev_sibling := rc.prev_sibling }
    else rel e

/-- The records after `c` (with record `rc`) has been appended to the child
list of `P` (with record `rP`): what `attach_child` writes. -/
def attach_rel (rel : entity → Option relationship) (P c : entity) (rP rc : relationship) :
    entity → Option relationship :=
  fun e =>
    if e = P then
      some { rP with first_child := if rP.last_child = null then c else rP.first_child,
                     last_child := c,
                     child_count := (rP.child_count + 1) % size_mod }
    else if e = c then
      some { rc with parent := P,
                     prev_sibling := if rP.last_child = null then rc.prev_sibling
                                     else rP.last_child }
    else if e = rP.last_child then
      (rel e).map fun r => { r with next_sibling := c }
    else rel e

/-- The state written by `create_child(P)` for a parent with a record. -/
def child_state (reg : registry) (P : entity) (rP : relationship) : registry :=
  ⟨reg.next + 1, Function.update reg.alive reg.next true,
    attach_rel (Function.update reg.rel reg.next (some relationship.fresh)) P reg.next rP
      relationship.fresh⟩

/-- The records after `destroy(E)` has detached `E` (with record `rE`) from
its parent, if it has one. -/
def detach_rel (rel : entity → Option relationship) (E : entity) (rE : relationship) :
    entity → Option relationship :=
  if rE.parent = null then rel else unlink_rel rel E rE

/-- What `destroy(E)` achieves from a state with child lists `K`: the
invariants hold again, with `E` taken out of the child list of its parent; no
handle is issued; `E` and the entities below it lose their record and their
handle; every other entity keeps its handle and has the record that detaching
`E` leaves. -/
structure destroy_post (K : entity → List entity) (h : entity → Nat) (reg : registry)
    (E : entity) (rE : relationship) (reg1 : registry) : Prop where
  inv : ∃ K1, InvK K1 h reg1 ∧
    ∀ e r, reg1.rel e = some r → K1 e = if e = rE.parent then (K e).erase E else K e
  next_eq : reg1.next = reg.next
  gone : ∀ e, anc reg E e → reg1.rel e = none ∧ reg1.alive e = false
  kept : ∀ e, ¬ anc reg E e →
    reg1.alive e = reg.alive e ∧ reg1.rel e = detach_rel reg.rel E rE e

/-! ## Example states -/

/-- The registry of a successful call, the empty registry otherwise. -/
def state_of (o : Option (registry × entity)) : registry :=
  match o with
  | some (reg, _) => reg
  | none => registry.init

/-- One root, handle 1. -/
def ex_root : registry := state_of (create registry.init)

/-- The root 1 with the child 2. -/
def ex_child : registry := state_of (create_child ex_root 1)

/-- The root 1 with the children 2 and 3, in this order. -/
def ex_two_children : registry := state_of (create_child ex_child 1)

/-- The roots 1 and 2 without children. -/
def ex_two_roots : registry := state_of (create ex_root)

/-- The roots 1 and 2; the children of 1 are 3 and 4, in this order. -/
def ex_family : registry :=
  state_of (create_child (state_of (create_child ex_two_roots 1)) 1)

/-- The example with one child after the write of `TEST(Relationship,
CircularReferencePrevention)`: the `next_sibling` of the child 2 is the root 1. -/
def ex_circular : registry :=
  state_of ((modify ex_child 2 (fun r => { r with next_sibling := 1 })).map
    (fun reg => (reg, null)))

/-- The example with one root after a direct write that makes the root its own
last child. -/
def ex_self_last : registry :=
  state_of ((modify ex_root 1 (fun r => { r with last_child := 1 })).map
    (fun reg => (reg, null)))

/-- A chain below `R`: every entity of the chain but the last has exactly one
child, the next entity of the chain, which is its first and its last child and
what iterating its children yields; the last entity has no first child. -/
def is_chain (reg : registry) : entity → List entity → Prop
  | R, [] => ∃ r, reg.rel R = some r ∧ r.first_child = null
  | R, c :: cs =>
    (∃ r, reg.rel R = some r ∧ r.child_count = 1 ∧ r.first_child = c ∧ r.last_child = c) ∧
    (∀ m, 1 ≤ m → iterate m reg R = some [c]) ∧ is_chain reg c cs

/-! ## Closed forms of the operations -/

set_option maxHeartbeats 400000

theorem get_some {reg : registry} {e : entity} {r : relationship} (hne : e ≠ null)
    (h : reg.rel e = some r) : get_relationship reg e = some r := by
  simp only [get_relationship, registry.get, if_neg hne, h]

theorem modify_some {reg : registry} {e : entity} {r : relationship} (hne : e ≠ null)
    (h : reg.rel e = some r) (f : relationship → relationship) :
    modify reg e f = some ⟨reg.next, reg.alive, Function.update reg.rel e (some (f r))⟩ := by
  simp only [modify, get_some hne h]

theorem unparent_attached {reg : registry} {c : entity} {rc rP : relationship}
    (h0 : reg.rel null = none)
    (hv : reg.alive c = true) (hc0 : c ≠ null) (hc : reg.rel c = some rc)
    (hP0 : rc.parent ≠ null) (hP : reg.rel rc.parent = some rP) (hPc : rc.parent ≠ c)
    (hfirst : rP.first_child = c ↔ rc.prev_sibling = null)
    (hlast : rP.last_child = c ↔ rc.next_sibling = null)
    (hprev : rc.prev_sibling ≠ null →
      (∃ r, reg.rel rc.prev_sibling = some r) ∧ rc.prev_sibling ≠ c ∧
        rc.prev_sibling ≠ rc.parent ∧ rc.prev_sibling ≠ rc.next_sibling)
    (hnext : rc.next_sibling ≠ null →
      (∃ r, reg.rel rc.next_sibling = some r) ∧ rc.next_sibling ≠ c ∧
        rc.next_sibling ≠ rc.parent) :
    unparent reg c = some ⟨reg.next, reg.alive, unlink_rel reg.rel c rc⟩ := by
  have hvalid : reg.valid c = true := by
    simp only [registry.valid, hv, Bool.and_true, bne_iff_ne, ne_eq]; exact hc0
  unfold unparent
  simp only [hvalid, Bool.not_true, Bool.false_eq_true, if_false, get_some hc0 hc,
    get_some hP0 hP, if_neg hP0]
  have hPc' := hPc.symm
  have hp : rc.prev_sibling = null ∨ (rc.prev_sibling ≠ null ∧
      ∃ r, reg.rel rc.prev_sibling = some r ∧ rc.prev_sibling ≠ c ∧ c ≠ rc.prev_sibling ∧
        rc.prev_sibling ≠ rc.parent ∧ rc.parent ≠ rc.prev_sibling ∧
        rc.prev_sibling ≠ rc.next_sibling ∧ rc.next_sibling ≠ rc.prev_sibling) := by
    by_cases h3 : rc.prev_sibling = null
    · exact Or.inl h3
    · obtain ⟨⟨rp, hrp⟩, hp1, hp2, hp3⟩ := hprev h3
      exact Or.inr ⟨h3, rp, hrp, hp1, hp1.symm, hp2, hp2.symm, hp3, hp3.symm⟩
  have hn : rc.next_sibling = null ∨ (rc.next_sibling ≠ null ∧
      ∃ r, reg.rel rc.next_sibling = some r ∧ rc.next_sibling ≠ c ∧ c ≠ rc.next_sibling ∧
        rc.next_sibling ≠ rc.parent ∧ rc.parent ≠ rc.next_sibling) := by
    by_cases h4 : rc.next_sibling = null
    · exact Or.inl h4
    · obtain ⟨⟨rn, hrn⟩, hn1, hn2⟩ := hnext h4
      exact Or.inr ⟨h4, rn, hrn, hn1, hn1.symm, hn2, hn2.symm⟩
  clear hprev hnext
  rcases hp with h3 | ⟨h3, rp, hrp, hp1, hp1', hp2, hp2', hp3, hp3'⟩ <;>
  rcases hn with h4 | ⟨h4, rn, hrn, hn1, hn1', hn2, hn2'⟩
  · have h1 : rP.first_child = c := hfirst.2 h3
    have h2 : rP.last_child = c := hlast.2 h4
    clear hfirst hlast
    simp only [*, if_true, if_false, not_false_eq_true, not_true_eq_false,
      Option.bind_eq_bind, Option.some_bind, modify, get_relationship, registry.get,
      update_sibling_links, Function.update_apply, ne_eq]
    congr 2
    funext e
    simp only [unlink_rel, Function.update_apply]
    by_cases e1 : e = c
    · subst e1; simp only [if_true, hPc', if_false, hc, h3, h4]
    · by_cases e2 : e = rc.parent
      · subst e2; simp only [e1, if_true, if_false, hP, Option.map_some', h1, h2, h3, h4]
      · simp only [e1, e2, if_false, h3, h4]
        split_ifs with e3
        · subst e3; rw [h0]; rfl
        · rfl
  · have h1 : rP.first_child = c := hfirst.2 h3
    have h2 : ¬ rP.last_child = c := fun h => h4 (hlast.1 h)
    clear hfirst hlast
    simp only [*, if_true, if_false, not_false_eq_true, not_true_eq_false,
      Option.bind_eq_bind, Option.some_bind, modify, get_relationship, registry.get,
      update_sibling_links, Function.update_apply, ne_eq]
    congr 2
    funext e
    simp only [unlink_rel, Function.update_apply]
    by_cases e1 : e = c
    · subst e1; simp only [if_true, hPc', if_false, hc, h3, h4]
    · by_cases e2 : e = rc.parent
      · subst e2; simp only [e1, if_true, if_false, hP, Option.map_some', h1, h2, h3, h4]
      · simp only [e1, e2, if_false, h3, h4]
        by_cases e3 : e = null
        · subst e3; simp only [if_true, h0, Option.map_none', Ne.symm h4, if_false]
        · by_cases e4 : e = rc.next_sibling
          · subst e4; simp only [e3, if_true, if_false, hrn, Option.map_some', h3]
          · simp only [e3, e4, if_false]
  · have h1 : ¬ rP.first_child = c := fun h => h3 (hfirst.1 h)
    have h2 : rP.last_child = c := hlast.2 h4
    clear hfirst hlast
    simp only [*, if_true, if_false, not_false_eq_true, not_true_eq_false,
      Option.bind_eq_bind, Option.some_bind, modify, get_relationship, registry.get,
      update_sibling_links, Function.update_apply, ne_eq]
    congr 2
    funext e
    simp only [unlink_rel, Function.update_apply]
    by_cases e1 : e = c
    · subst e1; simp only [if_true, hPc', if_false, hc, h3, h4]
    · by_cases e2 : e = rc.parent
      · subst e2; simp only [e1, if_true, if_false, hP, Option.map_some', h1, h2, h3, h4]
      · simp only [e1, e2, if_false, h3, h4]
        by_cases e3 : e = rc.prev_sibling
        · subst e3; simp only [if_true, hrp, Option.map_some', h4]
        · simp only [e3, if_false]
          split_ifs with e4
          · subst e4; rw [h0]; rfl
          · rfl
  · have h1 : ¬ rP.first_child = c := fun h => h3 (hfirst.1 h)
    have h2 : ¬ rP.last_child = c := fun h => h4 (hlast.1 h)
    clear hfirst hlast
    simp only [*, if_true, if_false, not_false_eq_true, not_true_eq_false,
      Option.bind_eq_bind, Option.some_bind, modify, get_relationship, registry.get,
      update_sibling_links, Function.update_apply, ne_eq]
    congr 2
    funext e
    simp only [unlink_rel, Function.update_apply]
    by_cases e1 : e = c
    · subst e1; simp only [if_true, hPc', if_false, hc, h3, h4]
    · by_cases e2 : e = rc.parent
      · subst e2; simp only [e1, if_true, if_false, hP, Option.map_some', h1, h2, h3, h4]
      · simp only [e1, e2, if_false, h3, h4]
        by_cases e3 : e = rc.prev_sibling
        · subst e3; simp only [if_true, hrp, Option.map_some', hp3, if_false]
        · by_cases e4 : e = rc.next_sibling
          · subst e4; simp only [e3, if_true, if_false, hrn, Option.map_some']
          · simp only [e3, e4, if_false]

theorem attach_child_eq {reg : registry} {P c : entity} {rP rc : relationship}
    (h0 : reg.rel null = none) (hP0 : P ≠ null) (hc0 : c ≠ null)
    (hP : reg.rel P = some rP) (hc : reg.rel c = some rc) (hcP : c ≠ P)
    (hlast : rP.last_child ≠ null →
      (∃ r, reg.rel rP.last_child = some r) ∧ rP.last_child ≠ c ∧ rP.last_child ≠ P) :
    attach_child reg P c = some ⟨reg.next, reg.alive, attach_rel reg.rel P c rP rc⟩ := by
  unfold attach_child
  have hcP' := hcP.symm
  by_cases hl : rP.last_child = null
  · simp only [hl, hP, hc, hP0, hc0, hcP, hcP', if_true, if_false, not_false_eq_true,
      not_true_eq_false, Option.bind_eq_bind, Option.some_bind, modify, get_relationship,
      registry.get, Function.update_apply, ne_eq]
    congr 2
    funext e
    simp only [attach_rel, Function.update_apply, hl, if_true]
    by_cases e1 : e = P
    · subst e1; simp only [if_true]
    · by_cases e2 : e = c
      · subst e2; simp only [e1, if_true, if_false]
      · simp only [e1, e2, if_false]
        split_ifs with e3
        · subst e3; rw [h0]; rfl
        · rfl
  · obtain ⟨⟨rl, hrl⟩, hl1, hl2⟩ := hlast hl
    have hl1' := hl1.symm
    have hl2' := hl2.symm
    simp only [hl, hP, hc, hrl, hP0, hc0, hcP, hcP', hl1, hl2, hl1', hl2', if_true, if_false,
      not_false_eq_true, not_true_eq_false, Option.bind_eq_bind, Option.some_bind, modify,
      get_relationship, registry.get, Function.update_apply, ne_eq]
    congr 2
    funext e
    simp only [attach_rel, Function.update_apply, hl, if_false]
    by_cases e1 : e = P
    · subst e1; simp only [if_true]
    · by_cases e2 : e = c
      · subst e2; simp only [e1, if_true, if_false]
      · simp only [e1, e2, if_false]
        by_cases e3 : e = rP.last_child
        · subst e3; simp only [if_true, hrl, Option.map_some']
        · simp only [e3, if_false]

/-! ## Sibling segments -/

theorem headD_append (A B : List entity) (d : entity) :
    (A ++ B).headD d = A.headD (B.headD d) := by
  cases A <;> rfl

theorem getLastD_append_cons (A B : List entity) (b d : entity) :
    (A ++ b :: B).getLastD d = B.getLastD b := by
  induction A generalizing d with
  | nil => exact List.getLastD_cons _ _ _
  | cons a A ih => rw [List.cons_append, List.getLastD_cons]; exact ih a

theorem getLastD_append (A B : List entity) (d : entity) :
    (A ++ B).getLastD d = B.getLastD (A.getLastD d) := by
  cases B with
  | nil => simp
  | cons b B => rw [getLastD_append_cons, List.getLastD_cons]

theorem headD_mem_or (L : List entity) (d : entity) : L.headD d = d ∨ L.headD d ∈ L := by
  cases L with
  | nil => exact Or.inl rfl
  | cons a L => exact Or.inr (List.mem_cons_self _ _)

theorem getLastD_mem_or (L : List entity) (d : entity) :
    L.getLastD d = d ∨ L.getLastD d ∈ L := by
  induction L generalizing d with
  | nil => exact Or.inl rfl
  | cons a L ih =>
    rw [List.getLastD_cons]
    rcases ih a with h | h
    · rw [h]; exact Or.inr (List.mem_cons_self _ _)
    · exact Or.inr (List.mem_cons_of_mem _ h)

theorem seg_append (reg : registry) (p : entity) (A B : List entity) (prev nxt : entity) :
    seg reg p prev (A ++ B) nxt ↔
      seg reg p prev A (B.headD nxt) ∧ seg reg p (A.getLastD prev) B nxt := by
  induction A generalizing prev with
  | nil => simp [seg]
  | cons a A ih =>
    have hl : (a :: A).getLastD prev = A.getLastD a := List.getLastD_cons _ _ _
    rw [hl]
    show (a ≠ null ∧ ∃ r, reg.rel a = some r ∧ r.parent = p ∧ r.prev_sibling = prev ∧
        r.next_sibling = (A ++ B).headD nxt ∧ seg reg p a (A ++ B) nxt) ↔
      (a ≠ null ∧ ∃ r, reg.rel a = some r ∧ r.parent = p ∧ r.prev_sibling = prev ∧
        r.next_sibling = A.headD (B.headD nxt) ∧ seg reg p a A (B.headD nxt)) ∧
        seg reg p (A.getLastD a) B nxt
    rw [headD_append, ih a]
    constructor
    · rintro ⟨ha, r, h1, h2, h3, h4, h5, h6⟩
      exact ⟨⟨ha, r, h1, h2, h3, h4, h5⟩, h6⟩
    · rintro ⟨⟨ha, r, h1, h2, h3, h4, h5⟩, h6⟩
      exact ⟨ha, r, h1, h2, h3, h4, h5, h6⟩

theorem seg_congr {reg reg1 : registry} {p : entity} {L : List entity} {prev nxt : entity}
    (hfr : ∀ x ∈ L, ∀ r, reg.rel x = some r → ∃ r1, reg1.rel x = some r1 ∧
      r1.parent = r.parent ∧ r1.prev_sibling = r.prev_sibling ∧
      r1.next_sibling = r.next_sibling)
    (hs : seg reg p prev L nxt) : seg reg1 p prev L nxt := by
  induction L generalizing prev with
  | nil => trivial
  | cons a L ih =>
    obtain ⟨ha, r, hr, h1, h2, h3, h4⟩ := hs
    obtain ⟨r1, hr1, e1, e2, e3⟩ := hfr a (List.mem_cons_self _ _) r hr
    exact ⟨ha, r1, hr1, e1.trans h1, e2.trans h2, e3.trans h3,
      ih (fun x hx => hfr x (List.mem_cons_of_mem _ hx)) h4⟩

theorem seg_mem {reg : registry} {p : entity} {L : List entity} {prev nxt : entity}
    (hs : seg reg p prev L nxt) {x : entity} (hx : x ∈ L) :
    x ≠ null ∧ ∃ r, reg.rel x = some r ∧ r.parent = p := by
  induction L generalizing prev with
  | nil => simp at hx
  | cons a L ih =>
    obtain ⟨ha, r, hr, h1, _, _, h4⟩ := hs
    rcases List.mem_cons.1 hx with rfl | hx
    · exact ⟨ha, r, hr, h1⟩
    · exact ih h4 hx

theorem seg_null_not_mem {reg : registry} {p : entity} {L : List entity} {prev nxt : entity}
    (hs : seg reg p prev L nxt) : null ∉ L :=
  fun h => (seg_mem hs h).1 rfl

theorem walk_seg {reg : registry} {p : entity} {L : List entity} {prev : entity}
    (hs : seg reg p prev L null) (n : Nat) (hn : L.length ≤ n) :
    walk reg ⟨null⟩ n ⟨L.headD null⟩ = some L := by
  induction L generalizing prev n with
  | nil => cases n <;> simp [walk]
  | cons a L ih =>
    obtain ⟨ha, r, hr, _, _, h3, h4⟩ := hs
    cases n with
    | zero => simp at hn
    | succ n =>
      have hn1 : L.length ≤ n := by simpa using hn
      have hne : (⟨a⟩ : child_iterator) ≠ ⟨null⟩ := by
        intro h; exact ha (congrArg child_iterator.current_entity h)
      have hi : child_iterator.incr reg ⟨a⟩ = some ⟨L.headD null⟩ := by
        simp only [child_iterator.incr, registry.get, if_neg ha, hr, h3]
      show walk reg ⟨null⟩ (n + 1) ⟨a⟩ = some (a :: L)
      rw [walk, if_neg hne, hi]
      simp only [ih h4 n hn1, child_iterator.deref]

/-! ## Pointwise facts about `unlink_rel` -/

theorem unlink_rel_self (rel : entity → Option relationship) (c : entity) (rc : relationship) :
    unlink_rel rel c rc c = some { rc with parent := null } := by
  simp only [unlink_rel, if_true]

theorem unlink_rel_parent (rel : entity → Option relationship) {c : entity}
    {rc rP : relationship} (hPc : rc.parent ≠ c) (hP : rel rc.parent = some rP) :
    unlink_rel rel c rc rc.parent = some
      { rP with first_child := if rP.first_child = c then rc.next_sibling else rP.first_child,
                last_child := if rP.last_child = c then rc.prev_sibling else rP.last_child,
                child_count := (rP.child_count + size_mod - 1) % size_mod } := by
  simp only [unlink_rel, if_neg hPc, if_true, hP, Option.map_some']

theorem unlink_rel_prev (rel : entity → Option relationship) (c : entity)
    (rc r : relationship) (h1 : rc.prev_sibling ≠ c) (h2 : rc.prev_sibling ≠ rc.parent)
    (hr : rel rc.prev_sibling = some r) :
    unlink_rel rel c rc rc.prev_sibling = some { r with next_sibling := rc.next_sibling } := by
  simp only [unlink_rel, if_neg h1, if_neg h2, if_true, hr, Option.map_some']

theorem unlink_rel_next (rel : entity → Option relationship) (c : entity)
    (rc r : relationship) (h1 : rc.next_sibling ≠ c) (h2 : rc.next_sibling ≠ rc.parent)
    (h3 : rc.next_sibling ≠ rc.prev_sibling) (hr : rel rc.next_sibling = some r) :
    unlink_rel rel c rc rc.next_sibling = some { r with prev_sibling := rc.prev_sibling } := by
  simp only [unlink_rel, if_neg h1, if_neg h2, if_neg h3, if_true, hr, Option.map_some']

theorem unlink_rel_other {rel : entity → Option relationship} {c e : entity}
    {rc : relationship} (h1 : e ≠ c) (h2 : e ≠ rc.parent) (h3 : e ≠ rc.prev_sibling)
    (h4 : e ≠ rc.next_sibling) : unlink_rel rel c rc e = rel e := by
  simp only [unlink_rel, if_neg h1, if_neg h2, if_neg h3, if_neg h4]

theorem unlink_rel_none {rel : entity → Option relationship} {c e : entity}
    {rc : relationship} (h1 : e ≠ c) (hr : rel e = none) : unlink_rel rel c rc e = none := by
  simp only [unlink_rel, if_neg h1, hr, Option.map_none']
  split_ifs <;> rfl

theorem unlink_rel_some {rel : entity → Option relationship} {c e : entity}
    (rc : relationship) {r : relationship} (h1 : e ≠ c) (hr : rel e = some r) :
    ∃ r1, unlink_rel rel c rc e = some r1 ∧ r1.parent = r.parent ∧
      (e ≠ rc.parent → r1.first_child = r.first_child ∧ r1.last_child = r.last_child ∧
        r1.child_count = r.child_count) ∧
      (e ≠ rc.prev_sibling → r1.next_sibling = r.next_sibling) ∧
      (e ≠ rc.next_sibling → r1.prev_sibling = r.prev_sibling) := by
  simp only [unlink_rel, if_neg h1, hr, Option.map_some']
  by_cases e2 : e = rc.parent
  · simp only [if_pos e2]
    exact ⟨_, rfl, rfl, fun h => absurd e2 h, fun _ => rfl, fun _ => rfl⟩
  · simp only [if_neg e2]
    by_cases e3 : e = rc.prev_sibling
    · simp only [if_pos e3]
      exact ⟨_, rfl, rfl, fun _ => ⟨rfl, rfl, rfl⟩, fun h => absurd e3 h, fun _ => rfl⟩
    · simp only [if_neg e3]
      by_cases e4 : e = rc.next_sibling
      · simp only [if_pos e4]
        exact ⟨_, rfl, rfl, fun _ => ⟨rfl, rfl, rfl⟩, fun _ => rfl, fun h => absurd e4 h⟩
      · simp only [if_neg e4]
        exact ⟨_, rfl, rfl, fun _ => ⟨rfl, rfl, rfl⟩, fun _ => rfl, fun _ => rfl⟩

theorem unlink_rel_inv {rel : entity → Option relationship} {c e : entity}
    {rc r1 : relationship} (h1 : e ≠ c) (hr : unlink_rel rel c rc e = some r1) :
    ∃ r, rel e = some r ∧ r1.parent = r.parent ∧
      (e ≠ rc.parent → r1.first_child = r.first_child ∧ r1.last_child = r.last_child ∧
        r1.child_count = r.child_count) ∧
      (e ≠ rc.prev_sibling → r1.next_sibling = r.next_sibling) ∧
      (e ≠ rc.next_sibling → r1.prev_sibling = r.prev_sibling) := by
  cases hrel : rel e with
  | none => rw [unlink_rel_none h1 hrel] at hr; cases hr
  | some r =>
    obtain ⟨r2, h2, h3⟩ := unlink_rel_some rc h1 hrel
    rw [hr] at h2
    cases h2
    exact ⟨r, rfl, h3⟩

/-! ## Consequences of the invariants -/

theorem InvK.rel_null {K : entity → List entity} {h : entity → Nat} {reg : registry}
    (hI : InvK K h reg) : reg.rel null = none := by
  cases hr : reg.rel null with
  | none => rfl
  | some r =>
    have h1 := hI.rel_alive _ _ hr
    rw [hI.alive_null] at h1
    cases h1

theorem InvK.ne_null {K : entity → List entity} {h : entity → Nat} {reg : registry}
    (hI : InvK K h reg) {e : entity} {r : relationship} (hr : reg.rel e = some r) :
    e ≠ null := by
  rintro rfl
  rw [hI.rel_null] at hr
  cases hr

theorem InvK.child {K : entity → List entity} {h : entity → Nat} {reg : registry}
    (hI : InvK K h reg) {p x : entity} {rp : relationship} (hp : reg.rel p = some rp)
    (hx : x ∈ K p) : x ≠ null ∧ ∃ r, reg.rel x = some r ∧ r.parent = p :=
  seg_mem (hI.sibs p rp hp) hx

theorem InvK.child_lt {K : entity → List entity} {h : entity → Nat} {reg : registry}
    (hI : InvK K h reg) {p x : entity} {rp : relationship} (hp : reg.rel p = some rp)
    (hx : x ∈ K p) : h x < h p := by
  obtain ⟨_, r, hr, hpar⟩ := hI.child hp hx
  have h1 := hI.ranked x r hr (by rw [hpar]; exact hI.ne_null hp)
  rwa [hpar] at h1

theorem InvK.mem_kids {K : entity → List entity} {h : entity → Nat} {reg : registry}
    (hI : InvK K h reg) {p x : entity} (hx : x ∈ K p) : ∃ rp, reg.rel p = some rp := by
  cases hp : reg.rel p with
  | none => rw [hI.clean p hp] at hx; cases hx
  | some rp => exact ⟨rp, rfl⟩

theorem InvK.exists_split {K : entity → List entity} {h : entity → Nat} {reg : registry}
    (hI : InvK K h reg) {c : entity} {rc : relationship} (hc : reg.rel c = some rc)
    (hP0 : rc.parent ≠ null) : ∃ A B, K rc.parent = A ++ c :: B :=
  List.append_of_mem (hI.attached c rc hc hP0).2

/-- The child list of the parent of an attached record, split at the child. -/
theorem InvK.split {K : entity → List entity} {h : entity → Nat} {reg : registry}
    (hI : InvK K h reg) {c : entity} {rc : relationship} (hc : reg.rel c = some rc)
    (hP0 : rc.parent ≠ null) {A B : List entity} (hAB : K rc.parent = A ++ c :: B) :
    ∃ rP, reg.rel rc.parent = some rP ∧ c ∉ A ∧ c ∉ B ∧
      (A ++ B).Nodup ∧ rc.prev_sibling = A.getLastD null ∧ rc.next_sibling = B.headD null ∧
      rP.first_child = A.headD c ∧ rP.last_child = B.getLastD c ∧
      rP.child_count = A.length + B.length + 1 ∧
      seg reg rc.parent null A c ∧ seg reg rc.parent c B null := by
  obtain ⟨⟨rP, hP⟩, -⟩ := hI.attached c rc hc hP0
  have hnd := hI.nodup _ _ hP
  rw [hAB] at hnd
  have hsib := hI.sibs _ _ hP
  rw [hAB, seg_append] at hsib
  obtain ⟨hsA, hc0, r, hr, -, hprev, hnext, hsB⟩ := hsib
  rw [hc] at hr
  cases hr
  have hnd1 := List.nodup_append.1 hnd
  have hcA : c ∉ A := fun hx => hnd1.2.2 hx (List.mem_cons_self _ _)
  have hcB : c ∉ B := (List.nodup_cons.1 hnd1.2.1).1
  refine ⟨rP, hP, hcA, hcB, ?_, hprev, hnext, ?_, ?_, ?_, hsA, hsB⟩
  · exact List.Nodup.sublist (List.Sublist.append (List.Sublist.refl A)
      (List.sublist_cons_self c B)) hnd
  · rw [hI.first _ _ hP, hAB, headD_append]; rfl
  · rw [hI.last _ _ hP, hAB, getLastD_append_cons]
  · rw [hI.count _ _ hP, hAB]; simp; omega

/-- Facts about the siblings of an attached child. -/
theorem InvK.split_mem {K : entity → List entity} {h : entity → Nat} {reg : registry}
    (hI : InvK K h reg) {c : entity} {rc : relationship} (hc : reg.rel c = some rc)
    (hP0 : rc.parent ≠ null) {A B : List entity} (hAB : K rc.parent = A ++ c :: B) :
    rc.parent ≠ c ∧
    (∀ x ∈ A, x ≠ null ∧ x ≠ c ∧ x ≠ rc.parent ∧ x ∉ B ∧
      ∃ r, reg.rel x = some r ∧ r.parent = rc.parent) ∧
    (∀ x ∈ B, x ≠ null ∧ x ≠ c ∧ x ≠ rc.parent ∧ x ∉ A ∧
      ∃ r, reg.rel x = some r ∧ r.parent = rc.parent) ∧
    (rc.prev_sibling ≠ null → rc.prev_sibling ∈ A) ∧
    (rc.next_sibling ≠ null → rc.next_sibling ∈ B) := by
  obtain ⟨rP, hP, hcA, hcB, hnd, hprev, hnext, -, -, -, hsA, hsB⟩ := hI.split hc hP0 hAB
  have hdis := (List.nodup_append.1 hnd).2.2
  refine ⟨?_, ?_, ?_, ?_, ?_⟩
  · intro heq
    have h1 := hI.ranked c rc hc hP0
    rw [heq] at h1
    exact lt_irrefl _ h1
  · intro x hx
    obtain ⟨hx0, r, hr, hpar⟩ := seg_mem hsA hx
    refine ⟨hx0, fun e => hcA (e ▸ hx), ?_, fun hxB => hdis hx hxB, r, hr, hpar⟩
    intro e
    have h1 := hI.ranked x r hr (by rw [hpar]; exact hP0)
    rw [hpar, e] at h1
    exact lt_irrefl _ h1
  · intro x hx
    obtain ⟨hx0, r, hr, hpar⟩ := seg_mem hsB hx
    refine ⟨hx0, fun e => hcB (e ▸ hx), ?_, fun hxA => hdis hxA hx, r, hr, hpar⟩
    intro e
    have h1 := hI.ranked x r hr (by rw [hpar]; exact hP0)
    rw [hpar, e] at h1
    exact lt_irrefl _ h1
  · intro hne
    rcases getLastD_mem_or A null with h1 | h1
    · exact absurd (hprev.trans h1) hne
    · rw [hprev]; exact h1
  · intro hne
    rcases headD_mem_or B null with h1 | h1
    · exact absurd (hnext.trans h1) hne
    · rw [hnext]; exact h1

theorem entity_limit_lt_size_mod : entity_limit < size_mod := by
  unfold entity_limit size_mod; norm_num

theorem getLastD_cons_mem (a : entity) (L : List entity) (d : entity) :
    (a :: L).getLastD d ∈ a :: L := by
  rw [List.getLastD_cons]
  rcases getLastD_mem_or L a with h1 | h1
  · rw [h1]; exact List.mem_cons_self _ _
  · exact List.mem_cons_of_mem _ h1

theorem nodup_length_le {L : List entity} {n : Nat} (hnd : L.Nodup) (hlt : ∀ x ∈ L, x < n) :
    L.length ≤ n := by
  have h1 : L.toFinset ⊆ Finset.range n := by
    intro x hx
    exact Finset.mem_range.2 (hlt x (List.mem_toFinset.1 hx))
  have h2 := Finset.card_le_card h1
  rwa [List.toFinset_card_of_nodup hnd, Finset.card_range] at h2

theorem InvK.kids_length {K : entity → List entity} {h : entity → Nat} {reg : registry}
    (hI : InvK K h reg) {p : entity} {rp : relationship} (hp : reg.rel p = some rp) :
    (K p).length + 1 < size_mod := by
  have h1 : (K p).length ≤ reg.next := by
    apply nodup_length_le (hI.nodup p rp hp)
    intro x hx
    obtain ⟨_, r, hr, _⟩ := hI.child hp hx
    exact hI.alive_lt x (hI.rel_alive x r hr)
  have h2 := hI.next_le
  have h3 := entity_limit_lt_size_mod
  have h4 : 0 < size_mod - entity_limit - 1 := by unfold entity_limit size_mod; norm_num
  omega

/-- Under the invariants `unparent` of an attached child writes `unlink_rel`. -/
theorem InvK.unparent_eq {K : entity → List entity} {h : entity → Nat} {reg : registry}
    (hI : InvK K h reg) {c : entity} {rc : relationship} (hc : reg.rel c = some rc)
    (hP0 : rc.parent ≠ null) :
    unparent reg c = some ⟨reg.next, reg.alive, unlink_rel reg.rel c rc⟩ := by
  obtain ⟨A, B, hAB⟩ := hI.exists_split hc hP0
  obtain ⟨rP, hP, hcA, hcB, hnd, hprev, hnext, hfirst, hlast, -, hsA, hsB⟩ :=
    hI.split hc hP0 hAB
  obtain ⟨hPc, hmemA, hmemB, hpA, hnB⟩ := hI.split_mem hc hP0 hAB
  have hc0 := hI.ne_null hc
  apply unparent_attached hI.rel_null (hI.rel_alive c rc hc) hc0 hc hP0 hP hPc
  · rw [hfirst, hprev]
    cases A with
    | nil => simp
    | cons a A =>
      constructor
      · intro e
        exact absurd (show a = c from e) (hmemA a (List.mem_cons_self _ _)).2.1
      · intro e
        exact absurd e (hmemA _ (getLastD_cons_mem a A null)).1
  · rw [hlast, hnext]
    cases B with
    | nil => simp
    | cons b B =>
      constructor
      · intro e
        exact absurd e (hmemB _ (getLastD_cons_mem b B c)).2.1
      · intro e
        exact absurd (show b = null from e) (hmemB b (List.mem_cons_self _ _)).1
  · intro hne
    have hm := hmemA _ (hpA hne)
    obtain ⟨r, hr, -⟩ := hm.2.2.2.2
    refine ⟨⟨r, hr⟩, hm.2.1, hm.2.2.1, ?_⟩
    intro e
    by_cases hn0 : rc.next_sibling = null
    · exact hne (e.trans hn0)
    · exact hm.2.2.2.1 (e ▸ hnB hn0)
  · intro hne
    have hm := hmemB _ (hnB hne)
    obtain ⟨r, hr, -⟩ := hm.2.2.2.2
    exact ⟨⟨r, hr⟩, hm.2.1, hm.2.2.1⟩

theorem size_wrap_pred (n : Nat) (hn : n + 1 < size_mod) :
    (n + 1 + size_mod - 1) % size_mod = n := by
  have h1 : n + 1 + size_mod - 1 = n + size_mod := by omega
  rw [h1, Nat.add_mod_right, Nat.mod_eq_of_lt (by omega)]

theorem size_wrap_succ (n : Nat) (hn : n + 1 < size_mod) : (n + 1) % size_mod = n + 1 :=
  Nat.mod_eq_of_lt hn

/-- Taking an attached child out of its list keeps the invariants, with the
child list of the parent shortened by the child. -/
theorem InvK.unlink {K : entity → List entity} {h : entity → Nat} {reg : registry}
    (hI : InvK K h reg) {c : entity} {rc : relationship} (hc : reg.rel c = some rc)
    (hP0 : rc.parent ≠ null) {A B : List entity} (hAB : K rc.parent = A ++ c :: B) :
    InvK (Function.update K rc.parent (A ++ B)) h
      ⟨reg.next, reg.alive, unlink_rel reg.rel c rc⟩ := by
  obtain ⟨rP, hP, hcA, hcB, hnd, hprev, hnext, hfirst, hlast, hcount, hsA, hsB⟩ :=
    hI.split hc hP0 hAB
  obtain ⟨hPc, hmemA, hmemB, hpA, hnB⟩ := hI.split_mem hc hP0 hAB
  have hc0 := hI.ne_null hc
  have hrelP := unlink_rel_parent reg.rel hPc hP
  -- members of other lists are not touched in their links
  have hother : ∀ p, p ≠ rc.parent → ∀ rp, reg.rel p = some rp → ∀ x ∈ K p,
      x ≠ c ∧ x ≠ rc.prev_sibling ∧ x ≠ rc.next_sibling := by
    intro p hp rp hrp x hx
    obtain ⟨hx0, r, hr, hpar⟩ := hI.child hrp hx
    refine ⟨?_, ?_, ?_⟩
    · intro e
      rw [e, hc] at hr
      cases hr
      exact hp hpar.symm
    · intro e
      have h1 : rc.prev_sibling ≠ null := e ▸ hx0
      obtain ⟨r2, hr2, hpar2⟩ := (hmemA _ (hpA h1)).2.2.2.2
      rw [← e, hr] at hr2
      cases hr2
      exact hp (hpar.symm.trans hpar2)
    · intro e
      have h1 : rc.next_sibling ≠ null := e ▸ hx0
      obtain ⟨r2, hr2, hpar2⟩ := (hmemB _ (hnB h1)).2.2.2.2
      rw [← e, hr] at hr2
      cases hr2
      exact hp (hpar.symm.trans hpar2)
  -- records of the new state come from records of the old one
  have hback : ∀ e r1, unlink_rel reg.rel c rc e = some r1 → ∃ r, reg.rel e = some r ∧
      (e ≠ c → r1.parent = r.parent) ∧
      (e ≠ rc.parent → r1.first_child = r.first_child ∧ r1.last_child = r.last_child ∧
        r1.child_count = r.child_count) := by
    intro e r1 hr1
    by_cases e1 : e = c
    · subst e1
      rw [unlink_rel_self] at hr1
      cases hr1
      exact ⟨rc, hc, fun hne => absurd rfl hne, fun _ => ⟨rfl, rfl, rfl⟩⟩
    · obtain ⟨r, hr, h1, h2, -, -⟩ := unlink_rel_inv e1 hr1
      exact ⟨r, hr, fun _ => h1, h2⟩
  have hfwd : ∀ e r, reg.rel e = some r → ∃ r1, unlink_rel reg.rel c rc e = some r1 := by
    intro e r hr
    by_cases e1 : e = c
    · subst e1; exact ⟨_, unlink_rel_self _ _ _⟩
    · obtain ⟨r1, hr1, -⟩ := unlink_rel_some rc e1 hr
      exact ⟨r1, hr1⟩
  have hK : ∀ p, p ≠ rc.parent → Function.update K rc.parent (A ++ B) p = K p :=
    fun p hp => Function.update_noteq hp _ _
  have hKP : Function.update K rc.parent (A ++ B) rc.parent = A ++ B :=
    Function.update_same _ _ _
  refine ⟨hI.next_pos, hI.next_le, hI.alive_lt, hI.alive_null, ?_, ?_, ?_, ?_, ?_, ?_, ?_, ?_, ?_⟩
  · -- rel_alive
    intro e r1 hr1
    change unlink_rel reg.rel c rc e = some r1 at hr1
    obtain ⟨r, hr, -⟩ := hback e r1 hr1
    exact hI.rel_alive e r hr
  · -- clean
    intro p hp
    have hp1 : reg.rel p = none := by
      cases hr : reg.rel p with
      | none => rfl
      | some r =>
        obtain ⟨r1, hr1⟩ := hfwd p r hr
        rw [show unlink_rel reg.rel c rc p = none from hp] at hr1
        cases hr1
    have hp2 : p ≠ rc.parent := by
      intro e; rw [e, hP] at hp1; cases hp1
    rw [hK p hp2]
    exact hI.clean p hp1
  · -- first
    intro p r1 hr1
    change unlink_rel reg.rel c rc p = some r1 at hr1
    by_cases hp : p = rc.parent
    · subst hp
      rw [show unlink_rel reg.rel c rc rc.parent = _ from hrelP] at hr1
      cases hr1
      rw [hKP]
      show (if rP.first_child = c then rc.next_sibling else rP.first_child) = _
      rw [hfirst, hnext]
      cases A with
      | nil => simp
      | cons a A =>
        have hac : a ≠ c := (hmemA a (List.mem_cons_self _ _)).2.1
        simp [hac]
    · obtain ⟨r, hr, -, h2⟩ := hback p r1 hr1
      rw [hK p hp, (h2 hp).1]
      exact hI.first p r hr
  · -- last
    intro p r1 hr1
    change unlink_rel reg.rel c rc p = some r1 at hr1
    by_cases hp : p = rc.parent
    · subst hp
      rw [show unlink_rel reg.rel c rc rc.parent = _ from hrelP] at hr1
      cases hr1
      rw [hKP]
      show (if rP.last_child = c then rc.prev_sibling else rP.last_child) = _
      rw [hlast, hprev]
      cases B with
      | nil => simp
      | cons b B =>
        have hbc : (b :: B).getLastD c ≠ c := (hmemB _ (getLastD_cons_mem b B c)).2.1
        rw [if_neg hbc, getLastD_append_cons, List.getLastD_cons]
    · obtain ⟨r, hr, -, h2⟩ := hback p r1 hr1
      rw [hK p hp, (h2 hp).2.1]
      exact hI.last p r hr
  · -- count
    intro p r1 hr1
    change unlink_rel reg.rel c rc p = some r1 at hr1
    by_cases hp : p = rc.parent
    · subst hp
      rw [show unlink_rel reg.rel c rc rc.parent = _ from hrelP] at hr1
      cases hr1
      rw [hKP]
      show (rP.child_count + size_mod - 1) % size_mod = _
      have hlen := hI.kids_length hP
      rw [hAB] at hlen
      simp only [List.length_append, List.length_cons] at hlen
      rw [hcount, List.length_append]
      exact size_wrap_pred _ (by omega)
    · obtain ⟨r, hr, -, h2⟩ := hback p r1 hr1
      rw [hK p hp, (h2 hp).2.2]
      exact hI.count p r hr
  · -- nodup
    intro p r1 hr1
    change unlink_rel reg.rel c rc p = some r1 at hr1
    by_cases hp : p = rc.parent
    · subst hp; rw [hKP]; exact hnd
    · obtain ⟨r, hr, -⟩ := hback p r1 hr1
      rw [hK p hp]
      exact hI.nodup p r hr
  · -- sibs
    intro p r1 hr1
    change unlink_rel reg.rel c rc p = some r1 at hr1
    by_cases hp : p = rc.parent
    · subst hp
      rw [hKP, seg_append]
      constructor
      · -- the part before the child
        rcases List.eq_nil_or_concat A with hA | ⟨A0, a, hA⟩
        · subst hA; trivial
        · rw [List.concat_eq_append] at hA
          subst hA
          have ha : rc.prev_sibling = a := by rw [hprev]; simp
          rw [seg_append] at hsA ⊢
          obtain ⟨hs1, ha0, r, hr, hpar, hpv, -, -⟩ := hsA
          have hndA : (A0 ++ [a]).Nodup := (List.nodup_append.1 hnd).1
          have haA0 : a ∉ A0 := by
            intro hx
            exact (List.nodup_append.1 hndA).2.2 hx (List.mem_singleton_self a)
          constructor
          · apply seg_congr _ hs1
            intro x hx r2 hr2
            have hxA : x ∈ A0 ++ [a] := List.mem_append_left _ hx
            have hm := hmemA x hxA
            obtain ⟨r3, hr3, h1, -, h3, h4⟩ := unlink_rel_some rc hm.2.1 hr2
            refine ⟨r3, hr3, h1, h4 ?_, h3 ?_⟩
            · intro e
              by_cases hn0 : rc.next_sibling = null
              · exact hm.1 (e.trans hn0)
              · exact hm.2.2.2.1 (e ▸ hnB hn0)
            · intro e
              exact haA0 (by rw [← ha, ← e]; exact hx)
          · have hma := hmemA a (List.mem_append_right _ (List.mem_singleton_self a))
            have h5 := unlink_rel_prev reg.rel c rc r
              (by rw [ha]; exact hma.2.1) (by rw [ha]; exact hma.2.2.1) (by rw [ha]; exact hr)
            rw [ha] at h5
            exact ⟨ha0, _, h5, hpar, hpv, by rw [hnext]; rfl, trivial⟩
      · -- the part after the child
        cases B with
        | nil => trivial
        | cons b B0 =>
          have hb : rc.next_sibling = b := by rw [hnext]; rfl
          obtain ⟨hb0, r, hr, hpar, -, hnx, hs2⟩ := hsB
          have hmb := hmemB b (List.mem_cons_self _ _)
          have hndB : (b :: B0).Nodup := (List.nodup_append.1 hnd).2.1
          have hbB0 : b ∉ B0 := (List.nodup_cons.1 hndB).1
          have hbp : b ≠ rc.prev_sibling := by
            intro e
            have h1 : rc.prev_sibling ≠ null := e ▸ hb0
            exact hmb.2.2.2.1 (e ▸ hpA h1)
          have h5 := unlink_rel_next reg.rel c rc r
            (by rw [hb]; exact hmb.2.1) (by rw [hb]; exact hmb.2.2.1)
            (by rw [hb]; exact hbp) (by rw [hb]; exact hr)
          rw [hb] at h5
          refine ⟨hb0, _, h5, hpar, hprev, hnx, ?_⟩
          apply seg_congr _ hs2
          intro x hx r2 hr2
          have hm := hmemB x (List.mem_cons_of_mem _ hx)
          obtain ⟨r3, hr3, h1, -, h3, h4⟩ := unlink_rel_some rc hm.2.1 hr2
          refine ⟨r3, hr3, h1, h4 ?_, h3 ?_⟩
          · intro e
            exact hbB0 (by rw [← hb, ← e]; exact hx)
          · intro e
            have h6 : rc.prev_sibling ≠ null := e ▸ hm.1
            exact hm.2.2.2.1 (e ▸ hpA h6)
    · obtain ⟨r, hr, -⟩ := hback p r1 hr1
      rw [hK p hp]
      apply seg_congr _ (hI.sibs p r hr)
      intro x hx r2 hr2
      obtain ⟨h1, h2, h3⟩ := hother p hp r hr x hx
      obtain ⟨r3, hr3, h4, -, h5, h6⟩ := unlink_rel_some rc h1 hr2
      exact ⟨r3, hr3, h4, h6 h3, h5 h2⟩
  · -- attached
    intro x r1 hr1 hpar
    change unlink_rel reg.rel c rc x = some r1 at hr1
    have hxc : x ≠ c := by
      intro e
      subst e
      rw [show unlink_rel reg.rel x rc x = _ from unlink_rel_self _ _ _] at hr1
      cases hr1
      exact hpar rfl
    obtain ⟨r, hr, h1, -⟩ := hback x r1 hr1
    have h2 := h1 hxc
    rw [h2] at hpar ⊢
    obtain ⟨⟨rp, hrp⟩, hmem⟩ := hI.attached x r hr hpar
    refine ⟨hfwd _ rp hrp, ?_⟩
    by_cases hp : r.parent = rc.parent
    · rw [hp, hKP]
      rw [hp, hAB] at hmem
      rcases List.mem_append.1 hmem with h3 | h3
      · exact List.mem_append_left _ h3
      · rcases List.mem_cons.1 h3 with h4 | h4
        · exact absurd h4 hxc
        · exact List.mem_append_right _ h4
    · rw [hK _ hp]; exact hmem
  · -- ranked
    intro x r1 hr1 hpar
    change unlink_rel reg.rel c rc x = some r1 at hr1
    have hxc : x ≠ c := by
      intro e
      subst e
      rw [show unlink_rel reg.rel x rc x = _ from unlink_rel_self _ _ _] at hr1
      cases hr1
      exact hpar rfl
    obtain ⟨r, hr, h1, -⟩ := hback x r1 hr1
    have h2 := h1 hxc
    rw [h2] at hpar ⊢
    exact hI.ranked x r hr hpar

/-! ## Pointwise facts about `attach_rel` -/

theorem attach_rel_parent (rel : entity → Option relationship) (P c : entity)
    (rP rc : relationship) :
    attach_rel rel P c rP rc P = some
      { rP with first_child := if rP.last_child = null then c else rP.first_child,
                last_child := c,
                child_count := (rP.child_count + 1) % size_mod } := by
  simp only [attach_rel, if_true]

theorem attach_rel_child (rel : entity → Option relationship) {P c : entity}
    (rP rc : relationship) (hcP : c ≠ P) :
    attach_rel rel P c rP rc c = some
      { rc with parent := P,
                prev_sibling := if rP.last_child = null then rc.prev_sibling
                                else rP.last_child } := by
  simp only [attach_rel, if_neg hcP, if_true]

theorem attach_rel_last (rel : entity → Option relationship) (P c : entity)
    (rP rc r : relationship) (h1 : rP.last_child ≠ P) (h2 : rP.last_child ≠ c)
    (hr : rel rP.last_child = some r) :
    attach_rel rel P c rP rc rP.last_child = some { r with next_sibling := c } := by
  simp only [attach_rel, if_neg h1, if_neg h2, if_true, hr, Option.map_some']

theorem attach_rel_other {rel : entity → Option relationship} {P c e : entity}
    {rP rc : relationship} (h1 : e ≠ P) (h2 : e ≠ c) (h3 : e ≠ rP.last_child) :
    attach_rel rel P c rP rc e = rel e := by
  simp only [attach_rel, if_neg h1, if_neg h2, if_neg h3]

theorem attach_rel_some {rel : entity → Option relationship} {P e : entity}
    (c : entity) {rP : relationship} (rc : relationship) {r : relationship} (hP : rel P = some rP) (h2 : e ≠ c) (hr : rel e = some r) :
    ∃ r1, attach_rel rel P c rP rc e = some r1 ∧ r1.parent = r.parent ∧
      r1.prev_sibling = r.prev_sibling ∧
      (e ≠ P → r1.first_child = r.first_child ∧ r1.last_child = r.last_child ∧
        r1.child_count = r.child_count) ∧
      (e ≠ rP.last_child ∨ e = P → r1.next_sibling = r.next_sibling) := by
  by_cases e1 : e = P
  · subst e1
    rw [hP] at hr
    cases hr
    exact ⟨_, attach_rel_parent _ _ _ _ _, rfl, rfl, fun h => absurd rfl h, fun _ => rfl⟩
  · simp only [attach_rel, if_neg e1, if_neg h2, hr, Option.map_some']
    by_cases e3 : e = rP.last_child
    · simp only [if_pos e3]
      exact ⟨_, rfl, rfl, rfl, fun _ => ⟨rfl, rfl, rfl⟩,
        fun h => h.elim (fun h => absurd e3 h) (fun h => absurd h e1)⟩
    · simp only [if_neg e3]
      exact ⟨_, rfl, rfl, rfl, fun _ => ⟨rfl, rfl, rfl⟩, fun _ => rfl⟩

theorem attach_rel_none {rel : entity → Option relationship} {P c e : entity}
    {rP rc : relationship} (h1 : e ≠ P) (h2 : e ≠ c) (hr : rel e = none) :
    attach_rel rel P c rP rc e = none := by
  simp only [attach_rel, if_neg h1, if_neg h2, hr, Option.map_none']
  split_ifs <;> rfl

theorem attach_rel_inv {rel : entity → Option relationship} {P c e : entity}
    {rP rc r1 : relationship} (hP : rel P = some rP) (h1 : e ≠ P) (h2 : e ≠ c)
    (hr : attach_rel rel P c rP rc e = some r1) :
    ∃ r, rel e = some r ∧ r1.parent = r.parent ∧ r1.prev_sibling = r.prev_sibling ∧
      r1.first_child = r.first_child ∧ r1.last_child = r.last_child ∧
      r1.child_count = r.child_count ∧
      (e ≠ rP.last_child → r1.next_sibling = r.next_sibling) := by
  cases hrel : rel e with
  | none => rw [attach_rel_none h1 h2 hrel] at hr; cases hr
  | some r =>
    obtain ⟨r2, h3, h4, h5, h6, h7⟩ := attach_rel_some c rc hP h2 hrel
    rw [hr] at h3
    cases h3
    exact ⟨r, rfl, h4, h5, (h6 h1).1, (h6 h1).2.1, (h6 h1).2.2, fun h => h7 (Or.inl h)⟩

/-! ## `create` -/

theorem create_eq {reg : registry} (hlt : reg.next < entity_limit) :
    create reg = some (⟨reg.next + 1, Function.update reg.alive reg.next true,
      Function.update reg.rel reg.next (some relationship.fresh)⟩, reg.next) := by
  simp only [create, registry.create, if_pos hlt, registry.emplace]

theorem InvK.fresh_none {K : entity → List entity} {h : entity → Nat} {reg : registry}
    (hI : InvK K h reg) {e : entity} (he : reg.next ≤ e) : reg.rel e = none := by
  cases hr : reg.rel e with
  | none => rfl
  | some r =>
    exact absurd (hI.alive_lt e (hI.rel_alive e r hr)) (not_lt.2 he)

/-- The state after `create()` satisfies the invariants with the same child
lists. -/
theorem InvK.after_create {K : entity → List entity} {h : entity → Nat} {reg : registry}
    (hI : InvK K h reg) (hlt : reg.next < entity_limit) :
    InvK K h ⟨reg.next + 1, Function.update reg.alive reg.next true,
      Function.update reg.rel reg.next (some relationship.fresh)⟩ := by
  have hN := hI.fresh_none (le_refl reg.next)
  have hKN : K reg.next = [] := hI.clean _ hN
  have hN0 : reg.next ≠ null := by have := hI.next_pos; unfold null; omega
  have hrel : ∀ e r, Function.update reg.rel reg.next (some relationship.fresh) e = some r →
      (e = reg.next ∧ r = relationship.fresh) ∨ (e ≠ reg.next ∧ reg.rel e = some r) := by
    intro e r hr
    by_cases he : e = reg.next
    · subst he
      rw [Function.update_same] at hr
      cases hr
      exact Or.inl ⟨rfl, rfl⟩
    · rw [Function.update_noteq he] at hr
      exact Or.inr ⟨he, hr⟩
  have hkeep : ∀ e r, reg.rel e = some r →
      Function.update reg.rel reg.next (some relationship.fresh) e = some r := by
    intro e r hr
    have he : e ≠ reg.next := by
      intro e1; rw [e1, hN] at hr; cases hr
    rw [Function.update_noteq he]; exact hr
  refine ⟨Nat.succ_pos _, hlt, ?_, ?_, ?_, ?_, ?_, ?_, ?_, ?_, ?_, ?_, ?_⟩
  · intro e he
    change Function.update reg.alive reg.next true e = true at he
    by_cases h1 : e = reg.next
    · subst h1; exact Nat.lt_succ_self _
    · rw [Function.update_noteq h1] at he
      exact Nat.lt_succ_of_lt (hI.alive_lt e he)
  · change Function.update reg.alive reg.next true null = false
    rw [Function.update_noteq (Ne.symm hN0)]
    exact hI.alive_null
  · intro e r hr
    change Function.update reg.alive reg.next true e = true
    rcases hrel e r hr with ⟨h1, -⟩ | ⟨h1, h2⟩
    · rw [h1, Function.update_same]
    · rw [Function.update_noteq h1]; exact hI.rel_alive e r h2
  · intro p hp
    change Function.update reg.rel reg.next (some relationship.fresh) p = none at hp
    by_cases h1 : p = reg.next
    · rw [h1]; exact hKN
    · rw [Function.update_noteq h1] at hp
      exact hI.clean p hp
  · intro p r hr
    rcases hrel p r hr with ⟨h1, h2⟩ | ⟨-, h2⟩
    · rw [h1, h2, hKN]; rfl
    · exact hI.first p r h2
  · intro p r hr
    rcases hrel p r hr with ⟨h1, h2⟩ | ⟨-, h2⟩
    · rw [h1, h2, hKN]; rfl
    · exact hI.last p r h2
  · intro p r hr
    rcases hrel p r hr with ⟨h1, h2⟩ | ⟨-, h2⟩
    · rw [h1, h2, hKN]; rfl
    · exact hI.count p r h2
  · intro p r hr
    rcases hrel p r hr with ⟨h1, -⟩ | ⟨-, h2⟩
    · rw [h1, hKN]; exact List.nodup_nil
    · exact hI.nodup p r h2
  · intro p r hr
    rcases hrel p r hr with ⟨h1, -⟩ | ⟨-, h2⟩
    · rw [h1, hKN]; trivial
    · apply seg_congr _ (hI.sibs p r h2)
      intro x _ r2 hr2
      exact ⟨r2, hkeep x r2 hr2, rfl, rfl, rfl⟩
  · intro c r hr hpar
    rcases hrel c r hr with ⟨-, h2⟩ | ⟨-, h2⟩
    · rw [h2] at hpar; exact absurd rfl hpar
    · obtain ⟨⟨rp, hrp⟩, hm⟩ := hI.attached c r h2 hpar
      exact ⟨⟨rp, hkeep _ rp hrp⟩, hm⟩
  · intro c r hr hpar
    rcases hrel c r hr with ⟨-, h2⟩ | ⟨-, h2⟩
    · rw [h2] at hpar; exact absurd rfl hpar
    · exact hI.ranked c r h2 hpar

/-! ## `attach_child` under the invariants -/

theorem InvK.last_facts {K : entity → List entity} {h : entity → Nat} {reg : registry}
    (hI : InvK K h reg) {P : entity} {rP : relationship} (hP : reg.rel P = some rP) :
    (rP.last_child = null ↔ K P = []) ∧
    (rP.last_child ≠ null → rP.last_child ∈ K P) := by
  have hl := hI.last P rP hP
  constructor
  · constructor
    · intro h0
      cases hK : K P with
      | nil => rfl
      | cons a L =>
        rw [hK] at hl
        have hm : rP.last_child ∈ K P := by rw [hK, hl]; exact getLastD_cons_mem a L null
        exact absurd h0 (hI.child hP hm).1
    · intro hK
      rw [hl, hK]; rfl
  · intro hne
    rcases getLastD_mem_or (K P) null with h1 | h1
    · exact absurd (hl.trans h1) hne
    · rw [hl]; exact h1

/-- Under the invariants `attach_child` of a root writes `attach_rel`. -/
theorem InvK.attach_eq {K : entity → List entity} {h : entity → Nat} {reg : registry}
    (hI : InvK K h reg) {P c : entity} {rP rc : relationship} (hP : reg.rel P = some rP)
    (hc : reg.rel c = some rc) (hcP : c ≠ P) (hroot : rc.parent = null) :
    attach_child reg P c = some ⟨reg.next, reg.alive, attach_rel reg.rel P c rP rc⟩ := by
  apply attach_child_eq hI.rel_null (hI.ne_null hP) (hI.ne_null hc) hP hc hcP
  intro hne
  have hm := (hI.last_facts hP).2 hne
  obtain ⟨-, r, hr, hpar⟩ := hI.child hP hm
  refine ⟨⟨r, hr⟩, ?_, ?_⟩
  · intro e
    rw [e, hc] at hr
    cases hr
    exact hI.ne_null hP (hpar.symm.trans hroot)
  · intro e
    have h1 := hI.child_lt hP hm
    rw [e] at h1
    exact lt_irrefl _ h1

/-- Appending a root without children and without sibling links to the child
list of `P` keeps the invariants. -/
theorem InvK.attach {K : entity → List entity} {h : entity → Nat} {reg : registry}
    (hI : InvK K h reg) {P c : entity} {rP rc : relationship} (hP : reg.rel P = some rP)
    (hc : reg.rel c = some rc) (hcP : c ≠ P) (hroot : rc.parent = null)
    (hprev : rc.prev_sibling = null) (hnext : rc.next_sibling = null) (hKc : K c = []) :
    InvK (Function.update K P (K P ++ [c])) (fun e => if e = c then 0 else h e + 1)
      ⟨reg.next, reg.alive, attach_rel reg.rel P c rP rc⟩ := by
  have hc0 := hI.ne_null hc
  have hP0 := hI.ne_null hP
  obtain ⟨hlast0, hlastm⟩ := hI.last_facts hP
  have hcK : ∀ p rp, reg.rel p = some rp → c ∉ K p := by
    intro p rp hrp hm
    obtain ⟨-, r, hr, hpar⟩ := hI.child hrp hm
    rw [hc] at hr
    cases hr
    exact hI.ne_null hrp (hpar.symm.trans hroot)
  have hKP : Function.update K P (K P ++ [c]) P = K P ++ [c] := Function.update_same _ _ _
  have hK : ∀ p, p ≠ P → Function.update K P (K P ++ [c]) p = K p :=
    fun p hp => Function.update_noteq hp _ _
  have hrelP := attach_rel_parent reg.rel P c rP rc
  have hrelc := attach_rel_child reg.rel rP rc hcP
  have hback : ∀ e r1, attach_rel reg.rel P c rP rc e = some r1 → ∃ r, reg.rel e = some r ∧
      (e ≠ c → r1.parent = r.parent) ∧
      (e ≠ P → r1.first_child = r.first_child ∧ r1.last_child = r.last_child ∧
        r1.child_count = r.child_count) := by
    intro e r1 hr1
    by_cases e1 : e = P
    · subst e1
      exact ⟨rP, hP, fun _ => by rw [hrelP] at hr1; cases hr1; rfl, fun hne => absurd rfl hne⟩
    · by_cases e2 : e = c
      · subst e2
        rw [hrelc] at hr1
        cases hr1
        exact ⟨rc, hc, fun hne => absurd rfl hne, fun _ => ⟨rfl, rfl, rfl⟩⟩
      · obtain ⟨r, hr, h1, -, h3, h4, h5, -⟩ := attach_rel_inv hP e1 e2 hr1
        exact ⟨r, hr, fun _ => h1, fun _ => ⟨h3, h4, h5⟩⟩
  have hfwd : ∀ e r, reg.rel e = some r → ∃ r1, attach_rel reg.rel P c rP rc e = some r1 := by
    intro e r hr
    by_cases e2 : e = c
    · subst e2; exact ⟨_, hrelc⟩
    · obtain ⟨r1, hr1, -⟩ := attach_rel_some _ rc hP e2 hr
      exact ⟨r1, hr1⟩
  -- links of members of the old lists, apart from the old last child of `P`
  have hlinks : ∀ p rp, reg.rel p = some rp → ∀ x ∈ K p, (p = P → x ≠ rP.last_child) →
      ∀ r, reg.rel x = some r → ∃ r1, attach_rel reg.rel P c rP rc x = some r1 ∧
        r1.parent = r.parent ∧ r1.prev_sibling = r.prev_sibling ∧
        r1.next_sibling = r.next_sibling := by
    intro p rp hrp x hx hxl r hr
    have hxc : x ≠ c := fun e => hcK p rp hrp (e ▸ hx)
    obtain ⟨r1, hr1, h1, h2, -, h4⟩ := attach_rel_some _ rc hP hxc hr
    refine ⟨r1, hr1, h1, h2, h4 ?_⟩
    by_cases hpP : p = P
    · exact Or.inl (hxl hpP)
    · by_cases hxP : x = P
      · exact Or.inr hxP
      · left
        intro e
        obtain ⟨-, r2, hr2, hpar2⟩ := hI.child hrp hx
        have hne : rP.last_child ≠ null := e ▸ (hI.child hrp hx).1
        obtain ⟨-, r3, hr3, hpar3⟩ := hI.child hP (hlastm hne)
        rw [← e, hr2] at hr3
        cases hr3
        exact hpP (hpar2.symm.trans hpar3)
  refine ⟨hI.next_pos, hI.next_le, hI.alive_lt, hI.alive_null, ?_, ?_, ?_, ?_, ?_, ?_, ?_, ?_, ?_⟩
  · -- rel_alive
    intro e r1 hr1
    obtain ⟨r, hr, -⟩ := hback e r1 hr1
    exact hI.rel_alive e r hr
  · -- clean
    intro p hp
    change attach_rel reg.rel P c rP rc p = none at hp
    have hp1 : reg.rel p = none := by
      cases hr : reg.rel p with
      | none => rfl
      | some r =>
        obtain ⟨r1, hr1⟩ := hfwd p r hr
        rw [hp] at hr1
        cases hr1
    have hp2 : p ≠ P := by
      intro e; rw [e, hP] at hp1; cases hp1
    rw [hK p hp2]
    exact hI.clean p hp1
  · -- first
    intro p r1 hr1
    change attach_rel reg.rel P c rP rc p = some r1 at hr1
    by_cases hp : p = P
    · subst hp
      rw [hrelP] at hr1
      cases hr1
      rw [hKP]
      show (if rP.last_child = null then c else rP.first_child) = _
      by_cases hl : rP.last_child = null
      · rw [if_pos hl, hlast0.1 hl]; rfl
      · rw [if_neg hl, hI.first p rP hP, headD_append]
        cases hK1 : K p with
        | nil => exact absurd (hlast0.2 hK1) hl
        | cons a L => rfl
    · obtain ⟨r, hr, -, h2⟩ := hback p r1 hr1
      rw [hK p hp, (h2 hp).1]
      exact hI.first p r hr
  · -- last
    intro p r1 hr1
    change attach_rel reg.rel P c rP rc p = some r1 at hr1
    by_cases hp : p = P
    · subst hp
      rw [hrelP] at hr1
      cases hr1
      rw [hKP, getLastD_append_cons]
      rfl
    · obtain ⟨r, hr, -, h2⟩ := hback p r1 hr1
      rw [hK p hp, (h2 hp).2.1]
      exact hI.last p r hr
  · -- count
    intro p r1 hr1
    change attach_rel reg.rel P c rP rc p = some r1 at hr1
    by_cases hp : p = P
    · subst hp
      rw [hrelP] at hr1
      cases hr1
      rw [hKP]
      show (rP.child_count + 1) % size_mod = _
      rw [hI.count p rP hP, List.length_append, List.length_singleton]
      exact size_wrap_succ _ (hI.kids_length hP)
    · obtain ⟨r, hr, -, h2⟩ := hback p r1 hr1
      rw [hK p hp, (h2 hp).2.2]
      exact hI.count p r hr
  · -- nodup
    intro p r1 hr1
    change attach_rel reg.rel P c rP rc p = some r1 at hr1
    by_cases hp : p = P
    · subst hp
      rw [hKP]
      apply List.Nodup.append (hI.nodup p rP hP) (List.nodup_singleton c)
      intro x hx hx1
      rw [List.mem_singleton] at hx1
      exact hcK p rP hP (hx1 ▸ hx)
    · obtain ⟨r, hr, -⟩ := hback p r1 hr1
      rw [hK p hp]
      exact hI.nodup p r hr
  · -- sibs
    intro p r1 hr1
    change attach_rel reg.rel P c rP rc p = some r1 at hr1
    by_cases hp : p = P
    · subst hp
      rw [hKP, seg_append]
      have hsP := hI.sibs p rP hP
      have hlastK := hI.last p rP hP
      constructor
      · rcases List.eq_nil_or_concat (K p) with hA | ⟨A0, a, hA⟩
        · rw [hA]; trivial
        · rw [List.concat_eq_append] at hA
          have ha : rP.last_child = a := by rw [hlastK, hA]; simp
          have hnd := hI.nodup p rP hP
          rw [hA] at hsP hnd ⊢
          rw [seg_append] at hsP ⊢
          obtain ⟨hs1, ha0, r, hr, hpar, hpv, -, -⟩ := hsP
          have haA0 : a ∉ A0 := fun hx =>
            (List.nodup_append.1 hnd).2.2 hx (List.mem_singleton_self a)
          have hma : a ∈ K p := by rw [hA]; exact List.mem_append_right _ (List.mem_singleton_self a)
          constructor
          · apply seg_congr _ hs1
            intro x hx r2 hr2
            apply hlinks p rP hP x (by rw [hA]; exact List.mem_append_left _ hx) _ r2 hr2
            intro _ e
            exact haA0 (by rw [← ha, ← e]; exact hx)
          · have hap : a ≠ p := by
              intro e
              have h1 := hI.child_lt hP hma
              rw [e] at h1
              exact lt_irrefl _ h1
            have hac : a ≠ c := fun e => hcK p rP hP (e ▸ hma)
            have h5 := attach_rel_last reg.rel p c rP rc r (by rw [ha]; exact hap) (by rw [ha]; exact hac)
              (by rw [ha]; exact hr)
            rw [ha] at h5
            exact ⟨ha0, _, h5, hpar, hpv, rfl, trivial⟩
      · refine ⟨hc0, _, hrelc, rfl, ?_, hnext, trivial⟩
        show (if rP.last_child = null then rc.prev_sibling else rP.last_child) = _
        by_cases hl : rP.last_child = null
        · rw [if_pos hl, hprev, ← hlastK, hl]
        · rw [if_neg hl, hlastK]
    · obtain ⟨r, hr, -⟩ := hback p r1 hr1
      rw [hK p hp]
      apply seg_congr _ (hI.sibs p r hr)
      intro x hx r2 hr2
      exact hlinks p r hr x hx (fun e => absurd e hp) r2 hr2
  · -- attached
    intro x r1 hr1 hpar
    change attach_rel reg.rel P c rP rc x = some r1 at hr1
    by_cases hxc : x = c
    · subst hxc
      rw [hrelc] at hr1
      cases hr1
      refine ⟨⟨_, hrelP⟩, ?_⟩
      show x ∈ Function.update K P (K P ++ [x]) P
      rw [hKP]
      exact List.mem_append_right _ (List.mem_singleton_self x)
    · obtain ⟨r, hr, h1, -⟩ := hback x r1 hr1
      have h2 := h1 hxc
      rw [h2] at hpar ⊢
      obtain ⟨⟨rp, hrp⟩, hmem⟩ := hI.attached x r hr hpar
      refine ⟨hfwd _ rp hrp, ?_⟩
      by_cases hp : r.parent = P
      · rw [hp, hKP]
        rw [hp] at hmem
        exact List.mem_append_left _ hmem
      · rw [hK _ hp]; exact hmem
  · -- ranked
    intro x r1 hr1 hpar
    change attach_rel reg.rel P c rP rc x = some r1 at hr1
    by_cases hxc : x = c
    · subst hxc
      rw [hrelc] at hr1
      cases hr1
      show (if x = x then 0 else h x + 1) < (if P = x then 0 else h P + 1)
      rw [if_pos rfl, if_neg (Ne.symm hcP)]
      exact Nat.succ_pos _
    · obtain ⟨r, hr, h1, -⟩ := hback x r1 hr1
      have h2 := h1 hxc
      rw [h2] at hpar ⊢
      obtain ⟨⟨rp, hrp⟩, hmem⟩ := hI.attached x r hr hpar
      have hpc : r.parent ≠ c := by
        intro e
        rw [e, hKc] at hmem
        cases hmem
      show (if x = c then 0 else h x + 1) < (if r.parent = c then 0 else h r.parent + 1)
      rw [if_neg hxc, if_neg hpc]
      exact Nat.succ_lt_succ (hI.ranked x r hr hpar)

/-! ## `create_child` and iteration under the invariants -/

theorem InvK.valid_of_rel {K : entity → List entity} {h : entity → Nat} {reg : registry}
    (hI : InvK K h reg) {e : entity} {r : relationship} (hr : reg.rel e = some r) :
    reg.valid e = true := by
  have h0 : e ≠ null := hI.ne_null hr
  simp only [registry.valid, hI.rel_alive e r hr, Bool.and_true, bne_iff_ne, ne_eq]
  exact h0

theorem InvK.after_create_child {K : entity → List entity} {h : entity → Nat} {reg : registry}
    (hI : InvK K h reg) {P : entity} {rP : relationship} (hP : reg.rel P = some rP)
    (hlt : reg.next < entity_limit) :
    create_child reg P = some (child_state reg P rP, reg.next) ∧
    InvK (Function.update K P (K P ++ [reg.next]))
      (fun e => if e = reg.next then 0 else h e + 1) (child_state reg P rP) := by
  have hN := hI.fresh_none (le_refl reg.next)
  have hNP : reg.next ≠ P := by
    intro e; rw [e, hP] at hN; cases hN
  have hI1 := hI.after_create hlt
  have hP1 : (⟨reg.next + 1, Function.update reg.alive reg.next true,
      Function.update reg.rel reg.next (some relationship.fresh)⟩ : registry).rel P
        = some rP := by
    show Function.update reg.rel reg.next (some relationship.fresh) P = some rP
    rw [Function.update_noteq (Ne.symm hNP)]; exact hP
  have hc1 : (⟨reg.next + 1, Function.update reg.alive reg.next true,
      Function.update reg.rel reg.next (some relationship.fresh)⟩ : registry).rel reg.next
        = some relationship.fresh := by
    show Function.update reg.rel reg.next (some relationship.fresh) reg.next = _
    rw [Function.update_same]
  constructor
  · have hv : reg.valid P = true := hI.valid_of_rel hP
    have ha := hI1.attach_eq hP1 hc1 hNP rfl
    simp only [entt_ext.create_child, hv, Bool.not_true, Bool.false_eq_true, if_false,
      create_eq hlt, ha]
    rfl
  · exact hI1.attach hP1 hc1 hNP rfl rfl rfl (hI.clean _ hN)

theorem walk_mono {reg : registry} {stop : child_iterator} {n : Nat} {it : child_iterator}
    {L : List entity} (h : walk reg stop n it = some L) (m : Nat) (hm : n ≤ m) :
    walk reg stop m it = some L := by
  induction n generalizing it L m with
  | zero =>
    simp only [walk] at h
    by_cases hs : it = stop
    · rw [if_pos hs] at h
      cases m <;> simp only [walk, if_pos hs, h]
    · rw [if_neg hs] at h; cases h
  | succ n ih =>
    cases m with
    | zero => omega
    | succ m =>
      simp only [walk] at h ⊢
      by_cases hs : it = stop
      · rw [if_pos hs] at h ⊢; exact h
      · rw [if_neg hs] at h ⊢
        cases hi : it.incr reg with
        | none => rw [hi] at h; cases h
        | some it1 =>
          rw [hi] at h
          simp only at h ⊢
          cases hw : walk reg stop n it1 with
          | none => rw [hw] at h; cases h
          | some rest =>
            rw [hw] at h
            rw [ih hw m (by omega)]
            exact h

theorem InvK.children_eq {K : entity → List entity} {h : entity → Nat} {reg : registry}
    (hI : InvK K h reg) {p : entity} {rp : relationship} (hp : reg.rel p = some rp) :
    children reg p = some ⟨(K p).headD null⟩ := by
  simp only [children, hI.valid_of_rel hp, if_true, get_some (hI.ne_null hp) hp,
    hI.first p rp hp]

/-- Iterating `children(p)` yields the child list of `p`. -/
theorem InvK.iterate_eq {K : entity → List entity} {h : entity → Nat} {reg : registry}
    (hI : InvK K h reg) {p : entity} {rp : relationship} (hp : reg.rel p = some rp)
    (n : Nat) (hn : (K p).length ≤ n) : iterate n reg p = some (K p) := by
  simp only [iterate, hI.children_eq hp]
  exact walk_seg (hI.sibs p rp hp) n hn

theorem InvK.iterate_inv {K : entity → List entity} {h : entity → Nat} {reg : registry}
    (hI : InvK K h reg) {p : entity} {rp : relationship} (hp : reg.rel p = some rp)
    {n : Nat} {L : List entity} (hL : iterate n reg p = some L) : L = K p := by
  have h1 := hI.iterate_eq hp (max n (K p).length) (le_max_right _ _)
  simp only [iterate, hI.children_eq hp] at hL h1
  have h2 := walk_mono hL (max n (K p).length) (le_max_left _ _)
  rw [h1] at h2
  cases h2
  rfl

/-! ## `destroy` -/

theorem destroy_succ (fuel : Nat) (reg : registry) (e : entity) :
    destroy (fuel + 1) reg e =
      if !reg.valid e then some reg
      else
        match get_relationship reg e with
        | none => none
        | some rel =>
          match destroy_children fuel reg rel.first_child with
          | none => none
          | some reg1 =>
            match get_relationship reg1 e with
            | none => none
            | some rel1 =>
              match (if rel1.parent ≠ null then unparent reg1 e else some reg1) with
              | none => none
              | some reg2 => some ((reg2.remove e).destroy e) := by
  rw [destroy]

theorem destroy_children_succ (fuel : Nat) (reg : registry) (curr : entity) :
    destroy_children (fuel + 1) reg curr =
      if curr = null then some reg
      else
        match get_relationship reg curr with
        | none => none
        | some curr_rel =>
          match destroy fuel reg curr with
          | none => none
          | some reg1 => destroy_children fuel reg1 curr_rel.next_sibling := by
  rw [destroy_children]

/-- Removing the record and the handle of a root without children keeps the
invariants. -/
theorem InvK.remove_root {K : entity → List entity} {h : entity → Nat} {reg : registry}
    (hI : InvK K h reg) {E : entity} {rE : relationship} (hE : reg.rel E = some rE)
    (hroot : rE.parent = null) (hKE : K E = []) :
    InvK K h ((reg.remove E).destroy E) := by
  have hE0 := hI.ne_null hE
  have hrel : ∀ e r, ((reg.remove E).destroy E).rel e = some r → e ≠ E ∧ reg.rel e = some r := by
    intro e r hr
    change Function.update (Function.update reg.rel E none) E none e = some r at hr
    by_cases he : e = E
    · rw [he, Function.update_same] at hr; cases hr
    · rw [Function.update_noteq he, Function.update_noteq he] at hr
      exact ⟨he, hr⟩
  have hkeep : ∀ e r, e ≠ E → reg.rel e = some r →
      ((reg.remove E).destroy E).rel e = some r := by
    intro e r he hr
    change Function.update (Function.update reg.rel E none) E none e = some r
    rw [Function.update_noteq he, Function.update_noteq he]; exact hr
  have hmemE : ∀ p rp, reg.rel p = some rp → E ∉ K p := by
    intro p rp hrp hm
    obtain ⟨-, r, hr, hpar⟩ := hI.child hrp hm
    rw [hE] at hr
    cases hr
    exact hI.ne_null hrp (hpar.symm.trans hroot)
  refine ⟨hI.next_pos, hI.next_le, ?_, ?_, ?_, ?_, ?_, ?_, ?_, ?_, ?_, ?_, ?_⟩
  · intro e he
    change Function.update reg.alive E false e = true at he
    by_cases h1 : e = E
    · rw [h1, Function.update_same] at he; cases he
    · rw [Function.update_noteq h1] at he
      exact hI.alive_lt e he
  · change Function.update reg.alive E false null = false
    rw [Function.update_noteq (Ne.symm hE0)]
    exact hI.alive_null
  · intro e r hr
    obtain ⟨h1, h2⟩ := hrel e r hr
    change Function.update reg.alive E false e = true
    rw [Function.update_noteq h1]
    exact hI.rel_alive e r h2
  · intro p hp
    by_cases h1 : p = E
    · rw [h1]; exact hKE
    · change Function.update (Function.update reg.rel E none) E none p = none at hp
      rw [Function.update_noteq h1, Function.update_noteq h1] at hp
      exact hI.clean p hp
  · intro p r hr
    exact hI.first p r (hrel p r hr).2
  · intro p r hr
    exact hI.last p r (hrel p r hr).2
  · intro p r hr
    exact hI.count p r (hrel p r hr).2
  · intro p r hr
    exact hI.nodup p r (hrel p r hr).2
  · intro p r hr
    have hr0 := (hrel p r hr).2
    apply seg_congr _ (hI.sibs p r hr0)
    intro x hx r2 hr2
    have hxE : x ≠ E := fun e => hmemE p r hr0 (e ▸ hx)
    exact ⟨r2, hkeep x r2 hxE hr2, rfl, rfl, rfl⟩
  · intro c r hr hpar
    obtain ⟨-, h2⟩ := hrel c r hr
    obtain ⟨⟨rp, hrp⟩, hm⟩ := hI.attached c r h2 hpar
    have hpE : r.parent ≠ E := by
      intro e
      rw [e, hKE] at hm
      cases hm
    exact ⟨⟨rp, hkeep _ rp hpE hrp⟩, hm⟩
  · intro c r hr hpar
    exact hI.ranked c r (hrel c r hr).2 hpar

/-! ## Ancestors -/

theorem InvK.anc_le {K : entity → List entity} {h : entity → Nat} {reg : registry}
    (hI : InvK K h reg) {E e : entity} (ha : anc reg E e) : e = E ∨ h e < h E := by
  induction ha with
  | self => exact Or.inl rfl
  | step hr hpar _ ih =>
    right
    have h1 := hI.ranked _ _ hr hpar
    rcases ih with h2 | h2
    · rw [h2] at h1; exact h1
    · exact lt_trans h1 h2

theorem anc_trans {reg : registry} {a b c : entity} (h1 : anc reg a b) (h2 : anc reg b c) :
    anc reg a c := by
  induction h2 with
  | self => exact h1
  | step hr hpar _ ih => exact anc.step hr hpar ih

theorem anc_cases {reg : registry} {E e : entity} (ha : anc reg E e) :
    e = E ∨ ∃ r, reg.rel e = some r ∧ r.parent ≠ null ∧ anc reg E r.parent := by
  cases ha with
  | self => exact Or.inl rfl
  | step hr hpar h1 => exact Or.inr ⟨_, hr, hpar, h1⟩

/-- Moving an ancestor chain to another state whose records on the chain have
the same parents. -/
theorem anc_transfer {reg reg1 : registry} {E e : entity}
    (hp : ∀ x r, anc reg E x → reg.rel x = some r → r.parent ≠ null → x ≠ E →
      ∃ r1, reg1.rel x = some r1 ∧ r1.parent = r.parent)
    (ha : anc reg E e) : anc reg1 E e := by
  induction ha with
  | self => exact anc.self
  | @step x r hr hpar h1 ih =>
    by_cases hx : x = E
    · rw [hx]; exact anc.self
    · obtain ⟨r1, hr1, hp1⟩ := hp x r (anc.step hr hpar h1) hr hpar hx
      exact anc.step hr1 (by rw [hp1]; exact hpar) (by rw [hp1]; exact ih)

/-- Subtrees of two different children of one entity are disjoint. -/
theorem InvK.anc_disjoint {K : entity → List entity} {h : entity → Nat} {reg : registry}
    (hI : InvK K h reg) {E c1 c2 : entity} {rE : relationship} (hE : reg.rel E = some rE)
    (h1 : c1 ∈ K E) (h2 : c2 ∈ K E) (hne : c1 ≠ c2) {x : entity}
    (ha1 : anc reg c1 x) (ha2 : anc reg c2 x) : False := by
  have key : ∀ {a b : entity}, a ∈ K E → b ∈ K E → a ≠ b → ¬ anc reg a b := by
    intro a b hma hmb hab hanc
    obtain ⟨-, rb, hrb, hpb⟩ := hI.child hE hmb
    rcases anc_cases hanc with e | ⟨r, hr, -, h3⟩
    · exact hab e.symm
    · rw [hrb] at hr
      cases hr
      rw [hpb] at h3
      have h4 := hI.child_lt hE hma
      rcases hI.anc_le h3 with h5 | h5
      · rw [h5] at h4; exact lt_irrefl _ h4
      · exact lt_asymm h4 h5
  induction ha1 with
  | self => exact key h2 h1 (Ne.symm hne) ha2
  | @step x r hr hpar h3 ih =>
    rcases anc_cases ha2 with e | ⟨r2, hr2, -, h4⟩
    · subst e
      obtain ⟨-, r5, hr5, hp5⟩ := hI.child hE h2
      rw [hr] at hr5
      cases hr5
      rw [hp5] at h3
      have h6 := hI.child_lt hE h1
      rcases hI.anc_le h3 with h7 | h7
      · rw [h7] at h6; exact lt_irrefl _ h6
      · exact lt_asymm h6 h7
    · rw [hr] at hr2
      cases hr2
      exact ih h4

theorem unlink_rel_congr {rel rel1 : entity → Option relationship} {c e : entity}
    {rc rc1 : relationship} (hr : rel1 e = rel e)
    (h1 : rc1.parent = rc.parent) (h2 : rc1.prev_sibling = rc.prev_sibling)
    (h3 : rc1.next_sibling = rc.next_sibling) (hne : e ≠ c) :
    unlink_rel rel1 c rc1 e = unlink_rel rel c rc e := by
  simp only [unlink_rel, if_neg hne, hr, h1, h2, h3]

theorem InvK.anc_child {K : entity → List entity} {h : entity → Nat} {reg : registry}
    (hI : InvK K h reg) {E c : entity} {rE : relationship} (hE : reg.rel E = some rE)
    (hc : c ∈ K E) : anc reg E c := by
  obtain ⟨-, r, hr, hpar⟩ := hI.child hE hc
  exact anc.step hr (by rw [hpar]; exact hI.ne_null hE) (by rw [hpar]; exact anc.self)

theorem InvK.anc_below {K : entity → List entity} {h : entity → Nat} {reg : registry}
    (hI : InvK K h reg) {E e : entity} (ha : anc reg E e) (hne : e ≠ E) :
    ∃ c ∈ K E, anc reg c e := by
  induction ha with
  | self => exact absurd rfl hne
  | @step x r hr hpar h1 ih =>
    by_cases hp : r.parent = E
    · refine ⟨x, ?_, anc.self⟩
      rw [← hp]
      exact (hI.attached x r hr hpar).2
    · obtain ⟨c, hc, hac⟩ := ih hp
      exact ⟨c, hc, anc.step hr hpar hac⟩

theorem InvK.not_anc_parent {K : entity → List entity} {h : entity → Nat} {reg : registry}
    (hI : InvK K h reg) {E c : entity} {rE : relationship} (hE : reg.rel E = some rE)
    (hc : c ∈ K E) : ¬ anc reg c E := by
  intro ha
  have h1 := hI.child_lt hE hc
  rcases hI.anc_le ha with h2 | h2
  · rw [h2] at h1; exact lt_irrefl _ h1
  · exact lt_asymm h1 h2

/-- The loop over the children in `destroy(E)`, given that `destroy` is right
for lower entities. -/
theorem destroy_children_spec {h : entity → Nat} (N : Nat)
    (IH : ∀ K reg c rc, InvK K h reg → reg.rel c = some rc → h c < N →
      ∃ f reg1, (∀ m, f ≤ m → destroy m reg c = some reg1) ∧ destroy_post K h reg c rc reg1) :
    ∀ (L : List entity) (K : entity → List entity) (reg : registry) (E : entity)
      (rE : relationship), InvK K h reg → reg.rel E = some rE → K E = L → h E ≤ N →
      ∃ f reg1, (∀ m, f ≤ m → destroy_children m reg (L.headD null) = some reg1) ∧
        (∃ K1, InvK K1 h reg1 ∧
          ∀ e r, reg1.rel e = some r → K1 e = if e = E then [] else K e) ∧
        reg1.next = reg.next ∧
        reg1.rel E = some { rE with first_child := null, last_child := null,
                                    child_count := 0 } ∧
        reg1.alive E = reg.alive E ∧
        (∀ e, (∃ c ∈ L, anc reg c e) → reg1.rel e = none ∧ reg1.alive e = false) ∧
        (∀ e, e ≠ E → ¬ (∃ c ∈ L, anc reg c e) →
          reg1.alive e = reg.alive e ∧ reg1.rel e = reg.rel e) := by
  intro L
  induction L with
  | nil =>
    intro K reg E rE hI hE hK _
    refine ⟨1, reg, ?_, ⟨K, hI, ?_⟩, rfl, ?_, rfl, ?_, ?_⟩
    · intro m hm
      obtain ⟨m1, rfl⟩ : ∃ m1, m = m1 + 1 := ⟨m - 1, by omega⟩
      rw [destroy_children_succ]
      exact if_pos rfl
    · intro e r _
      by_cases he : e = E
      · rw [if_pos he, he, hK]
      · rw [if_neg he]
    · have h1 := hI.first E rE hE
      have h2 := hI.last E rE hE
      have h3 := hI.count E rE hE
      rw [hK] at h1 h2 h3
      rw [hE]
      obtain ⟨p, f, l, pv, nx, cnt⟩ := rE
      simp only [List.headD_nil, List.getLastD_nil, List.length_nil] at h1 h2 h3
      subst h1 h2 h3
      rfl
    · rintro e ⟨c, hc, -⟩
      cases hc
    · intro e _ _
      exact ⟨rfl, rfl⟩
  | cons c cs ihL =>
    intro K reg E rE hI hE hK hN
    have hE0 := hI.ne_null hE
    have hcm : c ∈ K E := by rw [hK]; exact List.mem_cons_self _ _
    obtain ⟨hc0, rc, hc, hpar⟩ := hI.child hE hcm
    have hP0 : rc.parent ≠ null := by rw [hpar]; exact hE0
    have hAB : K rc.parent = [] ++ c :: cs := by rw [hpar, hK]; rfl
    obtain ⟨rP, hP, -, -, -, hprev, hnext, -, -, -, -, -⟩ := hI.split hc hP0 hAB
    obtain ⟨hPc, -, -, -, -⟩ := hI.split_mem hc hP0 hAB
    have hprev0 : rc.prev_sibling = null := hprev
    have hlt : h c < N := lt_of_lt_of_le (hI.child_lt hE hcm) hN
    obtain ⟨f1, reg', hd1, post⟩ := IH K reg c rc hI hc hlt
    obtain ⟨K1, hI1, hK1⟩ := post.inv
    have hnaE : ¬ anc reg c E := hI.not_anc_parent hE hcm
    have hdet : ∀ e, detach_rel reg.rel c rc e = unlink_rel reg.rel c rc e := by
      intro e; simp only [detach_rel, if_neg hP0]
    have hE' : reg'.rel E = some
        { rE with first_child := if rE.first_child = c then rc.next_sibling
                                 else rE.first_child,
                  last_child := if rE.last_child = c then rc.prev_sibling
                                else rE.last_child,
                  child_count := (rE.child_count + size_mod - 1) % size_mod } := by
      rw [(post.kept E hnaE).2, hdet]
      have h5 := unlink_rel_parent reg.rel hPc hP
      rw [hpar] at h5 hP
      rw [hE] at hP
      cases hP
      exact h5
    have hK1E : K1 E = cs := by
      rw [hK1 E _ hE', if_pos hpar.symm, hK, List.erase_cons_head]
    obtain ⟨f2, reg1, hd2, ⟨K2, hI2, hK2⟩, hnx2, hrelE2, halE2, hgone2, hkept2⟩ :=
      ihL K1 reg' E _ hI1 hE' hK1E hN
    -- a survivor of the first destroy keeps its parent
    have hsurv : ∀ x, ¬ anc reg c x → reg'.rel x = unlink_rel reg.rel c rc x := by
      intro x hx; rw [(post.kept x hx).2, hdet]
    have hxc : ∀ x, ¬ anc reg c x → x ≠ c := fun x hx e => hx (e ▸ anc.self)
    have hto : ∀ c1 ∈ cs, ∀ e, anc reg c1 e → anc reg' c1 e := by
      intro c1 hc1 e ha
      apply anc_transfer _ ha
      intro x r hax hr _ _
      have hne : c ≠ c1 := by
        intro e1
        have hnd := hI.nodup E rE hE
        rw [hK] at hnd
        exact (List.nodup_cons.1 hnd).1 (e1 ▸ hc1)
      have hnx : ¬ anc reg c x := fun h2 =>
        hI.anc_disjoint hE hcm (by rw [hK]; exact List.mem_cons_of_mem _ hc1) hne h2 hax
      obtain ⟨r1, hr1, hp1, -⟩ := unlink_rel_some rc (hxc x hnx) hr
      exact ⟨r1, by rw [hsurv x hnx]; exact hr1, hp1⟩
    have hfrom : ∀ c1 e, anc reg' c1 e → anc reg c1 e := by
      intro c1 e ha
      apply anc_transfer _ ha
      intro x r' _ hr' _ _
      have hnx : ¬ anc reg c x := by
        intro h2
        rw [(post.gone x h2).1] at hr'
        cases hr'
      rw [hsurv x hnx] at hr'
      obtain ⟨r, hr, hp1, -⟩ := unlink_rel_inv (hxc x hnx) hr'
      exact ⟨r, hr, hp1.symm⟩
    refine ⟨max f1 f2 + 1, reg1, ?_, ⟨K2, hI2, ?_⟩, ?_, ?_, ?_, ?_, ?_⟩
    · intro m hm
      obtain ⟨m1, rfl⟩ : ∃ m1, m = m1 + 1 := ⟨m - 1, by omega⟩
      have hm1 : f1 ≤ m1 := by omega
      have hm2 : f2 ≤ m1 := by omega
      rw [destroy_children_succ]
      simp only [List.headD_cons, if_neg hc0, get_some hc0 hc, hd1 m1 hm1]
      rw [hnext]
      exact hd2 m1 hm2
    · intro e r hr
      rw [hK2 e r hr]
      by_cases he : e = E
      · rw [if_pos he, if_pos he]
      · rw [if_neg he, if_neg he]
        have hr' : ∃ r', reg'.rel e = some r' := by
          by_cases hx : ∃ c1 ∈ cs, anc reg' c1 e
          · rw [(hgone2 e hx).1] at hr; cases hr
          · rw [(hkept2 e he hx).2] at hr; exact ⟨r, hr⟩
        obtain ⟨r', hr'⟩ := hr'
        rw [hK1 e r' hr', if_neg (by rw [hpar]; exact he)]
    · rw [hnx2, post.next_eq]
    · rw [hrelE2]
    · rw [halE2, (post.kept E hnaE).1]
    · rintro e ⟨c1, hc1, ha⟩
      rcases List.mem_cons.1 hc1 with e1 | hc1
      · subst e1
        have hg := post.gone e ha
        by_cases hx : ∃ c2 ∈ cs, anc reg' c2 e
        · exact hgone2 e hx
        · have heE : e ≠ E := fun e2 => hnaE (e2 ▸ ha)
          have hk := hkept2 e heE hx
          exact ⟨hk.2.trans hg.1, hk.1.trans hg.2⟩
      · exact hgone2 e ⟨c1, hc1, hto c1 hc1 e ha⟩
    · intro e heE hne
      have hnc : ¬ anc reg c e := fun ha => hne ⟨c, List.mem_cons_self _ _, ha⟩
      have hk1 := post.kept e hnc
      have hrel1 : reg'.rel e = reg.rel e := by
        rw [hsurv e hnc]
        by_cases hnone : reg.rel e = none
        · rw [hnone]; exact unlink_rel_none (hxc e hnc) hnone
        · obtain ⟨r, hr⟩ := Option.ne_none_iff_exists'.1 hnone
          have he0 := hI.ne_null hr
          apply unlink_rel_other (hxc e hnc) (by rw [hpar]; exact heE)
            (by rw [hprev0]; exact he0)
          rw [hnext]
          cases cs with
          | nil => exact he0
          | cons d ds =>
            intro e1
            exact hne ⟨d, List.mem_cons_of_mem _ (List.mem_cons_self _ _),
              by rw [show e = d from e1]; exact anc.self⟩
      have hx : ¬ ∃ c2 ∈ cs, anc reg' c2 e := by
        rintro ⟨c2, hc2, ha⟩
        exact hne ⟨c2, List.mem_cons_of_mem _ hc2, hfrom c2 e ha⟩
      have hk2 := hkept2 e heE hx
      exact ⟨hk2.1.trans hk1.1, hk2.2.trans hrel1⟩

/-- Total correctness of `destroy(E)` under the invariants: with enough fuel it
returns, and the state it returns is described by `destroy_post`. -/
theorem destroy_spec {h : entity → Nat} :
    ∀ (N : Nat) (K : entity → List entity) (reg : registry) (E : entity) (rE : relationship),
      InvK K h reg → reg.rel E = some rE → h E < N →
      ∃ f reg1, (∀ m, f ≤ m → destroy m reg E = some reg1) ∧
        destroy_post K h reg E rE reg1 := by
  intro N
  induction N with
  | zero => intro K reg E rE _ _ hlt; exact absurd hlt (Nat.not_lt_zero _)
  | succ N ih =>
    intro K reg E rE hI hE hlt
    have hE0 := hI.ne_null hE
    obtain ⟨f1, reg1, hd1, ⟨K1, hI1, hK1⟩, hnx1, hE1', hal1, hgone1, hkept1⟩ :=
      destroy_children_spec N ih (K E) K reg E rE hI hE rfl (Nat.lt_succ_iff.1 hlt)
    obtain ⟨rE1, hE1, hpar1, hprev1, hnext1⟩ : ∃ rE1, reg1.rel E = some rE1 ∧
        rE1.parent = rE.parent ∧ rE1.prev_sibling = rE.prev_sibling ∧
        rE1.next_sibling = rE.next_sibling := ⟨_, hE1', rfl, rfl, rfl⟩
    clear hE1'
    have hK1E : K1 E = [] := by rw [hK1 E _ hE1, if_pos rfl]
    have hbelow : ∀ e, anc reg E e → e ≠ E → ∃ c ∈ K E, anc reg c e :=
      fun e ha hne => hI.anc_below ha hne
    have habove : ∀ e, (∃ c ∈ K E, anc reg c e) → anc reg E e := by
      rintro e ⟨c, hc, ha⟩
      exact anc_trans (hI.anc_child hE hc) ha
    have hEne : ∀ e, (∃ c ∈ K E, anc reg c e) → e ≠ E := by
      rintro e ⟨c, hc, ha⟩ e1
      exact hI.not_anc_parent hE hc (e1 ▸ ha)
    have hfuel : ∀ reg2, (if rE1.parent ≠ null then unparent reg1 E else some reg1) = some reg2 →
        ∀ m, f1 + 1 ≤ m → destroy m reg E = some ((reg2.remove E).destroy E) := by
      intro reg2 h2 m hm
      obtain ⟨m1, rfl⟩ : ∃ m1, m = m1 + 1 := ⟨m - 1, by omega⟩
      rw [destroy_succ]
      simp only [hI.valid_of_rel hE, Bool.not_true, Bool.false_eq_true, if_false,
        get_some hE0 hE, hI.first E rE hE, hd1 m1 (by omega), get_some hE0 hE1, h2]
    by_cases hroot : rE.parent = null
    · -- a root: no detaching
      have h2 : (if rE1.parent ≠ null then unparent reg1 E else some reg1) = some reg1 :=
        if_neg (not_not.2 (hpar1.trans hroot))
      have hI3 := hI1.remove_root hE1 (hpar1.trans hroot) hK1E
      refine ⟨f1 + 1, (reg1.remove E).destroy E, hfuel reg1 h2, ⟨K1, hI3, ?_⟩, hnx1, ?_, ?_⟩
      · intro e r hr
        change Function.update (Function.update reg1.rel E none) E none e = some r at hr
        have heE : e ≠ E := by
          intro e1; rw [e1, Function.update_same] at hr; cases hr
        rw [Function.update_noteq heE, Function.update_noteq heE] at hr
        rw [hK1 e r hr, if_neg heE, if_neg (by rw [hroot]; exact hI1.ne_null hr)]
      · intro e ha
        show Function.update (Function.update reg1.rel E none) E none e = none ∧
          Function.update reg1.alive E false e = false
        by_cases heE : e = E
        · rw [heE, Function.update_same, Function.update_same]; exact ⟨rfl, rfl⟩
        · rw [Function.update_noteq heE, Function.update_noteq heE, Function.update_noteq heE]
          exact hgone1 e (hbelow e ha heE)
      · intro e ha
        have heE : e ≠ E := fun e1 => ha (e1 ▸ anc.self)
        have hk := hkept1 e heE (fun hx => ha (habove e hx))
        show Function.update reg1.alive E false e = reg.alive e ∧
          Function.update (Function.update reg1.rel E none) E none e = detach_rel reg.rel E rE e
        rw [Function.update_noteq heE, Function.update_noteq heE, Function.update_noteq heE]
        refine ⟨hk.1, ?_⟩
        simp only [detach_rel, if_pos hroot]
        exact hk.2
    · -- an attached entity: detach, then remove
      have hP1 : rE1.parent ≠ null := by rw [hpar1]; exact hroot
      have h2 := hI1.unparent_eq hE1 hP1
      have h2' : (if rE1.parent ≠ null then unparent reg1 E else some reg1) =
          some ⟨reg1.next, reg1.alive, unlink_rel reg1.rel E rE1⟩ := by
        rw [if_pos hP1]; exact h2
      obtain ⟨A, B, hAB⟩ := hI1.exists_split hE1 hP1
      have hI2 := hI1.unlink hE1 hP1 hAB
      obtain ⟨rP, hP, hEA, -⟩ := hI1.split hE1 hP1 hAB
      obtain ⟨hPE, -⟩ := hI1.split_mem hE1 hP1 hAB
      rw [hpar1] at hPE hAB hP
      have hE2 : (⟨reg1.next, reg1.alive, unlink_rel reg1.rel E rE1⟩ : registry).rel E =
          some { rE1 with parent := null } := unlink_rel_self _ _ _
      have hK2E : Function.update K1 rE1.parent (A ++ B) E = [] := by
        rw [hpar1, Function.update_noteq (Ne.symm hPE)]; exact hK1E
      have hI3 := hI2.remove_root hE2 rfl hK2E
      have hKP : K rE.parent = A ++ E :: B := by
        rw [← hAB, hK1 _ rP hP, if_neg hPE]
      refine ⟨f1 + 1, _, hfuel _ h2', ⟨_, hI3, ?_⟩, hnx1, ?_, ?_⟩
      · intro e r hr
        change Function.update (Function.update (unlink_rel reg1.rel E rE1) E none)
            E none e = some r at hr
        have heE : e ≠ E := by
          intro e1; rw [e1, Function.update_same] at hr; cases hr
        rw [Function.update_noteq heE, Function.update_noteq heE] at hr
        obtain ⟨r1, hr1, -⟩ := unlink_rel_inv heE hr
        by_cases heP : e = rE.parent
        · rw [if_pos heP, heP, hKP, List.erase_append_right _ hEA, List.erase_cons_head,
            hpar1]
          exact Function.update_same _ _ _
        · rw [if_neg heP, hpar1]
          show Function.update K1 rE.parent (A ++ B) e = K e
          rw [Function.update_noteq heP, hK1 e r1 hr1, if_neg heE]
      · intro e ha
        show Function.update (Function.update (unlink_rel reg1.rel E rE1) E none)
            E none e = none ∧ Function.update reg1.alive E false e = false
        by_cases heE : e = E
        · rw [heE, Function.update_same, Function.update_same]; exact ⟨rfl, rfl⟩
        · rw [Function.update_noteq heE, Function.update_noteq heE, Function.update_noteq heE]
          have hg := hgone1 e (hbelow e ha heE)
          exact ⟨unlink_rel_none heE hg.1, hg.2⟩
      · intro e ha
        have heE : e ≠ E := fun e1 => ha (e1 ▸ anc.self)
        have hk := hkept1 e heE (fun hx => ha (habove e hx))
        show Function.update reg1.alive E false e = reg.alive e ∧
          Function.update (Function.update (unlink_rel reg1.rel E rE1) E none)
            E none e = detach_rel reg.rel E rE e
        rw [Function.update_noteq heE, Function.update_noteq heE, Function.update_noteq heE]
        refine ⟨hk.1, ?_⟩
        simp only [detach_rel, if_neg hroot]
        exact unlink_rel_congr hk.2 hpar1 hprev1 hnext1 heE

/-! ## The invariants along the public operations -/

theorem InvK.at_init : InvK (fun _ => []) (fun _ => 0) registry.init := by
  refine ⟨Nat.one_pos, ?_, ?_, rfl, ?_, ?_, ?_, ?_, ?_, ?_, ?_, ?_, ?_⟩
  · unfold entity_limit; exact Nat.le_of_ble_eq_true rfl
  all_goals intros
  all_goals first
    | rfl
    | (rename_i hx; cases hx)
    | (rename_i hx _; cases hx)

theorem Inv.at_start : Inv registry.init := ⟨_, _, InvK.at_init⟩

theorem create_some {reg reg1 : registry} {e : entity} (hc : create reg = some (reg1, e)) :
    reg.next < entity_limit ∧ e = reg.next ∧
      reg1 = ⟨reg.next + 1, Function.update reg.alive reg.next true,
        Function.update reg.rel reg.next (some relationship.fresh)⟩ := by
  by_cases hlt : reg.next < entity_limit
  · rw [create_eq hlt] at hc
    cases hc
    exact ⟨hlt, rfl, rfl⟩
  · simp only [create, registry.create, if_neg hlt] at hc
    cases hc

theorem Inv.of_create {reg reg1 : registry} {e : entity} (hI : Inv reg)
    (hc : create reg = some (reg1, e)) : Inv reg1 := by
  obtain ⟨K, h, hK⟩ := hI
  obtain ⟨hlt, -, rfl⟩ := create_some hc
  exact ⟨K, h, hK.after_create hlt⟩

theorem create_child_some {reg reg1 : registry} {P c : entity} (hv : reg.valid P = true)
    (hc : create_child reg P = some (reg1, c)) : reg.next < entity_limit := by
  by_cases hlt : reg.next < entity_limit
  · exact hlt
  · simp only [create_child, hv, Bool.not_true, Bool.false_eq_true, if_false, create,
      registry.create, if_neg hlt] at hc
    cases hc

theorem InvK.create_child_result {K : entity → List entity} {h : entity → Nat} {reg : registry}
    (hI : InvK K h reg) {P : entity} {rP : relationship} (hP : reg.rel P = some rP)
    {reg1 : registry} {c : entity} (hc : entt_ext.create_child reg P = some (reg1, c)) :
    c = reg.next ∧ reg1 = child_state reg P rP ∧ reg.next < entity_limit ∧
      InvK (Function.update K P (K P ++ [reg.next]))
        (fun e => if e = reg.next then 0 else h e + 1) reg1 := by
  have hlt := entt_ext.create_child_some (hI.valid_of_rel hP) hc
  obtain ⟨h1, h2⟩ := hI.after_create_child hP hlt
  rw [h1] at hc
  cases hc
  exact ⟨rfl, rfl, hlt, h2⟩

theorem Inv.of_create_child {reg reg1 : registry} {P c : entity} {rP : relationship}
    (hI : Inv reg) (hP : reg.rel P = some rP)
    (hc : create_child reg P = some (reg1, c)) : Inv reg1 := by
  obtain ⟨K, h, hK⟩ := hI
  exact ⟨_, _, (hK.create_child_result hP hc).2.2.2⟩

/-- A valid entity whose children can be iterated has a record. -/
theorem rel_of_iterate {reg : registry} {P : entity} {n : Nat} {L : List entity}
    (hv : reg.valid P = true) (hL : iterate n reg P = some L) : ∃ rP, reg.rel P = some rP := by
  simp only [iterate, children, hv, if_true, get_relationship, registry.get] at hL
  by_cases h0 : P = null
  · rw [if_pos h0] at hL; cases hL
  · rw [if_neg h0] at hL
    cases hr : reg.rel P with
    | none => rw [hr] at hL; cases hL
    | some r => exact ⟨r, rfl⟩

/-- A walk over a sibling segment followed by the walk from what comes after
it. -/
theorem walk_seg_append {reg : registry} {p : entity} {L R : List entity} {prev nxt : entity}
    (hs : seg reg p prev L nxt) {f : Nat} (hR : walk reg ⟨null⟩ f ⟨nxt⟩ = some R) :
    walk reg ⟨null⟩ (L.length + f) ⟨L.headD nxt⟩ = some (L ++ R) := by
  induction L generalizing prev with
  | nil => simpa using hR
  | cons a L ih =>
    obtain ⟨ha, r, hr, _, _, h3, h4⟩ := hs
    have hne : (⟨a⟩ : child_iterator) ≠ ⟨null⟩ := by
      intro h; exact ha (congrArg child_iterator.current_entity h)
    have hi : child_iterator.incr reg ⟨a⟩ = some ⟨L.headD nxt⟩ := by
      simp only [child_iterator.incr, registry.get, if_neg ha, hr, h3]
    have hlen : (a :: L).length + f = (L.length + f) + 1 := by simp; omega
    show walk reg ⟨null⟩ ((a :: L).length + f) ⟨a⟩ = some (a :: L ++ R)
    rw [hlen, walk, if_neg hne, hi]
    simp only [ih h4, child_iterator.deref, List.cons_append]

/-! ## Claims -/

/-- C7: an operation given a handle that is not valid changes nothing:
`create_child` returns the null handle and the unchanged registry, `unparent`,
`destroy` and `reparent` (with the invalid handle in either position) return the
unchanged registry, and `children` is the range whose begin equals its end. -/
theorem invalid_handle_noop (reg : registry) (hd x : entity) (hv : reg.valid hd = false) :
    create_child reg hd = some (reg, null) ∧
    unparent reg hd = some reg ∧
    (∀ fuel, destroy (fuel + 1) reg hd = some reg) ∧
    reparent reg hd x = some reg ∧
    reparent reg x hd = some reg ∧
    (∃ range, children reg hd = some range ∧ range.begin = range.end_iter) ∧
    (∀ fuel, iterate fuel reg hd = some []) := by
  refine ⟨?_, ?_, ?_, ?_, ?_, ?_, ?_⟩
  · simp only [create_child, hv, Bool.not_false, if_true]
  · simp only [unparent, hv, Bool.not_false, if_true]
  · intro fuel
    rw [destroy_succ]
    simp only [hv, Bool.not_false, if_true]
  · simp only [reparent, hv, Bool.not_false, Bool.true_or, if_true]
  · simp only [reparent, hv, Bool.not_false, Bool.or_true, if_true]
  · refine ⟨⟨null⟩, ?_, rfl⟩
    simp only [children, hv, Bool.false_eq_true, if_false]
  · intro fuel
    simp only [iterate, children, hv, Bool.false_eq_true, if_false, child_range.end_iter,
      child_range.begin]
    cases fuel <;> simp only [walk, if_true]

/-- Witness of C7 at the null handle of the registry with one root. -/
theorem invalid_handle_noop_witness :
    ex_root.valid null = false ∧
    (create_child ex_root null = some (ex_root, null) ∧
    unparent ex_root null = some ex_root ∧
    (∀ fuel, destroy (fuel + 1) ex_root null = some ex_root) ∧
    reparent ex_root null 1 = some ex_root ∧
    reparent ex_root 1 null = some ex_root ∧
    (∃ range, children ex_root null = some range ∧ range.begin = range.end_iter) ∧
    (∀ fuel, iterate fuel ex_root null = some [])) :=
  ⟨rfl, invalid_handle_noop ex_root null 1 rfl⟩

/-- C12: `unparent` of a valid root is not a no-op in the code: the record of
the null parent is read before the null test, so the call has no result. -/
theorem unparent_root_reads_null : unparent ex_root 1 = none ∧ ex_root.valid 1 = true ∧
    (ex_root.rel 1).map (fun r => r.parent) = some null := by
  refine ⟨rfl, rfl, rfl⟩

/-- C15: a group built by `emplace` from any sequence of systems has that many
systems, is empty exactly when the sequence is, and its `update` runs the
`update` of every system once, with the same delta time, in the order of
registration; for the recording systems of the test the trace is the
registration sequence. -/
theorem group_update_in_order {T W : Type} (ss : List (system T W)) (dt : T) (w : W)
    (ids : List Nat) :
    (ss.foldl group.emplace group.init).size = ss.length ∧
    ((ss.foldl group.emplace group.init).empty = true ↔ ss.length = 0) ∧
    (ss.foldl group.emplace group.init).update dt w =
      ss.foldl (fun w1 s => s.update dt w1) w ∧
    ((ids.map (test_system T)).foldl group.emplace group.init).update dt [] =
      ids.map (fun i => (i, dt)) := by
  have key : ∀ (U : Type) (l : List (system T U)) (g : group T U),
      (l.foldl group.emplace g).systems = g.systems ++ l := by
    intro U l
    induction l with
    | nil => intro g; simp
    | cons s l ih =>
      intro g
      rw [List.foldl_cons, ih]
      simp [group.emplace]
  have h1 : (ss.foldl group.emplace group.init).systems = ss := by
    rw [key]; rfl
  have htrace : ∀ (l : List Nat) (acc : List (Nat × T)),
      (l.map (test_system T)).foldl (fun w1 s => s.update dt w1) acc =
        acc ++ l.map (fun i => (i, dt)) := by
    intro l
    induction l with
    | nil => intro acc; simp
    | cons i l ih =>
      intro acc
      rw [List.map_cons, List.foldl_cons, ih]
      simp [test_system]
  refine ⟨?_, ?_, ?_, ?_⟩
  · simp only [group.size, h1]
  · simp only [group.empty, h1, List.isEmpty_iff, List.length_eq_zero]
  · simp only [group.update, h1]
  · have h2 : ((ids.map (test_system T)).foldl group.emplace group.init).systems =
        ids.map (test_system T) := by rw [key]; rfl
    simp only [group.update, h2]
    rw [htrace]
    rfl

/-- C16: the constructor of `relational_registry` accepts the null pointer, it
does not fail; the constructor of `system` rejects it. -/
theorem construct_from_null_succeeds :
    relational_registry.construct none = Except.ok { raw := none } ∧
    system_construct none = Except.error "Pointed-to registry must not be null" :=
  ⟨rfl, rfl⟩

/-! ## Children, descendants and ancestors -/

theorem InvK.is_child_iff {K : entity → List entity} {h : entity → Nat} {reg : registry}
    (hI : InvK K h reg) (p c : entity) :
    is_child reg p c ↔ (∃ rp, reg.rel p = some rp) ∧ c ∈ K p := by
  constructor
  · rintro ⟨n, L, hL, hc⟩
    by_cases hv : reg.valid p = true
    · obtain ⟨rp, hrp⟩ := rel_of_iterate hv hL
      rw [hI.iterate_inv hrp hL] at hc
      exact ⟨⟨rp, hrp⟩, hc⟩
    · simp only [iterate, children, hv, Bool.false_eq_true, if_false, child_range.end_iter,
        child_range.begin] at hL
      cases n <;> simp only [walk, if_true] at hL <;> cases hL <;> cases hc
  · rintro ⟨⟨rp, hrp⟩, hc⟩
    exact ⟨(K p).length, K p, hI.iterate_eq hrp _ (le_refl _), hc⟩

theorem InvK.anc_iff {K : entity → List entity} {h : entity → Nat} {reg : registry}
    (hI : InvK K h reg) (E e : entity) : anc reg E e ↔ e = E ∨ descendant reg E e := by
  constructor
  · intro ha
    induction ha with
    | self => exact Or.inl rfl
    | @step x r hr hpar _ ih =>
      right
      obtain ⟨hrp, hm⟩ := hI.attached x r hr hpar
      have hch : is_child reg r.parent x := (hI.is_child_iff _ _).2 ⟨hrp, hm⟩
      rcases ih with h1 | h1
      · rw [h1] at hch
        exact Relation.TransGen.single hch
      · exact Relation.TransGen.tail h1 hch
  · rintro (h1 | h1)
    · rw [h1]; exact anc.self
    · induction h1 with
      | single hch =>
        obtain ⟨⟨rp, hrp⟩, hm⟩ := (hI.is_child_iff _ _).1 hch
        exact hI.anc_child hrp hm
      | tail _ hch ih =>
        obtain ⟨⟨rp, hrp⟩, hm⟩ := (hI.is_child_iff _ _).1 hch
        exact anc_trans ih (hI.anc_child hrp hm)

/-- The parent of an attached entity and its siblings are not below it. -/
theorem InvK.not_anc_sibling {K : entity → List entity} {h : entity → Nat} {reg : registry}
    (hI : InvK K h reg) {E : entity} {rE : relationship} (hE : reg.rel E = some rE)
    (hP0 : rE.parent ≠ null) {x : entity} (hxE : x ≠ E)
    (hx : x = rE.parent ∨ ∃ r, reg.rel x = some r ∧ r.parent = rE.parent) :
    ¬ anc reg E x := by
  have hlt := hI.ranked E rE hE hP0
  have hP : ¬ anc reg E rE.parent := by
    intro ha
    rcases hI.anc_le ha with h1 | h1
    · rw [h1] at hlt; exact lt_irrefl _ hlt
    · exact lt_asymm hlt h1
  intro ha
  rcases hx with h1 | ⟨r, hr, hpar⟩
  · exact hP (h1 ▸ ha)
  · rcases anc_cases ha with h2 | ⟨r2, hr2, -, h3⟩
    · exact hxE h2
    · rw [hr] at hr2
      cases hr2
      rw [hpar] at h3
      exact hP h3

theorem valid_iff_alive {reg : registry} {e : entity} (h0 : e ≠ null) :
    reg.valid e = reg.alive e := by
  have h1 : (e != null) = true := bne_iff_ne.2 h0
  simp only [registry.valid, h1, Bool.true_and]

theorem valid_ne_null {reg : registry} {e : entity} (hv : reg.valid e = true) : e ≠ null := by
  intro h0
  simp only [registry.valid, h0, bne_self_eq_false, Bool.false_and, Bool.false_eq_true] at hv

/-- C14: under the invariants `destroy(E)` of an entity with a record terminates
and no record lookup fails: with enough fuel the model returns a state. -/
theorem destroy_terminates (reg : registry) (E : entity) (rE : relationship)
    (hI : Inv reg) (hE : reg.rel E = some rE) :
    ∃ f, ∀ m, f ≤ m → ∃ reg1, destroy m reg E = some reg1 := by
  obtain ⟨K, h, hK⟩ := hI
  obtain ⟨f, reg1, hd, -⟩ := destroy_spec (h E + 1) K reg E rE hK hE (Nat.lt_succ_self _)
  exact ⟨f, fun m hm => ⟨reg1, hd m hm⟩⟩

/-- C5: after `destroy(E)` a previously valid entity is invalid exactly when it
is `E` or a transitive descendant of `E`, and then it has no record. -/
theorem destroy_invalidates_subtree (reg : registry) (E : entity) (rE : relationship)
    (hI : Inv reg) (hE : reg.rel E = some rE) :
    ∃ f reg1, (∀ m, f ≤ m → destroy m reg E = some reg1) ∧
      ∀ e, reg.valid e = true →
        (reg1.valid e = false ↔ e = E ∨ descendant reg E e) ∧
        (e = E ∨ descendant reg E e → reg1.rel e = none) ∧
        (¬ (e = E ∨ descendant reg E e) → reg1.valid e = true) := by
  obtain ⟨K, h, hK⟩ := hI
  obtain ⟨f, reg1, hd, post⟩ := destroy_spec (h E + 1) K reg E rE hK hE (Nat.lt_succ_self _)
  refine ⟨f, reg1, hd, ?_⟩
  intro e hv
  have h0 := valid_ne_null hv
  rw [valid_iff_alive h0] at hv ⊢
  rw [← hK.anc_iff]
  by_cases ha : anc reg E e
  · have hg := post.gone e ha
    exact ⟨⟨fun _ => ha, fun _ => hg.2⟩, fun _ => hg.1, fun hn => absurd ha hn⟩
  · have hk := post.kept e ha
    refine ⟨⟨fun hf => ?_, fun h1 => absurd h1 ha⟩, fun h1 => absurd h1 ha, fun _ => ?_⟩
    · rw [hk.1, hv] at hf; cases hf
    · rw [hk.1, hv]

/-- C20: `destroy(E)` changes the record of a surviving entity only if it is
the former parent of `E` (then only `first_child`, `last_child`, `child_count`)
or the former previous or next sibling of `E` (then only `next_sibling`,
respectively `prev_sibling`); when `E` is a root no surviving record changes. -/
theorem destroy_frame (reg : registry) (E : entity) (rE : relationship)
    (hI : Inv reg) (hE : reg.rel E = some rE) :
    ∃ f reg1, (∀ m, f ≤ m → destroy m reg E = some reg1) ∧
      ∀ e r1, reg1.rel e = some r1 → ∃ r, reg.rel e = some r ∧
        r1.parent = r.parent ∧
        (e ≠ rE.parent → r1.first_child = r.first_child ∧ r1.last_child = r.last_child ∧
          r1.child_count = r.child_count) ∧
        (e ≠ rE.prev_sibling → r1.next_sibling = r.next_sibling) ∧
        (e ≠ rE.next_sibling → r1.prev_sibling = r.prev_sibling) ∧
        (e ≠ rE.parent → e ≠ rE.prev_sibling → e ≠ rE.next_sibling → r1 = r) ∧
        (rE.parent = null → r1 = r) := by
  obtain ⟨K, h, hK⟩ := hI
  obtain ⟨f, reg1, hd, post⟩ := destroy_spec (h E + 1) K reg E rE hK hE (Nat.lt_succ_self _)
  refine ⟨f, reg1, hd, ?_⟩
  intro e r1 hr1
  have ha : ¬ anc reg E e := by
    intro ha
    rw [(post.gone e ha).1] at hr1
    cases hr1
  have heE : e ≠ E := fun e1 => ha (e1 ▸ anc.self)
  have hk := (post.kept e ha).2
  rw [hr1] at hk
  by_cases hroot : rE.parent = null
  · simp only [detach_rel, if_pos hroot] at hk
    exact ⟨r1, hk.symm, rfl, fun _ => ⟨rfl, rfl, rfl⟩, fun _ => rfl, fun _ => rfl,
      fun _ _ _ => rfl, fun _ => rfl⟩
  · simp only [detach_rel, if_neg hroot] at hk
    obtain ⟨r, hr, h1, h2, h3, h4⟩ := unlink_rel_inv heE hk.symm
    refine ⟨r, hr, h1, h2, h3, h4, ?_, fun h0 => absurd h0 hroot⟩
    intro e1 e2 e3
    rw [unlink_rel_other heE e1 e2 e3, hr] at hk
    cases hk
    rfl

/-- C6: after `destroy(E)` of an attached entity the children of its former
parent are the former children without `E`, in their former order, the child
count of the parent is one less, and the former neighbours of `E` are linked to
each other, the parent pointing to them where `E` was the head or the tail. -/
theorem destroy_detaches (reg : registry) (E : entity) (rE : relationship)
    (n : Nat) (L : List entity) (hI : Inv reg) (hE : reg.rel E = some rE)
    (hP0 : rE.parent ≠ null) (hL : iterate n reg rE.parent = some L) :
    ∃ f reg1, (∀ m, f ≤ m → destroy m reg E = some reg1) ∧
      (∀ m, L.length - 1 ≤ m → iterate m reg1 rE.parent = some (L.erase E)) ∧
      (∃ rP rP1, reg.rel rE.parent = some rP ∧ reg1.rel rE.parent = some rP1 ∧
        rP1.child_count + 1 = rP.child_count ∧
        (rE.prev_sibling = null → rP1.first_child = rE.next_sibling) ∧
        (rE.next_sibling = null → rP1.last_child = rE.prev_sibling)) ∧
      (rE.prev_sibling ≠ null → ∃ ra, reg1.rel rE.prev_sibling = some ra ∧
        ra.next_sibling = rE.next_sibling) ∧
      (rE.next_sibling ≠ null → ∃ rb, reg1.rel rE.next_sibling = some rb ∧
        rb.prev_sibling = rE.prev_sibling) := by
  obtain ⟨K, h, hK⟩ := hI
  obtain ⟨f, reg1, hd, post⟩ := destroy_spec (h E + 1) K reg E rE hK hE (Nat.lt_succ_self _)
  obtain ⟨K1, hI1, hK1⟩ := post.inv
  obtain ⟨A, B, hAB⟩ := hK.exists_split hE hP0
  obtain ⟨rP, hP, hEA, hEB, hnd, hprev, hnext, hfirst, hlast, hcount, hsA, hsB⟩ :=
    hK.split hE hP0 hAB
  obtain ⟨hPE, hmemA, hmemB, hpA, hnB⟩ := hK.split_mem hE hP0 hAB
  have hdet : ∀ e, detach_rel reg.rel E rE e = unlink_rel reg.rel E rE e := by
    intro e; simp only [detach_rel, if_neg hP0]
  have hLK : L = K rE.parent := hK.iterate_inv hP hL
  have hnaP : ¬ anc reg E rE.parent := hK.not_anc_sibling hE hP0 hPE (Or.inl rfl)
  have hP1 : reg1.rel rE.parent = some
      { rP with first_child := if rP.first_child = E then rE.next_sibling
                               else rP.first_child,
                last_child := if rP.last_child = E then rE.prev_sibling
                              else rP.last_child,
                child_count := (rP.child_count + size_mod - 1) % size_mod } := by
    rw [(post.kept _ hnaP).2, hdet]
    exact unlink_rel_parent reg.rel hPE hP
  have hK1P : K1 rE.parent = L.erase E := by
    rw [hK1 _ _ hP1, if_pos rfl, hLK]
  have hmem : E ∈ L := by
    rw [hLK, hAB]; exact List.mem_append_right _ (List.mem_cons_self _ _)
  refine ⟨f, reg1, hd, ?_, ⟨rP, _, hP, hP1, ?_, ?_, ?_⟩, ?_, ?_⟩
  · intro m hm
    rw [← hK1P]
    apply hI1.iterate_eq hP1
    rw [hK1P, List.length_erase_of_mem hmem]
    exact hm
  · have h1 := hI1.count _ _ hP1
    have h2 := hK.count _ _ hP
    rw [hK1P, List.length_erase_of_mem hmem] at h1
    rw [← hLK] at h2
    have h3 : 0 < L.length := List.length_pos_of_mem hmem
    rw [h1, h2]
    omega
  · intro h0
    have hA : A = [] := by
      cases A with
      | nil => rfl
      | cons a A =>
        exact absurd (hprev.symm.trans h0) (hmemA _ (getLastD_cons_mem a A null)).1
    subst hA
    show (if rP.first_child = E then rE.next_sibling else rP.first_child) = _
    exact if_pos hfirst
  · intro h0
    have hB : B = [] := by
      cases B with
      | nil => rfl
      | cons b B =>
        exact absurd (hnext.symm.trans h0) (hmemB b (List.mem_cons_self _ _)).1
    subst hB
    show (if rP.last_child = E then rE.prev_sibling else rP.last_child) = _
    exact if_pos hlast
  · intro hne
    have hm := hmemA _ (hpA hne)
    obtain ⟨ra, hra, hpar⟩ := hm.2.2.2.2
    have hna : ¬ anc reg E rE.prev_sibling :=
      hK.not_anc_sibling hE hP0 hm.2.1 (Or.inr ⟨ra, hra, hpar⟩)
    refine ⟨{ ra with next_sibling := rE.next_sibling }, ?_, rfl⟩
    rw [(post.kept _ hna).2, hdet]
    exact unlink_rel_prev reg.rel E rE ra hm.2.1 hm.2.2.1 hra
  · intro hne
    have hm := hmemB _ (hnB hne)
    obtain ⟨rb, hrb, hpar⟩ := hm.2.2.2.2
    have hna : ¬ anc reg E rE.next_sibling :=
      hK.not_anc_sibling hE hP0 hm.2.1 (Or.inr ⟨rb, hrb, hpar⟩)
    have hab : rE.next_sibling ≠ rE.prev_sibling := by
      intro e1
      have h1 : rE.prev_sibling ≠ null := e1 ▸ hne
      exact hm.2.2.2.1 (e1 ▸ hpA h1)
    refine ⟨{ rb with prev_sibling := rE.prev_sibling }, ?_, rfl⟩
    rw [(post.kept _ hna).2, hdet]
    exact unlink_rel_next reg.rel E rE rb hm.2.1 hm.2.2.1 hab hrb

/-! ## The example states satisfy the invariants -/

theorem ex_root_inv : Inv ex_root :=
  Inv.of_create Inv.at_start (show create registry.init = some (ex_root, 1) from rfl)

theorem ex_root_rel : ex_root.rel 1 = some relationship.fresh := rfl

theorem ex_child_inv : Inv ex_child :=
  Inv.of_create_child ex_root_inv ex_root_rel
    (show create_child ex_root 1 = some (ex_child, 2) from rfl)

theorem ex_child_rel : ex_child.rel 1 = some
    { parent := null, first_child := 2, last_child := 2, prev_sibling := null,
      next_sibling := null, child_count := 1 } := rfl

theorem ex_two_children_inv : Inv ex_two_children :=
  Inv.of_create_child ex_child_inv ex_child_rel
    (show create_child ex_child 1 = some (ex_two_children, 3) from rfl)

theorem ex_two_roots_inv : Inv ex_two_roots :=
  Inv.of_create ex_root_inv (show create ex_root = some (ex_two_roots, 2) from rfl)

theorem ex_family_inv : Inv ex_family :=
  Inv.of_create_child
    (Inv.of_create_child ex_two_roots_inv
      (show ex_two_roots.rel 1 = some relationship.fresh from rfl)
      (show create_child ex_two_roots 1 = some (state_of (create_child ex_two_roots 1), 3)
        from rfl))
    (show (state_of (create_child ex_two_roots 1)).rel 1 = some
      { parent := null, first_child := 3, last_child := 3, prev_sibling := null,
        next_sibling := null, child_count := 1 } from rfl)
    (show create_child (state_of (create_child ex_two_roots 1)) 1 = some (ex_family, 4)
      from rfl)

/-- Witness of C14: the root of the example with one child. -/
theorem destroy_terminates_witness :
    Inv ex_child ∧ ex_child.rel 1 = some
      { parent := null, first_child := 2, last_child := 2, prev_sibling := null,
        next_sibling := null, child_count := 1 } ∧
    ∃ f, ∀ m, f ≤ m → ∃ reg1, destroy m ex_child 1 = some reg1 :=
  ⟨ex_child_inv, rfl, destroy_terminates ex_child 1 _ ex_child_inv ex_child_rel⟩

/-- Witness of C5: destroying the root of the example with one child. -/
theorem destroy_invalidates_subtree_witness :
    Inv ex_child ∧ ex_child.rel 1 = some
      { parent := null, first_child := 2, last_child := 2, prev_sibling := null,
        next_sibling := null, child_count := 1 } ∧
    ∃ f reg1, (∀ m, f ≤ m → destroy m ex_child 1 = some reg1) ∧
      ∀ e, ex_child.valid e = true →
        (reg1.valid e = false ↔ e = 1 ∨ descendant ex_child 1 e) ∧
        (e = 1 ∨ descendant ex_child 1 e → reg1.rel e = none) ∧
        (¬ (e = 1 ∨ descendant ex_child 1 e) → reg1.valid e = true) :=
  ⟨ex_child_inv, rfl, destroy_invalidates_subtree ex_child 1 _ ex_child_inv ex_child_rel⟩

/-- Witness of C20: destroying the first of two children. -/
theorem destroy_frame_witness :
    Inv ex_two_children ∧ ex_two_children.rel 2 = some
      { parent := 1, first_child := null, last_child := null, prev_sibling := null,
        next_sibling := 3, child_count := 0 } ∧
    ∃ f reg1, (∀ m, f ≤ m → destroy m ex_two_children 2 = some reg1) ∧
      ∀ e r1, reg1.rel e = some r1 → ∃ r, ex_two_children.rel e = some r ∧
        r1.parent = r.parent ∧
        (e ≠ 1 → r1.first_child = r.first_child ∧ r1.last_child = r.last_child ∧
          r1.child_count = r.child_count) ∧
        (e ≠ null → r1.next_sibling = r.next_sibling) ∧
        (e ≠ 3 → r1.prev_sibling = r.prev_sibling) ∧
        (e ≠ 1 → e ≠ null → e ≠ 3 → r1 = r) ∧
        ((1 : entity) = null → r1 = r) :=
  ⟨ex_two_children_inv, rfl,
    destroy_frame ex_two_children 2 _ ex_two_children_inv
      (show ex_two_children.rel 2 = some
        { parent := 1, first_child := null, last_child := null, prev_sibling := null,
          next_sibling := 3, child_count := 0 } from rfl)⟩

/-- Witness of C6: destroying the first of two children. -/
theorem destroy_detaches_witness :
    Inv ex_two_children ∧ ex_two_children.rel 2 = some
      { parent := 1, first_child := null, last_child := null, prev_sibling := null,
        next_sibling := 3, child_count := 0 } ∧
    (1 : entity) ≠ null ∧ iterate 2 ex_two_children 1 = some [2, 3] ∧
    ∃ f reg1, (∀ m, f ≤ m → destroy m ex_two_children 2 = some reg1) ∧
      (∀ m, [2, 3].length - 1 ≤ m → iterate m reg1 1 = some ([2, 3].erase 2)) ∧
      (∃ rP rP1, ex_two_children.rel 1 = some rP ∧ reg1.rel 1 = some rP1 ∧
        rP1.child_count + 1 = rP.child_count ∧
        ((null : entity) = null → rP1.first_child = 3) ∧
        ((3 : entity) = null → rP1.last_child = null)) ∧
      ((null : entity) ≠ null → ∃ ra, reg1.rel null = some ra ∧ ra.next_sibling = 3) ∧
      ((3 : entity) ≠ null → ∃ rb, reg1.rel 3 = some rb ∧ rb.prev_sibling = null) :=
  ⟨ex_two_children_inv, rfl, by decide, rfl,
    destroy_detaches ex_two_children 2
      { parent := 1, first_child := null, last_child := null, prev_sibling := null,
        next_sibling := 3, child_count := 0 } 2 [2, 3] ex_two_children_inv rfl
      (by decide) rfl⟩

/-! ## Repeated `create_child` -/

theorem create_children_succ_some {k : Nat} {reg reg1 : registry} {P : entity}
    {cs : List entity} (hc : create_children (k + 1) reg P = some (reg1, cs)) :
    ∃ reg2 c cs1, create_child reg P = some (reg2, c) ∧
      create_children k reg2 P = some (reg1, cs1) ∧ cs = c :: cs1 := by
  rw [create_children] at hc
  cases h1 : create_child reg P with
  | none => rw [h1] at hc; cases hc
  | some p =>
    obtain ⟨reg2, c⟩ := p
    rw [h1] at hc
    simp only at hc
    cases h2 : create_children k reg2 P with
    | none => rw [h2] at hc; cases hc
    | some q =>
      obtain ⟨reg3, cs1⟩ := q
      rw [h2] at hc
      simp only [Option.some.injEq, Prod.mk.injEq] at hc
      obtain ⟨rfl, rfl⟩ := hc
      exact ⟨reg2, c, cs1, rfl, h2, rfl⟩

/-- The `k` handles returned by `k` calls of `create_child(P)` are the next `k`
unissued handles and are appended to the child list of `P`. -/
theorem InvK.create_children_spec (k : Nat) :
    ∀ (K : entity → List entity) (h : entity → Nat) (reg : registry) (P : entity)
      (rP : relationship) (reg1 : registry) (cs : List entity),
      InvK K h reg → reg.rel P = some rP → create_children k reg P = some (reg1, cs) →
      ∃ h1 rP1, InvK (Function.update K P (K P ++ cs)) h1 reg1 ∧ reg1.rel P = some rP1 ∧
        cs = List.range' reg.next k ∧ reg1.next = reg.next + k := by
  induction k with
  | zero =>
    intro K h reg P rP reg1 cs hI hP hc
    simp only [create_children, Option.some.injEq, Prod.mk.injEq] at hc
    obtain ⟨rfl, rfl⟩ := hc
    refine ⟨h, rP, ?_, hP, rfl, rfl⟩
    rw [List.append_nil, Function.update_eq_self]
    exact hI
  | succ k ih =>
    intro K h reg P rP reg1 cs hI hP hc
    obtain ⟨reg2, c, cs1, h1, h2, rfl⟩ := create_children_succ_some hc
    obtain ⟨rfl, rfl, -, hI2⟩ := hI.create_child_result hP h1
    have hP2 : (child_state reg P rP).rel P = _ := attach_rel_parent _ P reg.next rP _
    obtain ⟨h3, rP3, hI3, hP3, hcs, hnx⟩ := ih _ _ _ P _ reg1 cs1 hI2 hP2 h2
    refine ⟨h3, rP3, ?_, hP3, ?_, ?_⟩
    · rw [Function.update_same, Function.update_idem, List.append_assoc] at hI3
      exact hI3
    · rw [hcs]; rfl
    · rw [hnx]
      show reg.next + 1 + k = reg.next + (k + 1)
      omega

/-- C1: after `k` successful calls of `create_child(P)` the children of `P` are
the former children followed by the `k` returned handles in call order; the
handles are non-null, pairwise distinct and new; the child count is the former
length plus `k`. -/
theorem create_children_appends (reg reg1 : registry) (P : entity) (L cs : List entity)
    (n k : Nat) (hI : Inv reg) (hv : reg.valid P = true) (hL : iterate n reg P = some L)
    (hc : create_children k reg P = some (reg1, cs)) :
    (∀ m, L.length + k ≤ m → iterate m reg1 P = some (L ++ cs)) ∧
    cs.length = k ∧ null ∉ cs ∧ cs.Nodup ∧ (∀ c ∈ cs, c ∉ L) ∧
    (∃ r1, reg1.rel P = some r1 ∧ r1.child_count = L.length + k) := by
  obtain ⟨K, h, hK⟩ := hI
  obtain ⟨rP, hP⟩ := rel_of_iterate hv hL
  have hLK : L = K P := hK.iterate_inv hP hL
  obtain ⟨h1, rP1, hI1, hP1, hcs, -⟩ := hK.create_children_spec k K h reg P rP reg1 cs hP hc
  have hK1 : Function.update K P (K P ++ cs) P = L ++ cs := by
    rw [Function.update_same, hLK]
  have hlen : cs.length = k := by rw [hcs, List.length_range']
  have hmem : ∀ c ∈ cs, reg.next ≤ c := by
    intro c hc1
    rw [hcs, List.mem_range'_1] at hc1
    exact hc1.1
  refine ⟨?_, hlen, ?_, ?_, ?_, ⟨rP1, hP1, ?_⟩⟩
  · intro m hm
    rw [← hK1]
    apply hI1.iterate_eq hP1
    rw [hK1, List.length_append, hlen]
    exact hm
  · intro h0
    have h2 := hmem _ h0
    have h3 := hK.next_pos
    exact absurd h2 (not_le.2 h3)
  · rw [hcs]; exact List.nodup_range' _ _
  · intro c hc1 hcL
    rw [hLK] at hcL
    obtain ⟨-, r, hr, -⟩ := hK.child hP hcL
    exact absurd (hK.alive_lt c (hK.rel_alive c r hr)) (not_lt.2 (hmem c hc1))
  · rw [hI1.count P rP1 hP1, hK1, List.length_append, hlen]

/-- Witness of C1: two children created under the fresh root of the example. -/
theorem create_children_appends_witness :
    Inv ex_root ∧ ex_root.valid 1 = true ∧ iterate 0 ex_root 1 = some [] ∧
    create_children 2 ex_root 1 = some (ex_two_children, [2, 3]) ∧
    ((∀ m, ([] : List entity).length + 2 ≤ m →
        iterate m ex_two_children 1 = some ([] ++ [2, 3])) ∧
      ([2, 3] : List entity).length = 2 ∧ null ∉ ([2, 3] : List entity) ∧
      ([2, 3] : List entity).Nodup ∧ (∀ c ∈ ([2, 3] : List entity), c ∉ ([] : List entity)) ∧
      (∃ r1, ex_two_children.rel 1 = some r1 ∧
        r1.child_count = ([] : List entity).length + 2)) :=
  ⟨ex_root_inv, rfl, rfl, rfl,
    create_children_appends ex_root ex_two_children 1 [] [2, 3] 0 2 ex_root_inv rfl rfl rfl⟩

/-- C2: after `unparent(C)` of a child attached to `P` the children of `P` are
the former children without `C` in their former order, the parent of `C` is
null, the child count of `P` is one less and `C` is still valid. -/
theorem unparent_removes_child (reg : registry) (C : entity) (rC : relationship)
    (n : Nat) (L : List entity) (hI : Inv reg) (hC : reg.rel C = some rC)
    (hP0 : rC.parent ≠ null) (hL : iterate n reg rC.parent = some L) :
    ∃ reg1, unparent reg C = some reg1 ∧
      (∀ m, L.length - 1 ≤ m → iterate m reg1 rC.parent = some (L.erase C)) ∧
      C ∉ L.erase C ∧
      (∃ r1, reg1.rel C = some r1 ∧ r1.parent = null) ∧
      (∃ rP rP1, reg.rel rC.parent = some rP ∧ reg1.rel rC.parent = some rP1 ∧
        rP1.child_count + 1 = rP.child_count) ∧
      reg1.valid C = true := by
  obtain ⟨K, h, hK⟩ := hI
  obtain ⟨A, B, hAB⟩ := hK.exists_split hC hP0
  obtain ⟨rP, hP, hCA, hCB, hnd, -⟩ := hK.split hC hP0 hAB
  obtain ⟨hPC, -⟩ := hK.split_mem hC hP0 hAB
  have hI1 := hK.unlink hC hP0 hAB
  have hLK : L = K rC.parent := hK.iterate_inv hP hL
  have hLAB : L.erase C = A ++ B := by
    rw [hLK, hAB, List.erase_append_right _ hCA, List.erase_cons_head]
  have hP1 := unlink_rel_parent reg.rel hPC hP
  refine ⟨_, hK.unparent_eq hC hP0, ?_, ?_, ⟨_, unlink_rel_self _ _ _, rfl⟩,
    ⟨rP, _, hP, hP1, ?_⟩, hK.valid_of_rel hC⟩
  · intro m hm
    have h1 := hI1.iterate_eq hP1 m
    rw [Function.update_same, ← hLAB] at h1
    apply h1
    rw [hLAB, List.length_append]
    rw [hLK, hAB, List.length_append, List.length_cons] at hm
    omega
  · rw [hLAB]
    intro hm
    rcases List.mem_append.1 hm with h1 | h1
    · exact hCA h1
    · exact hCB h1
  · have h1 := hI1.count _ _ hP1
    rw [Function.update_same, List.length_append] at h1
    have h2 := hK.count _ _ hP
    rw [hAB, List.length_append, List.length_cons] at h2
    rw [h1, h2]
    omega

/-- Witness of C2: unparenting the first of two children. -/
theorem unparent_removes_child_witness :
    Inv ex_two_children ∧ ex_two_children.rel 2 = some
      { parent := 1, first_child := null, last_child := null, prev_sibling := null,
        next_sibling := 3, child_count := 0 } ∧
    (1 : entity) ≠ null ∧ iterate 2 ex_two_children 1 = some [2, 3] ∧
    ∃ reg1, unparent ex_two_children 2 = some reg1 ∧
      (∀ m, [2, 3].length - 1 ≤ m → iterate m reg1 1 = some ([2, 3].erase 2)) ∧
      2 ∉ [2, 3].erase 2 ∧
      (∃ r1, reg1.rel 2 = some r1 ∧ r1.parent = null) ∧
      (∃ rP rP1, ex_two_children.rel 1 = some rP ∧ reg1.rel 1 = some rP1 ∧
        rP1.child_count + 1 = rP.child_count) ∧
      reg1.valid 2 = true :=
  ⟨ex_two_children_inv, rfl, by decide, rfl,
    unparent_removes_child ex_two_children 2
      { parent := 1, first_child := null, last_child := null, prev_sibling := null,
        next_sibling := 3, child_count := 0 } 2 [2, 3] ex_two_children_inv rfl
      (by decide) rfl⟩

/-- C10: `unparent` only clears the parent of the child: after `unparent(2)` in
the example with the children 2 and 3 of the root 1, the `next_sibling` of 2 is
still 3. -/
theorem unparent_keeps_next_sibling :
    (unparent ex_two_children 2).bind (fun reg1 => reg1.rel 2) = some
      { parent := null, first_child := null, last_child := null, prev_sibling := null,
        next_sibling := 3, child_count := 0 } := rfl

/-- C3: after `reparent(3, 2)` in the example where 3 and 4 are the children of
the root 1 and the root 2 has none, iterating the children of 2 yields 3 and
then 4, not 3 alone. -/
theorem reparent_iterates_old_siblings :
    Inv ex_family ∧
    (reparent ex_family 3 2).bind (fun reg1 => iterate 5 reg1 2) = some [3, 4] :=
  ⟨ex_family_inv, rfl⟩

/-- C9: after `reparent(3, 2)` in the same example the only child 3 of 2 has 4 as
its `next_sibling`: the child list of 2 has no null sentinel at its end. -/
theorem reparent_breaks_sentinel :
    Inv ex_family ∧
    (reparent ex_family 3 2).bind (fun reg1 => reg1.rel 3) = some
      { parent := 2, first_child := null, last_child := null, prev_sibling := null,
        next_sibling := 4, child_count := 0 } ∧
    (reparent ex_family 3 2).bind (fun reg1 => reg1.rel 2) = some
      { parent := null, first_child := 3, last_child := 3, prev_sibling := null,
        next_sibling := null, child_count := 1 } :=
  ⟨ex_family_inv, rfl, rfl⟩

/-- C8: `unparent` of the valid root 1 of the example with one child, which
satisfies the invariants, has no resulting state: the record of the null parent
is read. -/
theorem unparent_root_no_state :
    Inv ex_child ∧ ex_child.valid 1 = true ∧
    ex_child.rel 1 = some
      { parent := null, first_child := 2, last_child := 2, prev_sibling := null,
        next_sibling := null, child_count := 1 } ∧
    unparent ex_child 1 = none :=
  ⟨ex_child_inv, rfl, rfl, rfl⟩

/-- The invariants are kept by `create`, `create_child`, `unparent` of an
attached child and `destroy`, for an argument with a record. -/
theorem invariants_kept (reg : registry) (hI : Inv reg) :
    (∀ reg1 e, create reg = some (reg1, e) → Inv reg1) ∧
    (∀ P rP reg1 c, reg.rel P = some rP → create_child reg P = some (reg1, c) → Inv reg1) ∧
    (∀ C rC, reg.rel C = some rC → rC.parent ≠ null →
      ∃ reg1, unparent reg C = some reg1 ∧ Inv reg1) ∧
    (∀ E rE, reg.rel E = some rE →
      ∃ f reg1, (∀ m, f ≤ m → destroy m reg E = some reg1) ∧ Inv reg1) := by
  refine ⟨fun reg1 e hc => hI.of_create hc, fun P rP reg1 c hP hc => hI.of_create_child hP hc,
    ?_, ?_⟩
  · intro C rC hC hP0
    obtain ⟨K, h, hK⟩ := hI
    obtain ⟨A, B, hAB⟩ := hK.exists_split hC hP0
    exact ⟨_, hK.unparent_eq hC hP0, _, _, hK.unlink hC hP0 hAB⟩
  · intro E rE hE
    obtain ⟨K, h, hK⟩ := hI
    obtain ⟨f, reg1, hd, post⟩ := destroy_spec (h E + 1) K reg E rE hK hE (Nat.lt_succ_self _)
    obtain ⟨K1, hI1, -⟩ := post.inv
    exact ⟨f, reg1, hd, K1, h, hI1⟩

/-! ## `reparent` -/

theorem iterate_eq_walk {reg : registry} {P : entity} {r : relationship}
    (hv : reg.valid P = true) (hr : reg.rel P = some r) (m : Nat) :
    iterate m reg P = walk reg ⟨null⟩ m ⟨r.first_child⟩ := by
  simp only [iterate, children, hv, if_true, get_some (valid_ne_null hv) hr,
    child_range.end_iter, child_range.begin]

/-- Links of the members of the child lists, apart from the former last child of
`P`, are not changed by attaching a root to `P`. -/
theorem InvK.attach_links {K : entity → List entity} {h : entity → Nat} {reg : registry}
    (hI : InvK K h reg) {P c : entity} {rP rc : relationship} (hP : reg.rel P = some rP)
    (hc : reg.rel c = some rc) (hroot : rc.parent = null)
    {p : entity} {rp : relationship} (hrp : reg.rel p = some rp) {x : entity}
    (hx : x ∈ K p) (hxl : p = P → x ≠ rP.last_child) {r : relationship}
    (hr : reg.rel x = some r) :
    ∃ r1, attach_rel reg.rel P c rP rc x = some r1 ∧ r1.parent = r.parent ∧
      r1.prev_sibling = r.prev_sibling ∧ r1.next_sibling = r.next_sibling := by
  have hxc : x ≠ c := by
    intro e
    obtain ⟨-, r2, hr2, hpar⟩ := hI.child hrp hx
    rw [e, hc] at hr2
    cases hr2
    exact hI.ne_null hrp (hpar.symm.trans hroot)
  obtain ⟨r1, hr1, h1, h2, -, h4⟩ := attach_rel_some c rc hP hxc hr
  refine ⟨r1, hr1, h1, h2, h4 ?_⟩
  by_cases hpP : p = P
  · exact Or.inl (hxl hpP)
  · by_cases hxP : x = P
    · exact Or.inr hxP
    · left
      intro e
      obtain ⟨-, r2, hr2, hpar2⟩ := hI.child hrp hx
      have hne : rP.last_child ≠ null := e ▸ (hI.child hrp hx).1
      obtain ⟨-, r3, hr3, hpar3⟩ := hI.child hP ((hI.last_facts hP).2 hne)
      rw [← e, hr2] at hr3
      cases hr3
      exact hpP (hpar2.symm.trans hpar3)

/-- After attaching a root `c` to `P` the former children of `P` form a segment
that ends in `c`. -/
theorem InvK.attach_seg {K : entity → List entity} {h : entity → Nat} {reg : registry}
    (hI : InvK K h reg) {P c : entity} {rP rc : relationship} (hP : reg.rel P = some rP)
    (hc : reg.rel c = some rc) (hroot : rc.parent = null) :
    seg ⟨reg.next, reg.alive, attach_rel reg.rel P c rP rc⟩ P null (K P) c := by
  have hsP := hI.sibs P rP hP
  have hlastK := hI.last P rP hP
  rcases List.eq_nil_or_concat (K P) with hA | ⟨A0, a, hA⟩
  · rw [hA]; trivial
  · rw [List.concat_eq_append] at hA
    have ha : rP.last_child = a := by rw [hlastK, hA]; simp
    have hnd := hI.nodup P rP hP
    rw [hA] at hsP hnd ⊢
    rw [seg_append] at hsP ⊢
    obtain ⟨hs1, ha0, r, hr, hpar, hpv, -, -⟩ := hsP
    have haA0 : a ∉ A0 := fun hx =>
      (List.nodup_append.1 hnd).2.2 hx (List.mem_singleton_self a)
    have hma : a ∈ K P := by
      rw [hA]; exact List.mem_append_right _ (List.mem_singleton_self a)
    constructor
    · apply seg_congr _ hs1
      intro x hx r2 hr2
      apply hI.attach_links hP hc hroot hP (by rw [hA]; exact List.mem_append_left _ hx) _ hr2
      intro _ e
      exact haA0 (by rw [← ha, ← e]; exact hx)
    · have hap : a ≠ P := by
        intro e
        have h1 := hI.child_lt hP hma
        rw [e] at h1
        exact lt_irrefl _ h1
      have hac : a ≠ c := by
        intro e
        obtain ⟨-, r2, hr2, hpar2⟩ := hI.child hP hma
        rw [e, hc] at hr2
        cases hr2
        exact hI.ne_null hP (hpar2.symm.trans hroot)
      have h5 := attach_rel_last reg.rel P c rP rc r (by rw [ha]; exact hap)
        (by rw [ha]; exact hac) (by rw [ha]; exact hr)
      rw [ha] at h5
      exact ⟨ha0, _, h5, hpar, hpv, rfl, trivial⟩

/-- C4: after `reparent(C, P2)` of a child attached to another parent, the
parent of `C` is `P2`, `C` occurs exactly once among the children of `P2`, and
the children of the former parent are the former children without `C`. -/
theorem reparent_isolation (reg : registry) (C P2 : entity) (rC rP2 : relationship)
    (n : Nat) (L1 : List entity) (hI : Inv reg) (hC : reg.rel C = some rC)
    (hP0 : rC.parent ≠ null) (hP2 : reg.rel P2 = some rP2) (h12 : P2 ≠ rC.parent)
    (h2C : P2 ≠ C) (hL : iterate n reg rC.parent = some L1) :
    ∃ reg1, reparent reg C P2 = some reg1 ∧
      (∃ r, reg1.rel C = some r ∧ r.parent = P2) ∧
      (∃ f L2, (∀ m, f ≤ m → iterate m reg1 P2 = some L2) ∧ L2.count C = 1) ∧
      (∀ m, L1.length - 1 ≤ m → iterate m reg1 rC.parent = some (L1.erase C)) ∧
      C ∉ L1.erase C := by
  obtain ⟨K, h, hK⟩ := hI
  obtain ⟨A, B, hAB⟩ := hK.exists_split hC hP0
  obtain ⟨rP1, hP1, hCA, hCB, hnd, -, hnext, -⟩ := hK.split hC hP0 hAB
  obtain ⟨hPC, -, hmemB, -, -⟩ := hK.split_mem hC hP0 hAB
  have hI1 := hK.unlink hC hP0 hAB
  have hLK : L1 = K rC.parent := hK.iterate_inv hP1 hL
  have hLAB : L1.erase C = A ++ B := by
    rw [hLK, hAB, List.erase_append_right _ hCA, List.erase_cons_head]
  have hCAB : C ∉ A ++ B := by
    intro hm
    rcases List.mem_append.1 hm with h1 | h1
    · exact hCA h1
    · exact hCB h1
  -- the state after `unparent`
  have hC1 : (⟨reg.next, reg.alive, unlink_rel reg.rel C rC⟩ : registry).rel C =
      some { rC with parent := null } := unlink_rel_self _ _ _
  obtain ⟨rP2', hP2', -⟩ := unlink_rel_some rC h2C hP2
  have hP2'' : (⟨reg.next, reg.alive, unlink_rel reg.rel C rC⟩ : registry).rel P2 =
      some rP2' := hP2'
  have hP1' : (⟨reg.next, reg.alive, unlink_rel reg.rel C rC⟩ : registry).rel rC.parent =
      some _ := unlink_rel_parent reg.rel hPC hP1
  have hK2 : Function.update K rC.parent (A ++ B) P2 = K P2 := Function.update_noteq h12 _ _
  have hK1 : Function.update K rC.parent (A ++ B) rC.parent = A ++ B :=
    Function.update_same _ _ _
  have hatt := hI1.attach_eq hP2'' hC1 (Ne.symm h2C) rfl
  have hvC := hK.valid_of_rel hC
  have hvP2 := hK.valid_of_rel hP2
  have hre : reparent reg C P2 = some ⟨reg.next, reg.alive,
      attach_rel (unlink_rel reg.rel C rC) P2 C rP2' { rC with parent := null }⟩ := by
    simp only [reparent, hvC, hvP2, Bool.not_true, Bool.or_self, Bool.false_eq_true, if_false,
      hK.unparent_eq hC hP0]
    exact hatt
  -- records of the final state
  have hCf := attach_rel_child (unlink_rel reg.rel C rC) rP2' { rC with parent := null }
    (Ne.symm h2C)
  have hP2f := attach_rel_parent (unlink_rel reg.rel C rC) P2 C rP2' { rC with parent := null }
  have hC0 := hK.ne_null hC
  -- the segment of the old siblings after `C` survives
  have hsegAB := hI1.sibs _ _ hP1'
  rw [hK1] at hsegAB
  have hsegAB2 : seg ⟨reg.next, reg.alive,
      attach_rel (unlink_rel reg.rel C rC) P2 C rP2' { rC with parent := null }⟩
      rC.parent null (A ++ B) null := by
    apply seg_congr _ hsegAB
    intro x hx r hr
    exact hI1.attach_links hP2'' hC1 rfl hP1' (by rw [hK1]; exact hx)
      (fun e => absurd e.symm h12) hr
  have hsegB2 := ((seg_append _ _ _ _ _ _).1 hsegAB2).2
  have hsegP2 := hI1.attach_seg hP2'' hC1 rfl
  rw [hK2] at hsegP2
  have hvalid : ∀ e, (⟨reg.next, reg.alive,
      attach_rel (unlink_rel reg.rel C rC) P2 C rP2' { rC with parent := null }⟩ :
        registry).valid e = reg.valid e := fun e => rfl
  refine ⟨_, hre, ⟨_, hCf, rfl⟩, ⟨(K P2).length + (1 + (B.length + 0)), K P2 ++ C :: B, ?_, ?_⟩,
    ?_, by rw [hLAB]; exact hCAB⟩
  · intro m hm
    rw [iterate_eq_walk ((hvalid P2).trans hvP2) hP2f m]
    apply walk_mono _ m hm
    have hw0 : walk ⟨reg.next, reg.alive,
        attach_rel (unlink_rel reg.rel C rC) P2 C rP2' { rC with parent := null }⟩
        ⟨null⟩ 0 ⟨null⟩ = some [] := by simp only [walk, if_true]
    have hwB := walk_seg_append hsegB2 hw0
    rw [List.append_nil] at hwB
    have hsegC : seg ⟨reg.next, reg.alive,
        attach_rel (unlink_rel reg.rel C rC) P2 C rP2' { rC with parent := null }⟩
        P2 (if rP2'.last_child = null then rC.prev_sibling else rP2'.last_child) [C]
        (B.headD null) := ⟨hC0, _, hCf, rfl, rfl, hnext, trivial⟩
    have hwC := walk_seg_append hsegC hwB
    have hwP := walk_seg_append hsegP2 hwC
    have hfirst : (if rP2'.last_child = null then C else rP2'.first_child) =
        (K P2).headD C := by
      have hlf := hI1.last_facts hP2''
      rw [hK2] at hlf
      by_cases hl : rP2'.last_child = null
      · rw [if_pos hl, hlf.1.1 hl]; rfl
      · rw [if_neg hl]
        have h1 := hI1.first _ _ hP2''
        rw [hK2] at h1
        rw [h1]
        cases hKP : K P2 with
        | nil => exact absurd (hlf.1.2 hKP) hl
        | cons a L => rfl
    show walk _ ⟨null⟩ _ ⟨if rP2'.last_child = null then C else rP2'.first_child⟩ = _
    rw [hfirst]
    exact hwP
  · have h1 : C ∉ K P2 := by
      intro hm
      obtain ⟨-, r, hr, hpar⟩ := hK.child hP2 hm
      rw [hC] at hr
      cases hr
      exact h12 hpar.symm
    rw [List.count_append, List.count_cons_self, List.count_eq_zero_of_not_mem h1,
      List.count_eq_zero_of_not_mem hCB]
  · intro m hm
    have hP1f : ∃ r1, attach_rel (unlink_rel reg.rel C rC) P2 C rP2' { rC with parent := null }
        rC.parent = some r1 ∧ r1.first_child = (A ++ B).headD null := by
      obtain ⟨r1, hr1, -, -, h3, -⟩ := attach_rel_some C { rC with parent := null } hP2'
        hPC hP1'
      refine ⟨r1, hr1, ?_⟩
      rw [(h3 (Ne.symm h12)).1]
      have h4 := hI1.first _ _ hP1'
      rw [hK1] at h4
      exact h4
    obtain ⟨r1, hr1, hf1⟩ := hP1f
    have hvP1 := hK.valid_of_rel hP1
    rw [iterate_eq_walk ((hvalid _).trans hvP1) hr1 m, hf1, hLAB]
    apply walk_seg hsegAB2
    rw [hLK, hAB, List.length_append, List.length_cons] at hm
    rw [List.length_append]
    omega

/-- Witness of C4: moving the first child of the root 1 to the root 2. -/
theorem reparent_isolation_witness :
    Inv ex_family ∧ ex_family.rel 3 = some
      { parent := 1, first_child := null, last_child := null, prev_sibling := null,
        next_sibling := 4, child_count := 0 } ∧
    (1 : entity) ≠ null ∧ ex_family.rel 2 = some relationship.fresh ∧ (2 : entity) ≠ 1 ∧
    (2 : entity) ≠ 3 ∧ iterate 2 ex_family 1 = some [3, 4] ∧
    ∃ reg1, reparent ex_family 3 2 = some reg1 ∧
      (∃ r, reg1.rel 3 = some r ∧ r.parent = 2) ∧
      (∃ f L2, (∀ m, f ≤ m → iterate m reg1 2 = some L2) ∧ L2.count 3 = 1) ∧
      (∀ m, [3, 4].length - 1 ≤ m → iterate m reg1 1 = some ([3, 4].erase 3)) ∧
      3 ∉ [3, 4].erase 3 :=
  ⟨ex_family_inv, rfl, by decide, rfl, by decide, by decide, rfl,
    reparent_isolation ex_family 3 2
      { parent := 1, first_child := null, last_child := null, prev_sibling := null,
        next_sibling := 4, child_count := 0 } relationship.fresh 2 [3, 4] ex_family_inv rfl
      (by decide) rfl (by decide) (by decide) rfl⟩

/-! ## The cursor -/

theorem seg_drop {reg : registry} {p : entity} {L : List entity} {prev nxt : entity}
    (hs : seg reg p prev L nxt) (j : Nat) (hj : j < L.length) :
    ∃ x r, (L.drop j).headD nxt = x ∧ x ≠ null ∧ reg.rel x = some r ∧ r.parent = p ∧
      r.next_sibling = (L.drop (j + 1)).headD nxt := by
  induction L generalizing prev j with
  | nil => simp at hj
  | cons a L ih =>
    obtain ⟨ha, r, hr, hpar, -, hnx, hs1⟩ := hs
    cases j with
    | zero => exact ⟨a, r, rfl, ha, hr, hpar, hnx⟩
    | succ j =>
      have hj1 : j < L.length := by simpa using hj
      exact ih hs1 j hj1

theorem advance_seg {reg : registry} {p : entity} {L : List entity} {prev nxt : entity}
    (hs : seg reg p prev L nxt) (j : Nat) (hj : j ≤ L.length) :
    advance reg j ⟨L.headD nxt⟩ = some ⟨(L.drop j).headD nxt⟩ := by
  induction j with
  | zero => rfl
  | succ j ih =>
    obtain ⟨x, r, hx, hx0, hr, -, hnx⟩ := seg_drop hs j (by omega)
    rw [advance, ih (by omega), hx]
    simp only [child_iterator.incr, registry.get, if_neg hx0, hr, hnx]

theorem drop_last_headD (L : List entity) (d : entity) (hL : L ≠ []) :
    (L.drop (L.length - 1)).headD d = L.getLastD d := by
  induction L generalizing d with
  | nil => exact absurd rfl hL
  | cons a L ih =>
    cases L with
    | nil => rfl
    | cons b L =>
      have h1 : (a :: b :: L).length - 1 = ((b :: L).length - 1) + 1 := by simp
      rw [h1, List.drop_succ_cons, ih d (by simp), List.getLastD_cons, List.getLastD_cons,
        List.getLastD_cons]

/-- C11: the cursor started at `children(P).begin()` equals `end()` after
exactly `child_count` increments and not before; the handles it passes have `P`
as parent, the first is `first_child`, the last is `last_child`, and every
increment moves to the `next_sibling` of the current handle. -/
theorem cursor_reaches_end (reg : registry) (P : entity) (r : relationship)
    (hI : Inv reg) (hP : reg.rel P = some r) :
    ∃ range, children reg P = some range ∧ range.begin.deref = r.first_child ∧
      advance reg r.child_count range.begin = some range.end_iter ∧
      (∀ j, j < r.child_count → ∃ it rc, advance reg j range.begin = some it ∧
        it ≠ range.end_iter ∧ reg.rel it.deref = some rc ∧ rc.parent = P ∧
        advance reg (j + 1) range.begin = some ⟨rc.next_sibling⟩) ∧
      (0 < r.child_count →
        advance reg (r.child_count - 1) range.begin = some ⟨r.last_child⟩) := by
  obtain ⟨K, h, hK⟩ := hI
  have hs := hK.sibs P r hP
  have hcount := hK.count P r hP
  refine ⟨⟨(K P).headD null⟩, hK.children_eq hP, (hK.first P r hP).symm, ?_, ?_, ?_⟩
  · have h1 := advance_seg hs (K P).length (le_refl _)
    rw [List.drop_length] at h1
    rw [hcount]
    exact h1
  · intro j hj
    rw [hcount] at hj
    obtain ⟨x, rc, hx, hx0, hr, hpar, hnx⟩ := seg_drop hs j hj
    refine ⟨⟨x⟩, rc, ?_, ?_, hr, hpar, ?_⟩
    · have h1 := advance_seg hs j (le_of_lt hj)
      rw [hx] at h1
      exact h1
    · intro e
      exact hx0 (congrArg child_iterator.current_entity e)
    · have h1 := advance_seg hs (j + 1) hj
      rw [← hnx] at h1
      exact h1
  · intro hpos
    rw [hcount] at hpos ⊢
    have hne : K P ≠ [] := List.ne_nil_of_length_pos hpos
    have h1 := advance_seg hs ((K P).length - 1) (Nat.sub_le _ _)
    rw [drop_last_headD _ _ hne, ← hK.last P r hP] at h1
    exact h1

/-- Witness of C11: the root of the example with one child. -/
theorem cursor_reaches_end_witness :
    Inv ex_child ∧ ex_child.rel 1 = some
      { parent := null, first_child := 2, last_child := 2, prev_sibling := null,
        next_sibling := null, child_count := 1 } ∧
    ∃ range, children ex_child 1 = some range ∧ range.begin.deref = 2 ∧
      advance ex_child 1 range.begin = some range.end_iter ∧
      (∀ j, j < 1 → ∃ it rc, advance ex_child j range.begin = some it ∧
        it ≠ range.end_iter ∧ ex_child.rel it.deref = some rc ∧ rc.parent = 1 ∧
        advance ex_child (j + 1) range.begin = some ⟨rc.next_sibling⟩) ∧
      (0 < 1 → advance ex_child (1 - 1) range.begin = some ⟨2⟩) :=
  ⟨ex_child_inv, rfl, cursor_reaches_end ex_child 1 _ ex_child_inv ex_child_rel⟩

/-- C18: after the `next_sibling` of a child `C` of `P` has been set to `P`,
where the `next_sibling` of `P` is null, iterating the children of `P` ends: it
yields the children up to `C` and then `P`, one step more than the position of
`C`. -/
theorem circular_sibling_iteration_ends (reg reg1 : registry) (P C : entity)
    (rP : relationship) (A B : List entity) (n : Nat) (hI : Inv reg)
    (hP : reg.rel P = some rP) (hnx : rP.next_sibling = null)
    (hL : iterate n reg P = some (A ++ C :: B))
    (hm : modify reg C (fun r => { r with next_sibling := P }) = some reg1) :
    (∀ m, A.length + 2 ≤ m → iterate m reg1 P = some (A ++ [C, P])) ∧
    (A ++ [C, P]).length = A.length + 2 := by
  obtain ⟨K, h, hK⟩ := hI
  have hKP : K P = A ++ C :: B := (hK.iterate_inv hP hL).symm
  have hCm : C ∈ K P := by rw [hKP]; exact List.mem_append_right _ (List.mem_cons_self _ _)
  obtain ⟨hC0, rC, hC, hpar⟩ := hK.child hP hCm
  have hP0 := hK.ne_null hP
  have hPC : P ≠ C := by
    intro e
    have h1 := hK.child_lt hP hCm
    rw [e] at h1
    exact lt_irrefl _ h1
  rw [modify_some hC0 hC] at hm
  cases hm
  have hnd := hK.nodup P rP hP
  rw [hKP] at hnd
  have hCA : C ∉ A := fun hx => (List.nodup_append.1 hnd).2.2 hx (List.mem_cons_self _ _)
  have hs := hK.sibs P rP hP
  rw [hKP, seg_append] at hs
  obtain ⟨hsA, -, r, hr, hpar1, hpv, -, -⟩ := hs
  rw [hC] at hr
  cases hr
  have hsA1 : seg ⟨reg.next, reg.alive,
      Function.update reg.rel C (some { rC with next_sibling := P })⟩ P null A C := by
    apply seg_congr _ hsA
    intro x hx r2 hr2
    have hxC : x ≠ C := fun e => hCA (e ▸ hx)
    exact ⟨r2, by show Function.update reg.rel C _ x = some r2
                  rw [Function.update_noteq hxC]; exact hr2, rfl, rfl, rfl⟩
  have hsC : seg ⟨reg.next, reg.alive,
      Function.update reg.rel C (some { rC with next_sibling := P })⟩ P (A.getLastD null)
      [C] P :=
    ⟨hC0, _, Function.update_same _ _ _, hpar1, hpv, rfl, trivial⟩
  have hP1 : (⟨reg.next, reg.alive,
      Function.update reg.rel C (some { rC with next_sibling := P })⟩ : registry).rel P =
      some rP := by
    show Function.update reg.rel C _ P = some rP
    rw [Function.update_noteq hPC]; exact hP
  have hsP : seg ⟨reg.next, reg.alive,
      Function.update reg.rel C (some { rC with next_sibling := P })⟩ rP.parent
      rP.prev_sibling [P] null :=
    ⟨hP0, _, hP1, rfl, rfl, hnx, trivial⟩
  have hw0 : walk ⟨reg.next, reg.alive,
      Function.update reg.rel C (some { rC with next_sibling := P })⟩ ⟨null⟩ 0 ⟨null⟩ =
      some [] := by simp only [walk, if_true]
  have hw := walk_seg_append hsA1 (walk_seg_append hsC (walk_seg_append hsP hw0))
  constructor
  · intro m hm
    have hv : (⟨reg.next, reg.alive,
        Function.update reg.rel C (some { rC with next_sibling := P })⟩ : registry).valid P =
        true := hK.valid_of_rel hP
    rw [iterate_eq_walk hv hP1 m, hK.first P rP hP, hKP, headD_append]
    apply walk_mono hw m
    simp only [List.length_cons, List.length_nil]
    omega
  · simp

/-- Witness of C18: the scenario of `TEST(Relationship,
CircularReferencePrevention)`. -/
theorem circular_sibling_iteration_ends_witness :
    Inv ex_child ∧ ex_child.rel 1 = some
      { parent := null, first_child := 2, last_child := 2, prev_sibling := null,
        next_sibling := null, child_count := 1 } ∧
    (null : entity) = null ∧ iterate 1 ex_child 1 = some ([] ++ 2 :: []) ∧
    modify ex_child 2 (fun r => { r with next_sibling := 1 }) = some ex_circular ∧
    ((∀ m, ([] : List entity).length + 2 ≤ m →
      iterate m ex_circular 1 = some ([] ++ [2, 1])) ∧
    (([] : List entity) ++ [2, 1]).length = ([] : List entity).length + 2) :=
  ⟨ex_child_inv, rfl, rfl, rfl, rfl,
    circular_sibling_iteration_ends ex_child ex_circular 1 2 _ [] [] 1 ex_child_inv
      ex_child_rel rfl rfl rfl⟩

/-! ## Destroying the children one by one -/

theorem destroy_post_alive {K : entity → List entity} {h : entity → Nat} {reg reg1 : registry}
    {E : entity} {rE : relationship} (post : destroy_post K h reg E rE reg1) (e : entity)
    (he : reg.alive e = false) : reg1.alive e = false := by
  by_cases ha : anc reg E e
  · exact (post.gone e ha).2
  · rw [(post.kept e ha).1]; exact he

theorem destroy_each_spec {h : entity → Nat} (cs : List entity) :
    ∀ (T : List entity) (K : entity → List entity) (reg : registry) (R : entity)
      (rR : relationship), InvK K h reg → reg.rel R = some rR → K R = cs ++ T →
      ∃ f reg1, (∀ m, f ≤ m → destroy_each m reg cs = some reg1) ∧
        (∃ K1 rR1, InvK K1 h reg1 ∧ reg1.rel R = some rR1 ∧ K1 R = T) ∧
        (∀ c ∈ cs, reg1.alive c = false) ∧
        (∀ e, reg.alive e = false → reg1.alive e = false) := by
  induction cs with
  | nil =>
    intro T K reg R rR hI hR hK
    exact ⟨0, reg, fun m _ => rfl, ⟨K, rR, hI, hR, hK⟩,
      fun c hc => absurd hc (List.not_mem_nil c), fun e he => he⟩
  | cons c cs ih =>
    intro T K reg R rR hI hR hK
    have hcm : c ∈ K R := by rw [hK]; exact List.mem_cons_self _ _
    obtain ⟨hc0, rc, hc, hpar⟩ := hI.child hR hcm
    obtain ⟨f1, reg', hd1, post⟩ :=
      destroy_spec (h c + 1) K reg c rc hI hc (Nat.lt_succ_self _)
    obtain ⟨K1, hI1, hK1⟩ := post.inv
    have hP0 : rc.parent ≠ null := by rw [hpar]; exact hI.ne_null hR
    have hna : ¬ anc reg c R := hI.not_anc_parent hR hcm
    have hRc : R ≠ c := fun e => hna (e ▸ anc.self)
    obtain ⟨rR', hR', -⟩ := unlink_rel_some rc hRc hR
    have hR1 : reg'.rel R = some rR' := by
      rw [(post.kept R hna).2]
      simp only [detach_rel, if_neg hP0]
      exact hR'
    have hK1R : K1 R = cs ++ T := by
      rw [hK1 R rR' hR1, if_pos hpar.symm, hK]
      exact List.erase_cons_head c (cs ++ T)
    obtain ⟨f2, reg1, hd2, hK2, hdead, hmono⟩ := ih T K1 reg' R rR' hI1 hR1 hK1R
    refine ⟨max f1 f2, reg1, ?_, hK2, ?_, ?_⟩
    · intro m hm
      rw [destroy_each, hd1 m (le_trans (le_max_left _ _) hm)]
      exact hd2 m (le_trans (le_max_right _ _) hm)
    · intro x hx
      rcases List.mem_cons.1 hx with e | hx
      · rw [e]; exact hmono c (post.gone c anc.self).2
      · exact hdead x hx
    · intro e he
      exact hmono e (destroy_post_alive post e he)

/-- C13: create a root, create `k` children of it, destroy each child once in
creation order: the root is still valid, it has no children (iteration yields
nothing, `first_child` and `last_child` are null, `child_count` is 0) and the
`k` children are invalid. -/
theorem create_then_destroy_children (k : Nat) (reg0 reg1 reg2 : registry) (R : entity)
    (cs : List entity) (hI : Inv reg0) (h1 : create reg0 = some (reg1, R))
    (h2 : create_children k reg1 R = some (reg2, cs)) :
    cs.length = k ∧
    ∃ f reg3, (∀ m, f ≤ m → destroy_each m reg2 cs = some reg3) ∧
      reg3.valid R = true ∧ (∀ m, iterate m reg3 R = some []) ∧
      (∃ r, reg3.rel R = some r ∧ r.first_child = null ∧ r.last_child = null ∧
        r.child_count = 0) ∧
      ∀ c ∈ cs, reg3.valid c = false := by
  obtain ⟨K, h, hK⟩ := hI
  obtain ⟨hlt, rfl, rfl⟩ := create_some h1
  have hI1 := hK.after_create hlt
  have hKR : K reg0.next = [] := hK.clean _ (hK.fresh_none (le_refl _))
  have hR1 : (⟨reg0.next + 1, Function.update reg0.alive reg0.next true,
      Function.update reg0.rel reg0.next (some relationship.fresh)⟩ : registry).rel reg0.next
      = some relationship.fresh := Function.update_same _ _ _
  obtain ⟨h3, rR2, hI2, hR2, hcs, -⟩ :=
    hI1.create_children_spec k K h _ reg0.next _ reg2 cs hR1 h2
  have hK2 : Function.update K reg0.next (K reg0.next ++ cs) reg0.next = cs ++ [] := by
    rw [Function.update_same, hKR, List.append_nil, List.nil_append]
  obtain ⟨f, reg3, hd, ⟨K3, rR3, hI3, hR3, hK3⟩, hdead, -⟩ :=
    destroy_each_spec cs [] _ reg2 reg0.next rR2 hI2 hR2 hK2
  refine ⟨by rw [hcs, List.length_range'], f, reg3, hd, hI3.valid_of_rel hR3, ?_,
    ⟨rR3, hR3, ?_, ?_, ?_⟩, ?_⟩
  · intro m
    have h4 := hI3.iterate_eq hR3 m
    rw [hK3] at h4
    exact h4 (Nat.zero_le _)
  · rw [hI3.first _ _ hR3, hK3]; rfl
  · rw [hI3.last _ _ hR3, hK3]; rfl
  · rw [hI3.count _ _ hR3, hK3]; rfl
  · intro c hc
    simp only [registry.valid, hdead c hc, Bool.and_false]

/-- Witness of C13: two children under a root created in the empty registry. -/
theorem create_then_destroy_children_witness :
    Inv registry.init ∧ create registry.init = some (ex_root, 1) ∧
    create_children 2 ex_root 1 = some (ex_two_children, [2, 3]) ∧
    (([2, 3] : List entity).length = 2 ∧
    ∃ f reg3, (∀ m, f ≤ m → destroy_each m ex_two_children [2, 3] = some reg3) ∧
      reg3.valid 1 = true ∧ (∀ m, iterate m reg3 1 = some []) ∧
      (∃ r, reg3.rel 1 = some r ∧ r.first_child = null ∧ r.last_child = null ∧
        r.child_count = 0) ∧
      ∀ c ∈ ([2, 3] : List entity), reg3.valid c = false) :=
  ⟨Inv.at_start, rfl, rfl,
    create_then_destroy_children 2 registry.init ex_root ex_two_children 1 [2, 3]
      Inv.at_start rfl rfl⟩

/-! ## Frame of `create_child` -/

/-- C19, as amended: in a state whose next unissued handle is unused, for a valid
`P` with a record whose `last_child` is null or another entity with a record,
a returning `create_child(P)` issues that handle `N`, makes it valid, writes the
record of `P` (`child_count` incremented modulo 2^64, `last_child` `N`,
`first_child` `N` exactly when `last_child` was null), the `next_sibling` of the
former last child and the new record of `N`, and nothing else. -/
theorem create_child_frame (reg reg1 : registry) (P N : entity) (rP : relationship)
    (h0 : reg.rel null = none) (hpos : 0 < reg.next) (hfresh : reg.rel reg.next = none)
    (hdead : reg.alive reg.next = false) (hv : reg.valid P = true)
    (hP : reg.rel P = some rP)
    (hlast : rP.last_child = null ∨
      (rP.last_child ≠ P ∧ ∃ rl, reg.rel rP.last_child = some rl))
    (hc : create_child reg P = some (reg1, N)) :
    N = reg.next ∧ N ≠ null ∧ reg.valid N = false ∧ reg1.valid N = true ∧
    (∀ e, e ≠ N → reg1.valid e = reg.valid e) ∧
    reg1.rel P = some
      { rP with first_child := if rP.last_child = null then N else rP.first_child,
                last_child := N,
                child_count := (rP.child_count + 1) % size_mod } ∧
    reg1.rel N = some { relationship.fresh with parent := P, prev_sibling := rP.last_child } ∧
    (rP.last_child ≠ null → ∃ rl, reg.rel rP.last_child = some rl ∧
      reg1.rel rP.last_child = some { rl with next_sibling := N }) ∧
    (∀ e, e ≠ P → e ≠ N → e ≠ rP.last_child → reg1.rel e = reg.rel e) := by
  have hlt := create_child_some hv hc
  have hP0 := valid_ne_null hv
  have hN0 : reg.next ≠ null := by unfold null; omega
  have hNP : reg.next ≠ P := by
    intro e; rw [e, hP] at hfresh; cases hfresh
  have hP1 : Function.update reg.rel reg.next (some relationship.fresh) P = some rP := by
    rw [Function.update_noteq (Ne.symm hNP)]; exact hP
  have hN1 : Function.update reg.rel reg.next (some relationship.fresh) reg.next =
      some relationship.fresh := Function.update_same _ _ _
  have h01 : Function.update reg.rel reg.next (some relationship.fresh) null = none := by
    rw [Function.update_noteq (Ne.symm hN0)]; exact h0
  have hlN : rP.last_child ≠ null → rP.last_child ≠ reg.next ∧ rP.last_child ≠ P ∧
      ∃ rl, reg.rel rP.last_child = some rl := by
    intro hne
    rcases hlast with h1 | ⟨h1, rl, hrl⟩
    · exact absurd h1 hne
    · refine ⟨?_, h1, rl, hrl⟩
      intro e; rw [e, hfresh] at hrl; cases hrl
  have hatt := @attach_child_eq ⟨reg.next + 1, Function.update reg.alive reg.next true,
      Function.update reg.rel reg.next (some relationship.fresh)⟩ P reg.next rP
    relationship.fresh h01 hP0 hN0 hP1 hN1 hNP
    (by
      intro hne
      obtain ⟨h1, h2, rl, hrl⟩ := hlN hne
      exact ⟨⟨rl, by
        show Function.update reg.rel reg.next _ rP.last_child = some rl
        rw [Function.update_noteq h1]; exact hrl⟩, h1, h2⟩)
  simp only [create_child, hv, Bool.not_true, Bool.false_eq_true, if_false, create_eq hlt,
    hatt, Option.some.injEq, Prod.mk.injEq] at hc
  obtain ⟨rfl, rfl⟩ := hc
  refine ⟨rfl, hN0, ?_, ?_, ?_, attach_rel_parent _ _ _ _ _, ?_, ?_, ?_⟩
  · simp only [registry.valid, hdead, Bool.and_false]
  · have h1 : (reg.next != null) = true := bne_iff_ne.2 hN0
    simp only [registry.valid, h1, Function.update_same, Bool.and_self]
  · intro e he
    simp only [registry.valid, Function.update_noteq he]
  · show attach_rel _ P reg.next rP relationship.fresh reg.next = _
    rw [attach_rel_child _ rP relationship.fresh hNP]
    by_cases hl : rP.last_child = null
    · rw [if_pos hl, hl]; rfl
    · rw [if_neg hl]
  · intro hne
    obtain ⟨h1, h2, rl, hrl⟩ := hlN hne
    refine ⟨rl, hrl, ?_⟩
    show attach_rel _ P reg.next rP relationship.fresh rP.last_child = _
    apply attach_rel_last _ P reg.next rP relationship.fresh rl h2 h1
    rw [Function.update_noteq h1]; exact hrl
  · intro e h1 h2 h3
    show attach_rel _ P reg.next rP relationship.fresh e = _
    rw [attach_rel_other h1 h2 h3, Function.update_noteq h2]

/-- C19, as stated, fails: in the example where the root 1 is its own last
child, `create_child(1)` returns 2 and changes the `next_sibling` of 1 from null
to 2. -/
theorem create_child_frame_fails_self_last :
    ex_self_last.valid 1 = true ∧
    ex_self_last.rel 1 = some
      { parent := null, first_child := null, last_child := 1, prev_sibling := null,
        next_sibling := null, child_count := 0 } ∧
    (create_child ex_self_last 1).map (fun p => p.2) = some 2 ∧
    (create_child ex_self_last 1).bind (fun p => p.1.rel 1) = some
      { parent := null, first_child := null, last_child := 2, prev_sibling := null,
        next_sibling := 2, child_count := 1 } :=
  ⟨rfl, rfl, rfl, rfl⟩

/-- Witness of the amended C19: the first child of the root of the example. -/
theorem create_child_frame_witness :
    ex_root.rel null = none ∧ 0 < ex_root.next ∧ ex_root.rel ex_root.next = none ∧
    ex_root.alive ex_root.next = false ∧ ex_root.valid 1 = true ∧
    ex_root.rel 1 = some relationship.fresh ∧
    (relationship.fresh.last_child = null ∨
      (relationship.fresh.last_child ≠ 1 ∧
        ∃ rl, ex_root.rel relationship.fresh.last_child = some rl)) ∧
    create_child ex_root 1 = some (ex_child, 2) ∧
    ((2 : entity) = ex_root.next ∧ (2 : entity) ≠ null ∧ ex_root.valid 2 = false ∧
      ex_child.valid 2 = true ∧
      (∀ e, e ≠ 2 → ex_child.valid e = ex_root.valid e) ∧
      ex_child.rel 1 = some
        { relationship.fresh with
            first_child := if relationship.fresh.last_child = null then 2
                           else relationship.fresh.first_child,
            last_child := 2,
            child_count := (relationship.fresh.child_count + 1) % size_mod } ∧
      ex_child.rel 2 = some
        { relationship.fresh with parent := 1,
                                  prev_sibling := relationship.fresh.last_child } ∧
      (relationship.fresh.last_child ≠ null →
        ∃ rl, ex_root.rel relationship.fresh.last_child = some rl ∧
          ex_child.rel relationship.fresh.last_child = some { rl with next_sibling := 2 }) ∧
      (∀ e, e ≠ 1 → e ≠ 2 → e ≠ relationship.fresh.last_child →
        ex_child.rel e = ex_root.rel e)) :=
  ⟨rfl, by decide, rfl, rfl, rfl, rfl, Or.inl rfl, rfl,
    create_child_frame ex_root ex_child 1 2 relationship.fresh rfl (by decide) rfl rfl rfl rfl
      (Or.inl rfl) rfl⟩

/-! ## A chain of single children -/

theorem create_chain_succ_some {n : Nat} {reg reg1 : registry} {R : entity}
    {cs : List entity} (hc : create_chain (n + 1) reg R = some (reg1, cs)) :
    ∃ reg2 c cs1, create_child reg R = some (reg2, c) ∧
      create_chain n reg2 c = some (reg1, cs1) ∧ cs = c :: cs1 := by
  rw [create_chain] at hc
  cases h1 : create_child reg R with
  | none => rw [h1] at hc; cases hc
  | some p =>
    obtain ⟨reg2, c⟩ := p
    rw [h1] at hc
    simp only at hc
    cases h2 : create_chain n reg2 c with
    | none => rw [h2] at hc; cases hc
    | some q =>
      obtain ⟨reg3, cs1⟩ := q
      rw [h2] at hc
      simp only [Option.some.injEq, Prod.mk.injEq] at hc
      obtain ⟨rfl, rfl⟩ := hc
      exact ⟨reg2, c, cs1, rfl, h2, rfl⟩

/-- The chain built by `n` nested calls of `create_child` below a leaf `R`. -/
theorem create_chain_spec (n : Nat) :
    ∀ (K : entity → List entity) (h : entity → Nat) (reg : registry) (R : entity)
      (rR : relationship) (reg2 : registry) (cs : List entity),
      InvK K h reg → reg.rel R = some rR → K R = [] →
      create_chain n reg R = some (reg2, cs) →
      cs.length = n ∧ is_chain reg2 R cs ∧ reg2.rel null = none ∧
      ∃ K2 h2, InvK K2 h2 reg2 ∧
        (∀ e, e < reg.next → e ≠ R → K2 e = K e ∧ reg2.rel e = reg.rel e) := by
  induction n with
  | zero =>
    intro K h reg R rR reg2 cs hI hR hKR hc
    simp only [create_chain, Option.some.injEq, Prod.mk.injEq] at hc
    obtain ⟨rfl, rfl⟩ := hc
    refine ⟨rfl, ⟨rR, hR, ?_⟩, hI.rel_null, K, h, hI, fun e _ _ => ⟨rfl, rfl⟩⟩
    rw [hI.first R rR hR, hKR]; rfl
  | succ n ih =>
    intro K h reg R rR reg2 cs hI hR hKR hc
    obtain ⟨reg1, c, cs1, h1, h2, rfl⟩ := create_chain_succ_some hc
    obtain ⟨rfl, rfl, -, hI1⟩ := hI.create_child_result hR h1
    have hN := hI.fresh_none (le_refl reg.next)
    have hRlt : R < reg.next := hI.alive_lt R (hI.rel_alive R rR hR)
    have hNR : reg.next ≠ R := fun e => absurd hRlt (by rw [e]; exact lt_irrefl _)
    have hc1 : (child_state reg R rR).rel reg.next = _ :=
      attach_rel_child _ rR relationship.fresh hNR
    have hKc : Function.update K R (K R ++ [reg.next]) reg.next = [] := by
      rw [Function.update_noteq hNR]; exact hI.clean _ hN
    obtain ⟨hlen, hch, hnull, K2, h3, hI2, hfr⟩ := ih _ _ _ reg.next _ reg2 cs1 hI1 hc1 hKc h2
    have hRlt1 : R < (child_state reg R rR).next := Nat.lt_succ_of_lt hRlt
    obtain ⟨hK2R, hrel2R⟩ := hfr R hRlt1 (Ne.symm hNR)
    have hR1 : (child_state reg R rR).rel R = _ := attach_rel_parent _ R reg.next rR _
    rw [hR1] at hrel2R
    have hK2R' : K2 R = [reg.next] := by
      rw [hK2R, Function.update_same, hKR]; rfl
    have hlast0 : rR.last_child = null := by rw [hI.last R rR hR, hKR]; rfl
    have hcnt0 : rR.child_count = 0 := by rw [hI.count R rR hR, hKR]; rfl
    refine ⟨by rw [List.length_cons, hlen], ⟨⟨_, hrel2R, ?_, ?_, rfl⟩, ?_, hch⟩, hnull,
      K2, h3, hI2, ?_⟩
    · show (rR.child_count + 1) % size_mod = 1
      rw [hcnt0]
      exact Nat.mod_eq_of_lt (by unfold size_mod; norm_num)
    · show (if rR.last_child = null then reg.next else rR.first_child) = reg.next
      rw [if_pos hlast0]
    · intro m hm
      have h4 := hI2.iterate_eq hrel2R m
      rw [hK2R'] at h4
      exact h4 hm
    · intro e he heR
      have he1 : e < (child_state reg R rR).next := Nat.lt_succ_of_lt he
      have heN : e ≠ reg.next := fun e1 => absurd he (by rw [e1]; exact lt_irrefl _)
      obtain ⟨h5, h6⟩ := hfr e he1 heN
      refine ⟨?_, ?_⟩
      · rw [h5, Function.update_noteq heR]
      · rw [h6]
        show attach_rel _ R reg.next rR relationship.fresh e = _
        by_cases hz : e = null
        · have hr0 : reg.rel e = none := by rw [hz]; exact hI.rel_null
          rw [hr0]
          apply attach_rel_none heR heN
          rw [Function.update_noteq heN]
          exact hr0
        · rw [attach_rel_other heR heN (by rw [hlast0]; exact hz),
            Function.update_noteq heN]

theorem is_chain_rel {reg : registry} {R : entity} {cs : List entity}
    (hc : is_chain reg R cs) : ∃ r, reg.rel R = some r := by
  cases cs with
  | nil => obtain ⟨r, hr, -⟩ := hc; exact ⟨r, hr⟩
  | cons c cs => obtain ⟨⟨r, hr, -⟩, -⟩ := hc; exact ⟨r, hr⟩

theorem descend_chain {reg : registry} (h0 : reg.rel null = none) (cs : List entity) :
    ∀ R, is_chain reg R cs → ∀ fuel, cs.length + 1 ≤ fuel →
      descend reg fuel R = some (cs.length, cs.getLastD R) := by
  induction cs with
  | nil =>
    intro R hc fuel hf
    obtain ⟨r, hr, hfirst⟩ := hc
    have hR0 : R ≠ null := by
      intro e; rw [e, h0] at hr; cases hr
    obtain ⟨f, rfl⟩ : ∃ f, fuel = f + 1 := ⟨fuel - 1, by omega⟩
    rw [descend, get_some hR0 hr]
    simp only [hfirst, ne_eq, not_true_eq_false, if_false, List.length_nil, List.getLastD_nil]
  | cons c cs ih =>
    intro R hc fuel hf
    obtain ⟨⟨r, hr, -, hfirst, -⟩, -, hch⟩ := hc
    have hR0 : R ≠ null := by
      intro e; rw [e, h0] at hr; cases hr
    obtain ⟨rc, hrc⟩ := is_chain_rel hch
    have hc0 : c ≠ null := by
      intro e; rw [e, h0] at hrc; cases hrc
    obtain ⟨f, rfl⟩ : ∃ f, fuel = f + 1 := ⟨fuel - 1, by omega⟩
    have hf1 : cs.length + 1 ≤ f := by simpa using hf
    rw [descend, get_some hR0 hr]
    simp only [hfirst, ne_eq, hc0, not_false_eq_true, if_true, ih c hch f hf1,
      List.length_cons, List.getLastD_cons]

/-- C17: a root followed by `n` nested calls of `create_child`, each on the
handle returned by the previous one, gives a chain: following `first_child`
from the root takes exactly `n` steps and ends at the last entity created, every
entity above it has one child, which is its first and last child and what
iterating its children yields. -/
theorem create_chain_depth (n : Nat) (reg0 reg1 reg2 : registry) (R : entity)
    (cs : List entity) (hI : Inv reg0) (h1 : create reg0 = some (reg1, R))
    (h2 : create_chain n reg1 R = some (reg2, cs)) :
    cs.length = n ∧ is_chain reg2 R cs ∧
    ∀ fuel, n + 1 ≤ fuel → descend reg2 fuel R = some (n, cs.getLastD R) := by
  obtain ⟨K, h, hK⟩ := hI
  obtain ⟨hlt, rfl, rfl⟩ := create_some h1
  have hI1 := hK.after_create hlt
  have hKR : K reg0.next = [] := hK.clean _ (hK.fresh_none (le_refl _))
  have hR1 : (⟨reg0.next + 1, Function.update reg0.alive reg0.next true,
      Function.update reg0.rel reg0.next (some relationship.fresh)⟩ : registry).rel reg0.next
      = some relationship.fresh := Function.update_same _ _ _
  obtain ⟨hlen, hch, hnull, -⟩ :=
    create_chain_spec n K h _ reg0.next _ reg2 cs hI1 hR1 hKR h2
  refine ⟨hlen, hch, ?_⟩
  intro fuel hf
  have h3 := descend_chain hnull cs reg0.next hch fuel (by rw [hlen]; exact hf)
  rw [hlen] at h3
  exact h3

/-- Witness of C17: a chain of depth two below a root created in the empty
registry. -/
theorem create_chain_depth_witness :
    Inv registry.init ∧ create registry.init = some (ex_root, 1) ∧
    create_chain 2 ex_root 1 = some (state_of (create_child ex_child 2), [2, 3]) ∧
    (([2, 3] : List entity).length = 2 ∧
      is_chain (state_of (create_child ex_child 2)) 1 [2, 3] ∧
      ∀ fuel, 2 + 1 ≤ fuel →
        descend (state_of (create_child ex_child 2)) fuel 1 =
          some (2, ([2, 3] : List entity).getLastD 1)) :=
  ⟨Inv.at_start, rfl, rfl,
    create_chain_depth 2 registry.init ex_root (state_of (create_child ex_child 2)) 1 [2, 3]
      Inv.at_start rfl rfl⟩

/-- In every state `unparent` of a valid entity whose record has a null parent
reads the record of the null handle and has no result. -/
theorem unparent_of_root (reg : registry) (C : entity) (rC : relationship)
    (hv : reg.valid C = true) (hC : reg.rel C = some rC) (hroot : rC.parent = null) :
    unparent reg C = none := by
  have hC0 := valid_ne_null hv
  have hget : get_relationship reg rC.parent = none := by
    simp only [get_relationship, registry.get, hroot, if_true]
  simp only [unparent, hv, Bool.not_true, Bool.false_eq_true, if_false, get_some hC0 hC, hget]

/-- In every state `reparent` of a valid root under a valid entity has no result
either, through its call of `unparent`. -/
theorem reparent_of_root (reg : registry) (C P2 : entity) (rC : relationship)
    (hv : reg.valid C = true) (hv2 : reg.valid P2 = true) (hC : reg.rel C = some rC)
    (hroot : rC.parent = null) : reparent reg C P2 = none := by
  simp only [reparent, hv, hv2, Bool.not_true, Bool.or_self, Bool.false_eq_true, if_false,
    unparent_of_root reg C rC hv hC hroot]

end entt_ext
